import Mathlib

/-!
Verification of the compressed sparse matrix engine of a matrix library.

The development shallowly embeds the Rust sources:
* `src/compressed.rs` — the `Compressed` storage type with `get`, `set`,
  `retain`, `resize`, the sparse iterator, `transpose`, and the conversions
  `Dense → Compressed` and `Compressed → Dense`;
* `src/format/compressed/operation.rs` — the sparse-left multiplication
  kernel `multiply_matrix_left` and the `MultiplyInto` entry point.

Machine integers are modelled by `Nat`, matrix elements by `Int`.
Out-of-range indexing (which panics in Rust) is modelled totally with
`List.getD` / `List.set`; every theorem below carries the structural
invariant hypotheses under which the Rust code performs no out-of-range
access, so the models agree with the source on all inputs the theorems
speak about.
-/

namespace MatrixRust

/-- The storage format of a compressed matrix (`enum Format` in
`compressed.rs`; the later revision of the crate calls it `Variant`). -/
inductive Format where
  | Column : Format
  | Row : Format
deriving DecidableEq, Repr

/-- `struct Compressed<T>` from `compressed.rs`, with `T = Int`. -/
structure Compressed where
  rows : Nat
  columns : Nat
  nonzeros : Nat
  format : Format
  values : List Int
  indices : List Nat
  offsets : List Nat
deriving DecidableEq, Repr

/-- `struct Dense<T>` (a column-major buffer of `rows * columns` elements). -/
structure Dense where
  rows : Nat
  columns : Nat
  values : List Int
deriving DecidableEq, Repr

/-- The coordinate swap performed by `if let Format::Row = self.format {
mem::swap(&mut i, &mut j) }`: maps user coordinates to (minor, major). -/
def Format.coords (fmt : Format) (i j : Nat) : Nat × Nat :=
  match fmt with
  | Format.Column => (i, j)
  | Format.Row => (j, i)

/-- The major dimension: columns for `Column`, rows for `Row`. -/
def Compressed.majorDim (m : Compressed) : Nat :=
  match m.format with
  | Format.Column => m.columns
  | Format.Row => m.rows

/-- The minor dimension: rows for `Column`, columns for `Row`. -/
def Compressed.minorDim (m : Compressed) : Nat :=
  match m.format with
  | Format.Column => m.rows
  | Format.Row => m.columns

/-- `Compressed::new` / `Compressed::with_capacity` (capacity only
pre-allocates in Rust and has no observable effect). -/
def Compressed.new (rows columns : Nat) (fmt : Format) : Compressed :=
  { rows := rows
    columns := columns
    nonzeros := 0
    format := fmt
    values := []
    indices := []
    offsets := match fmt with
      | Format.Column => List.replicate (columns + 1) 0
      | Format.Row => List.replicate (rows + 1) 0 }

/-- The scan loop of `Compressed::get`:
`for k in offsets[j]..offsets[j+1] { if indices[k] == i { return values[k] }
if indices[k] > i { break } }` followed by `T::zero()`.  The `fuel`
argument is the number of remaining loop iterations (`stop - k` for the
Rust range), making the recursion structural. -/
def getLoop (values : List Int) (indices : List Nat) (i : Nat) : Nat → Nat → Int
  | _, 0 => 0
  | k, fuel + 1 =>
    if indices.getD k 0 = i then values.getD k 0
    else if i < indices.getD k 0 then 0
    else getLoop values indices i (k + 1) fuel

/-- `Compressed::get`. -/
def Compressed.get (m : Compressed) (i j : Nat) : Int :=
  let p := m.format.coords i j
  getLoop m.values m.indices p.1 (m.offsets.getD p.2 0)
    (m.offsets.getD (p.2 + 1) 0 - m.offsets.getD p.2 0)

/-- The scan loop of `Compressed::set`: returns the final cursor `k` and
whether an exact index match was found (in which case the value is
overwritten in place).  `fuel` is the remaining iteration count. -/
def findSlot (indices : List Nat) (i : Nat) : Nat → Nat → Nat × Bool
  | k, 0 => (k, false)
  | k, fuel + 1 =>
    if indices.getD k 0 = i then (k, true)
    else if i < indices.getD k 0 then (k, false)
    else findSlot indices i (k + 1) fuel

/-- `Compressed::set`. -/
def Compressed.set (m : Compressed) (i j : Nat) (v : Int) : Compressed :=
  let p := m.format.coords i j
  let r := findSlot m.indices p.1 (m.offsets.getD p.2 0)
    (m.offsets.getD (p.2 + 1) 0 - m.offsets.getD p.2 0)
  if r.2 then
    { m with values := m.values.set r.1 v }
  else
    { m with
      nonzeros := m.nonzeros + 1
      values := m.values.insertIdx r.1 v
      indices := m.indices.insertIdx r.1 p.1
      offsets := m.offsets.take (p.2 + 1) ++ (m.offsets.drop (p.2 + 1)).map (fun x => x + 1) }

/-- Iteration core of `advanceMajor` (`fuel` bounds the walk by the length
of `offsets`, which the Rust loop cannot exceed without panicking on an
out-of-range index; on matrices satisfying the structural invariant the
loop condition always fails first). -/
def advanceGo (offsets : List Nat) (k : Nat) : Nat → Nat → Nat
  | major, 0 => major
  | major, fuel + 1 =>
    if offsets.getD (major + 1) 0 ≤ k then advanceGo offsets k (major + 1) fuel
    else major

/-- The major-cursor advance `while offsets[major + 1] <= k { major += 1 }`
shared by `Compressed::retain` and the sparse iterator. -/
def advanceMajor (offsets : List Nat) (k major : Nat) : Nat :=
  advanceGo offsets k major (offsets.length - (major + 1))

/-- The mutable state of `Compressed::retain`'s loop. -/
structure RState where
  values : List Int
  indices : List Nat
  nonzeros : Nat
  offsets : List Nat
deriving DecidableEq, Repr

/-- The loop of `Compressed::retain` (`while k < self.indices.len()`).
`fuel` is the remaining iteration count `indices.len() - k`, which both a
kept element (`k + 1`) and a removed element (`len - 1`) decrease by one. -/
def retainGo (fmt : Format) (cond : Nat → Nat → Int → Bool) :
    RState → Nat → Nat → Nat → RState
  | s, _, _, 0 => s
  | s, k, major, fuel + 1 =>
    let mj := advanceMajor s.offsets k major
    let keep := match fmt with
      | Format.Column => cond (s.indices.getD k 0) mj (s.values.getD k 0)
      | Format.Row => cond mj (s.indices.getD k 0) (s.values.getD k 0)
    if keep then
      retainGo fmt cond s (k + 1) mj fuel
    else
      retainGo fmt cond
        { values := s.values.eraseIdx k
          indices := s.indices.eraseIdx k
          nonzeros := s.nonzeros - 1
          offsets := s.offsets.take (mj + 1) ++ (s.offsets.drop (mj + 1)).map (fun x => x - 1) }
        k mj fuel

/-- `Compressed::retain`. -/
def Compressed.retain (m : Compressed) (cond : Nat → Nat → Int → Bool) : Compressed :=
  let s := retainGo m.format cond
    { values := m.values, indices := m.indices, nonzeros := m.nonzeros, offsets := m.offsets }
    0 0 m.indices.length
  { m with values := s.values, indices := s.indices, nonzeros := s.nonzeros, offsets := s.offsets }

/-- `Compressed::resize`. -/
def Compressed.resize (m : Compressed) (rows columns : Nat) : Compressed :=
  let m1 := if rows < m.rows ∨ columns < m.columns then
      m.retain (fun i j _ => decide (i < rows) && decide (j < columns))
    else m
  let fi : Nat × Nat := match m1.format with
    | Format.Column => (m1.columns, columns)
    | Format.Row => (m1.rows, rows)
  let offsets :=
    if fi.2 < fi.1 then m1.offsets.take (fi.2 + 1)
    else if fi.1 < fi.2 then m1.offsets ++ List.replicate (fi.2 - fi.1) m1.nonzeros
    else m1.offsets
  { m1 with rows := rows, columns := columns, offsets := offsets }

/-- The sparse iterator (`impl Iterator for Iterator<'l, T>`), unfolded to
the list of triples it yields: `(row, column, value)` in storage order.
`fuel` is the number of elements still to yield, `nonzeros - taken`. -/
def iterGo (m : Compressed) : Nat → Nat → Nat → List (Nat × Nat × Int)
  | _, _, 0 => []
  | k, major, fuel + 1 =>
    let mj := advanceMajor m.offsets k major
    let t := match m.format with
      | Format.Column => (m.indices.getD k 0, mj, m.values.getD k 0)
      | Format.Row => (mj, m.indices.getD k 0, m.values.getD k 0)
    t :: iterGo m (k + 1) mj fuel

/-- `Compressed::iter` as the list of yielded triples. -/
def Compressed.toList (m : Compressed) : List (Nat × Nat × Int) :=
  iterGo m 0 0 m.nonzeros

/-- `Matrix::transpose for Compressed` (and the identical functional
`Transpose` impl in `operation.rs`): rebuild with swapped dimensions by
replaying every stored entry through `set` with swapped coordinates. -/
def Compressed.transpose (m : Compressed) : Compressed :=
  m.toList.foldl (fun acc t => acc.set t.2.1 t.1 t.2.2)
    (Compressed.new m.columns m.rows m.format)

/-- `Matrix::nonzeros for Compressed`: the derived count of stored values
that are numerically non-zero (distinct from the `nonzeros` field). -/
def Compressed.nonzerosDerived (m : Compressed) : Nat :=
  m.values.foldl (fun sum v => if v = 0 then sum else sum + 1) 0

/-- `impl From<&Dense<T>> for Compressed<T>`. -/
def Compressed.fromDense (d : Dense) : Compressed :=
  d.values.enum.foldl
    (fun m kv => if kv.2 = 0 then m else m.set (kv.1 % d.rows) (kv.1 / d.rows) kv.2)
    (Compressed.new d.rows d.columns Format.Column)

/-- `impl From<&Compressed<T>> for Dense<T>`. -/
def Compressed.toDense (m : Compressed) : Dense :=
  { rows := m.rows
    columns := m.columns
    values := match m.format with
      | Format.Row =>
        (List.range m.rows).foldl (fun acc i =>
          (List.range' (m.offsets.getD i 0) (m.offsets.getD (i + 1) 0 - m.offsets.getD i 0)).foldl
            (fun a2 k => a2.set (m.indices.getD k 0 * m.rows + i) (m.values.getD k 0)) acc)
          (List.replicate (m.rows * m.columns) 0)
      | Format.Column =>
        (List.range m.columns).foldl (fun acc j =>
          (List.range' (m.offsets.getD j 0) (m.offsets.getD (j + 1) 0 - m.offsets.getD j 0)).foldl
            (fun a2 k => a2.set (j * m.rows + m.indices.getD k 0) (m.values.getD k 0)) acc)
          (List.replicate (m.rows * m.columns) 0) }

/-- `fn multiply_matrix_left` from `operation.rs` (release semantics: the
`debug_assert!`s are compiled out). -/
def multiply_matrix_left (a : Compressed) (b c : List Int) (m p n : Nat) : List Int :=
  (List.range n).foldl (fun c1 j =>
    (List.range p).foldl (fun c2 l =>
      (List.range' (a.offsets.getD l 0) (a.offsets.getD (l + 1) 0 - a.offsets.getD l 0)).foldl
        (fun c3 k =>
          c3.set (j * m + a.indices.getD k 0)
            (c3.getD (j * m + a.indices.getD k 0) 0 + a.values.getD k 0 * b.getD (j * p + l) 0))
        c2) c1) c

/-- `impl MultiplyInto<[T], [T]> for Compressed<T>` (release semantics). -/
def Compressed.multiply_into (a : Compressed) (right c : List Int) : List Int :=
  multiply_matrix_left a right c a.rows a.columns (right.length / a.columns)

/-- `multiply_into` with the three `debug_assert_eq!`s of
`multiply_matrix_left` modelled as explicit checks.  All the assertions
precede the loops, so a failing check (a panic in a debug build) leaves the
accumulator untouched; the error case returns it unchanged. -/
def Compressed.multiply_intoChecked (a : Compressed) (right c : List Int) :
    Except (List Int) (List Int) :=
  let m := a.rows
  let p := a.columns
  let n := right.length / p
  if a.rows * a.columns = m * p ∧ right.length = p * n ∧ c.length = m * n then
    Except.ok (multiply_matrix_left a right c m p n)
  else
    Except.error c

/-- The structural invariant of a compressed matrix, exactly as the spec
lists it: `values.len() == indices.len() == nonzeros`, `offsets` has length
(major-dimension size)+1, `offsets[0] == 0`, `offsets[last] == nonzeros`,
`offsets` is monotonically non-decreasing, and within each major slice the
entries of `indices` are strictly increasing. -/
def Valid (m : Compressed) : Prop :=
  m.values.length = m.nonzeros ∧
  m.indices.length = m.nonzeros ∧
  m.offsets.length = m.majorDim + 1 ∧
  m.offsets.getD 0 0 = 0 ∧
  m.offsets.getD m.majorDim 0 = m.nonzeros ∧
  (∀ j, j < m.offsets.length - 1 → m.offsets.getD j 0 ≤ m.offsets.getD (j + 1) 0) ∧
  (∀ j, j < m.majorDim → ∀ k, k < m.nonzeros →
    m.offsets.getD j 0 ≤ k → k + 1 < m.offsets.getD (j + 1) 0 →
    m.indices.getD k 0 < m.indices.getD (k + 1) 0)

instance (m : Compressed) : Decidable (Valid m) := by
  unfold Valid
  infer_instance

/-- Every stored minor index is within the minor dimension.  This holds for
every matrix built through the public constructors and mutators with
in-bounds coordinates. -/
def Bounded (m : Compressed) : Prop :=
  ∀ k, k < m.indices.length → m.indices.getD k 0 < m.minorDim

instance (m : Compressed) : Decidable (Bounded m) := by
  unfold Bounded
  infer_instance

/-! ### The slice view

A compressed matrix satisfying the structural invariant is the flattening
of a list of per-major slices, each slice a list of (minor index, value)
pairs with strictly increasing minor indices.  The `Rep` predicate relates
a slice list to the flat arrays; all structural reasoning happens on
slices and is transported to the flat code through `Rep`. -/

/-- Lookup in a slice, mirroring the early-exit scan of `get`. -/
def getL (i : Nat) : List (Nat × Int) → Int
  | [] => 0
  | e :: es => if e.1 = i then e.2 else if i < e.1 then 0 else getL i es

/-- The number of slice entries the scan of `set` steps over. -/
def insPos (i : Nat) : List (Nat × Int) → Nat
  | [] => 0
  | e :: es => if e.1 = i then 0 else if i < e.1 then 0 else insPos i es + 1

/-- Whether the scan of `set` finds an exact minor-index match. -/
def foundIn (i : Nat) : List (Nat × Int) → Bool
  | [] => false
  | e :: es => if e.1 = i then true else if i < e.1 then false else foundIn i es

/-- Sorted upsert on a slice: the slice-level effect of `set`. -/
def upsert (i : Nat) (v : Int) : List (Nat × Int) → List (Nat × Int)
  | [] => [(i, v)]
  | e :: es =>
    if e.1 = i then (i, v) :: es
    else if i < e.1 then (i, v) :: e :: es
    else e :: upsert i v es

/-- The offsets array determined by a slice list: prefix sums of lengths. -/
def offsetsOf : List (List (Nat × Int)) → List Nat
  | [] => [0]
  | s :: ss => 0 :: (offsetsOf ss).map (fun x => s.length + x)

/-- `m` is the flat representation of the slice list `ss`. -/
def Rep (ss : List (List (Nat × Int))) (m : Compressed) : Prop :=
  m.nonzeros = ss.flatten.length ∧
  m.values = ss.flatten.map Prod.snd ∧
  m.indices = ss.flatten.map Prod.fst ∧
  m.offsets = offsetsOf ss ∧
  ss.length = m.majorDim

/-- Every slice has strictly increasing minor indices. -/
def SortedSlices (ss : List (List (Nat × Int))) : Prop :=
  ∀ s ∈ ss, (s.map Prod.fst).Pairwise (fun a b => a < b)

/-- Every stored minor index is below `bound`. -/
def BoundedSlices (bound : Nat) (ss : List (List (Nat × Int))) : Prop :=
  ∀ s ∈ ss, ∀ e ∈ s, e.1 < bound

/-- The retain predicate applied to a slice entry of major index `j`. -/
def condAt (fmt : Format) (cond : Nat → Nat → Int → Bool) (j : Nat) (e : Nat × Int) : Bool :=
  match fmt with
  | Format.Column => cond e.1 j e.2
  | Format.Row => cond j e.1 e.2

/-- Slice-level effect of `retain`: filter each slice with its major index. -/
def filterSlices (fmt : Format) (cond : Nat → Nat → Int → Bool) :
    Nat → List (List (Nat × Int)) → List (List (Nat × Int))
  | _, [] => []
  | j, s :: ss => s.filter (condAt fmt cond j) :: filterSlices fmt cond (j + 1) ss

/-- The `(row, column, value)` triple of a slice entry of major index `j`. -/
def tripleAt (fmt : Format) (j : Nat) (e : Nat × Int) : Nat × Nat × Int :=
  match fmt with
  | Format.Column => (e.1, j, e.2)
  | Format.Row => (j, e.1, e.2)

/-- The triples of a slice list in storage order, majors starting at `j`. -/
def triplesOf (fmt : Format) : Nat → List (List (Nat × Int)) → List (Nat × Nat × Int)
  | _, [] => []
  | j, s :: ss => s.map (tripleAt fmt j) ++ triplesOf fmt (j + 1) ss

/-- Specification-side plain dense matrix product on column-major buffers:
entry `(i, j)` of the `m×n` result (at buffer position `j*m + i`) is
`Σ_{l<p} a[l*m + i] * b[j*p + l]`. -/
def matmulDense (a b : List Int) (m p n : Nat) : List Int :=
  (List.range (m * n)).map (fun x =>
    ((List.range p).map (fun l => a.getD (l * m + x % m) 0 * b.getD (x / m * p + l) 0)).sum)

/-- The slice list reconstructed from a flat matrix: slice `j` holds the
(minor index, value) pairs of major index `j`, read off between
`offsets[j]` and `offsets[j+1]`. -/
def slicesOf (m : Compressed) : List (List (Nat × Int)) :=
  (List.range m.majorDim).map (fun j =>
    ((m.indices.zip m.values).drop (m.offsets.getD j 0)).take
      (m.offsets.getD (j + 1) 0 - m.offsets.getD j 0))

/-- The offsets-adjustment tail of `Compressed::resize` (everything after
the optional `retain` call), factored out for reuse in proofs. -/
def adjustOffsets (m1 : Compressed) (rows columns : Nat) : Compressed :=
  let fi : Nat × Nat := match m1.format with
    | Format.Column => (m1.columns, columns)
    | Format.Row => (m1.rows, rows)
  let offsets :=
    if fi.2 < fi.1 then m1.offsets.take (fi.2 + 1)
    else if fi.1 < fi.2 then m1.offsets ++ List.replicate (fi.2 - fi.1) m1.nonzeros
    else m1.offsets
  { m1 with rows := rows, columns := columns, offsets := offsets }

/-- The `retain` loop state determined by a slice list. -/
def stateOf (ss : List (List (Nat × Int))) : RState :=
  { values := ss.flatten.map Prod.snd
    indices := ss.flatten.map Prod.fst
    nonzeros := ss.flatten.length
    offsets := offsetsOf ss }

/-! Sanity checks replaying the unit tests of `compressed.rs` and
`operation.rs` on the embedding. -/

def testMatrix : Compressed :=
  { rows := 5, columns := 7, nonzeros := 5, format := Format.Column
    values := [1, 2, 3, 4, 5], indices := [1, 0, 3, 1, 4]
    offsets := [0, 0, 0, 1, 2, 2, 3, 5] }

example : Valid testMatrix := by decide
example : Bounded testMatrix := by decide

example : testMatrix.toList =
    [(1, 2, 1), (0, 3, 2), (3, 5, 3), (1, 6, 4), (4, 6, 5)] := by decide

example : Compressed.transpose testMatrix =
    { rows := 7, columns := 5, nonzeros := 5, format := Format.Column
      values := [2, 1, 4, 3, 5], indices := [3, 2, 6, 5, 6]
      offsets := [0, 1, 3, 3, 4, 5] } := by decide

example : Compressed.nonzerosDerived
    { testMatrix with values := [1, 0, 3, 0, 5] } = 3 := by decide

example : testMatrix.resize 5 5 =
    { rows := 5, columns := 5, nonzeros := 2, format := Format.Column
      values := [1, 2], indices := [1, 0], offsets := [0, 0, 0, 1, 2, 2] } := by decide

example : testMatrix.resize 3 7 =
    { rows := 3, columns := 7, nonzeros := 3, format := Format.Column
      values := [1, 2, 4], indices := [1, 0, 1]
      offsets := [0, 0, 0, 1, 2, 2, 2, 3] } := by decide

example : testMatrix.resize 1 7 =
    { rows := 1, columns := 7, nonzeros := 1, format := Format.Column
      values := [2], indices := [0], offsets := [0, 0, 0, 0, 1, 1, 1, 1] } := by decide

def testDense : Dense :=
  { rows := 5, columns := 3, values := [0, 1, 0, 0, 0, 0, 0, 0, 2, 3, 0, 0, 0, 0, 4] }

example : Compressed.fromDense testDense =
    { rows := 5, columns := 3, nonzeros := 4, format := Format.Column
      values := [1, 2, 3, 4], indices := [1, 3, 4, 4], offsets := [0, 1, 3, 4] } := by decide

example : Compressed.toDense
    { rows := 5, columns := 3, nonzeros := 3, format := Format.Column
      values := [1, 2, 3], indices := [0, 1, 2], offsets := [0, 1, 2, 3] } =
    { rows := 5, columns := 3
      values := [1, 0, 0, 0, 0, 0, 2, 0, 0, 0, 0, 0, 3, 0, 0] } := by decide

example :
    Compressed.multiply_into
      (Compressed.fromDense
        { rows := 4, columns := 3, values := [1, 2, 3, 4, 5, 6, 6, 5, 4, 3, 2, 1] })
      [1, 2, 3, 4, 5, 6] [1, 1, 1, 1, 1, 1, 1, 1] =
    [24, 24, 22, 18, 54, 57, 55, 48] := by decide

example :
    ((Compressed.fromDense testDense).set 0 0 42 |>.set 3 1 69 |>.set 4 0 0).nonzeros
      = 6 := by decide

example :
    Compressed.toDense ((Compressed.fromDense testDense).set 0 0 42 |>.set 3 1 69) =
    { rows := 5, columns := 3, values := [42, 1, 0, 0, 0, 0, 0, 0, 69, 3, 0, 0, 0, 0, 4] } := by
  decide



/-! ### Basic list lemmas -/

theorem getD_append_lt {α : Type} (l l' : List α) (d : α) (n : Nat) (h : n < l.length) :
    (l ++ l').getD n d = l.getD n d := by
  simp [List.getElem?_append, h]

theorem getD_append_ge {α : Type} (l l' : List α) (d : α) (n : Nat) (h : l.length ≤ n) :
    (l ++ l').getD n d = l'.getD (n - l.length) d := by
  simp [List.getElem?_append_right h]

theorem getD_map {α β : Type} (f : α → β) (l : List α) (n : Nat) (h : n < l.length)
    (d : β) (d' : α) : (l.map f).getD n d = f (l.getD n d') := by
  simp [List.getElem?_eq_getElem h]

theorem offsetsOf_length (ss : List (List (Nat × Int))) :
    (offsetsOf ss).length = ss.length + 1 := by
  induction ss with
  | nil => simp [offsetsOf]
  | cons s ss ih => simp [offsetsOf, ih]

theorem offsetsOf_getD (ss : List (List (Nat × Int))) (j : Nat) (h : j ≤ ss.length) :
    (offsetsOf ss).getD j 0 = ((ss.take j).map (fun s => s.length)).sum := by
  induction ss generalizing j with
  | nil =>
    have hj : j = 0 := Nat.le_zero.mp h
    subst hj
    simp [offsetsOf]
  | cons s ss ih =>
    cases j with
    | zero => simp [offsetsOf]
    | succ j =>
      simp only [List.length_cons, Nat.succ_le_succ_iff] at h
      have hlt : j < (offsetsOf ss).length := by
        rw [offsetsOf_length]
        omega
      simp only [offsetsOf, List.getD_cons_succ, List.take_succ_cons, List.map_cons,
        List.sum_cons]
      rw [getD_map _ _ _ hlt 0 0, ih j h]

theorem sum_take_le (l : List Nat) (n : Nat) : (l.take n).sum ≤ l.sum := by
  induction l generalizing n with
  | nil => simp
  | cons a l ih =>
    cases n with
    | zero => simp
    | succ n =>
      simp only [List.take_succ_cons, List.sum_cons]
      have := ih n
      omega

theorem offsetsOf_getD_le (ss : List (List (Nat × Int))) (a b : Nat) (hab : a ≤ b)
    (hb : b ≤ ss.length) :
    (offsetsOf ss).getD a 0 ≤ (offsetsOf ss).getD b 0 := by
  rw [offsetsOf_getD ss a (le_trans hab hb), offsetsOf_getD ss b hb]
  have hs : ss.take a = (ss.take b).take a := by
    rw [List.take_take, min_eq_left hab]
  rw [hs, List.map_take]
  exact sum_take_le _ _

theorem offsetsOf_getD_last (ss : List (List (Nat × Int))) :
    (offsetsOf ss).getD ss.length 0 = ss.flatten.length := by
  rw [offsetsOf_getD ss ss.length le_rfl, List.take_length, List.length_flatten]

theorem offsetsOf_getD_eq_take (ss : List (List (Nat × Int))) (j : Nat) (h : j ≤ ss.length) :
    (offsetsOf ss).getD j 0 = ((ss.take j).flatten).length := by
  rw [offsetsOf_getD ss j h, List.length_flatten]

theorem take_succ_getD (ss : List (List (Nat × Int))) (j : Nat) (h : j < ss.length) :
    ss.take (j + 1) = ss.take j ++ [ss.getD j []] := by
  rw [List.take_succ, List.getElem?_eq_getElem h, List.getD_eq_getElem ss [] h]
  rfl

theorem offsetsOf_getD_succ (ss : List (List (Nat × Int))) (j : Nat) (h : j < ss.length) :
    (offsetsOf ss).getD (j + 1) 0
      = (offsetsOf ss).getD j 0 + (ss.getD j []).length := by
  rw [offsetsOf_getD ss (j + 1) h, offsetsOf_getD ss j (le_of_lt h), take_succ_getD ss j h]
  simp

theorem flatten_decomp (ss : List (List (Nat × Int))) (j : Nat) (h : j < ss.length) :
    ss.flatten = (ss.take j).flatten ++ (ss.getD j [] ++ (ss.drop (j + 1)).flatten) := by
  conv_lhs => rw [← List.take_append_drop j ss]
  rw [List.flatten_append]
  congr 1
  rw [List.drop_eq_getElem_cons h, ← List.getD_eq_getElem ss [] h]
  rfl

theorem set_eq_take_append (ss : List (List (Nat × Int))) (j : Nat)
    (s' : List (Nat × Int)) (h : j < ss.length) :
    ss.set j s' = ss.take j ++ (s' :: ss.drop (j + 1)) := by
  induction ss generalizing j with
  | nil => simp at h
  | cons s ss ih =>
    cases j with
    | zero => simp
    | succ j =>
      simp only [List.length_cons, Nat.succ_lt_succ_iff] at h
      simp [List.set_cons_succ, ih j h]

theorem flatten_set (ss : List (List (Nat × Int))) (j : Nat)
    (s' : List (Nat × Int)) (h : j < ss.length) :
    (ss.set j s').flatten = (ss.take j).flatten ++ (s' ++ (ss.drop (j + 1)).flatten) := by
  rw [set_eq_take_append ss j s' h, List.flatten_append]
  rfl

/-! ### Scan simulation: the flat loops seen through a slice decomposition -/

theorem findSlot_spec (i : Nat) :
    ∀ (mid pre post : List (Nat × Int)),
      findSlot ((pre ++ (mid ++ post)).map Prod.fst) i pre.length mid.length
        = (pre.length + insPos i mid, foundIn i mid) := by
  intro mid
  induction mid with
  | nil =>
    intro pre post
    simp [findSlot, insPos, foundIn]
  | cons e es ih =>
    intro pre post
    have hget : ((pre ++ ((e :: es) ++ post)).map Prod.fst).getD pre.length 0 = e.1 := by
      rw [List.map_append, getD_append_ge _ _ _ _ (by simp)]
      simp
    simp only [List.length_cons, findSlot, hget]
    by_cases h1 : e.1 = i
    · simp [h1, insPos, foundIn]
    · by_cases h2 : i < e.1
      · simp [h1, h2, insPos, foundIn]
      · have hre : pre ++ ((e :: es) ++ post) = (pre ++ [e]) ++ (es ++ post) := by simp
        have hlen : pre.length + 1 = (pre ++ [e]).length := by simp
        rw [if_neg h1, if_neg h2, hre, hlen, ih (pre ++ [e]) post]
        simp [insPos, foundIn, h1, h2]
        omega

theorem getLoop_spec (i : Nat) :
    ∀ (mid pre post : List (Nat × Int)),
      getLoop ((pre ++ (mid ++ post)).map Prod.snd) ((pre ++ (mid ++ post)).map Prod.fst) i
        pre.length mid.length = getL i mid := by
  intro mid
  induction mid with
  | nil =>
    intro pre post
    simp [getLoop, getL]
  | cons e es ih =>
    intro pre post
    have hget : ((pre ++ ((e :: es) ++ post)).map Prod.fst).getD pre.length 0 = e.1 := by
      rw [List.map_append, getD_append_ge _ _ _ _ (by simp)]
      simp
    have hgetv : ((pre ++ ((e :: es) ++ post)).map Prod.snd).getD pre.length 0 = e.2 := by
      rw [List.map_append, getD_append_ge _ _ _ _ (by simp)]
      simp
    simp only [List.length_cons, getLoop, hget, hgetv]
    by_cases h1 : e.1 = i
    · simp [h1, getL]
    · by_cases h2 : i < e.1
      · simp [h1, h2, getL]
      · have hre : pre ++ ((e :: es) ++ post) = (pre ++ [e]) ++ (es ++ post) := by simp
        have hlen : pre.length + 1 = (pre ++ [e]).length := by simp
        rw [if_neg h1, if_neg h2, hre, hlen, ih (pre ++ [e]) post]
        simp [getL, h1, h2]

theorem foldl_slice {β : Type} (f : β → Nat → Int → β) :
    ∀ (mid pre post : List (Nat × Int)) (init : β),
      (List.range' pre.length mid.length).foldl
        (fun b k => f b (((pre ++ (mid ++ post)).map Prod.fst).getD k 0)
          (((pre ++ (mid ++ post)).map Prod.snd).getD k 0)) init
        = mid.foldl (fun b e => f b e.1 e.2) init := by
  intro mid
  induction mid with
  | nil =>
    intro pre post init
    simp
  | cons e es ih =>
    intro pre post init
    have hget : ((pre ++ ((e :: es) ++ post)).map Prod.fst).getD pre.length 0 = e.1 := by
      rw [List.map_append, getD_append_ge _ _ _ _ (by simp)]
      simp
    have hgetv : ((pre ++ ((e :: es) ++ post)).map Prod.snd).getD pre.length 0 = e.2 := by
      rw [List.map_append, getD_append_ge _ _ _ _ (by simp)]
      simp
    have hre : pre ++ ((e :: es) ++ post) = (pre ++ [e]) ++ (es ++ post) := by simp
    simp only [List.length_cons, List.range'_succ, List.foldl_cons, hget, hgetv]
    have hlen : pre.length + 1 = (pre ++ [e]).length := by simp
    rw [hre, hlen, ih (pre ++ [e]) post]

/-! ### Access lemmas under `Rep` -/

theorem Rep.values_decomp {ss : List (List (Nat × Int))} {m : Compressed}
    (h : Rep ss m) (j : Nat) (hj : j < ss.length) :
    m.values = ((ss.take j).flatten ++ (ss.getD j [] ++ (ss.drop (j + 1)).flatten)).map
      Prod.snd := by
  rw [h.2.1, ← flatten_decomp ss j hj]

theorem Rep.indices_decomp {ss : List (List (Nat × Int))} {m : Compressed}
    (h : Rep ss m) (j : Nat) (hj : j < ss.length) :
    m.indices = ((ss.take j).flatten ++ (ss.getD j [] ++ (ss.drop (j + 1)).flatten)).map
      Prod.fst := by
  rw [h.2.2.1, ← flatten_decomp ss j hj]

theorem Rep.offsets_getD {ss : List (List (Nat × Int))} {m : Compressed}
    (h : Rep ss m) (j : Nat) (hj : j ≤ ss.length) :
    m.offsets.getD j 0 = ((ss.take j).flatten).length := by
  rw [h.2.2.2.1, offsetsOf_getD_eq_take ss j hj]

theorem Rep.offsets_span {ss : List (List (Nat × Int))} {m : Compressed}
    (h : Rep ss m) (j : Nat) (hj : j < ss.length) :
    m.offsets.getD (j + 1) 0 - m.offsets.getD j 0 = (ss.getD j []).length := by
  rw [h.2.2.2.1, offsetsOf_getD_succ ss j hj]
  omega

theorem getLoop_rep {ss : List (List (Nat × Int))} {m : Compressed}
    (h : Rep ss m) (j : Nat) (hj : j < ss.length) (i : Nat) :
    getLoop m.values m.indices i (m.offsets.getD j 0)
      (m.offsets.getD (j + 1) 0 - m.offsets.getD j 0) = getL i (ss.getD j []) := by
  rw [h.offsets_span j hj, h.offsets_getD j (le_of_lt hj), h.values_decomp j hj,
    h.indices_decomp j hj]
  exact getLoop_spec i (ss.getD j []) ((ss.take j).flatten) ((ss.drop (j + 1)).flatten)

theorem findSlot_rep {ss : List (List (Nat × Int))} {m : Compressed}
    (h : Rep ss m) (j : Nat) (hj : j < ss.length) (i : Nat) :
    findSlot m.indices i (m.offsets.getD j 0)
      (m.offsets.getD (j + 1) 0 - m.offsets.getD j 0)
      = (((ss.take j).flatten).length + insPos i (ss.getD j []),
          foundIn i (ss.getD j [])) := by
  rw [h.offsets_span j hj, h.offsets_getD j (le_of_lt hj), h.indices_decomp j hj]
  have := findSlot_spec i (ss.getD j []) ((ss.take j).flatten) ((ss.drop (j + 1)).flatten)
  rw [this]

/-! ### Slice-level facts about the sorted upsert -/

theorem insPos_le_length (i : Nat) (s : List (Nat × Int)) : insPos i s ≤ s.length := by
  induction s with
  | nil => simp [insPos]
  | cons e es ih =>
    simp only [insPos, List.length_cons]
    split
    · omega
    · split
      · omega
      · omega

theorem upsert_eq_set (i : Nat) (v : Int) (s : List (Nat × Int))
    (hf : foundIn i s = true) : upsert i v s = s.set (insPos i s) (i, v) := by
  induction s with
  | nil => simp [foundIn] at hf
  | cons e es ih =>
    by_cases h1 : e.1 = i
    · simp [upsert, insPos, h1]
    · by_cases h2 : i < e.1
      · simp [foundIn, h1, h2] at hf
      · simp only [foundIn, if_neg h1, if_neg h2] at hf
        simp [upsert, insPos, h1, h2, ih hf]

theorem upsert_eq_insertIdx (i : Nat) (v : Int) (s : List (Nat × Int))
    (hf : foundIn i s = false) : upsert i v s = s.insertIdx (insPos i s) (i, v) := by
  induction s with
  | nil => simp [upsert, insPos]
  | cons e es ih =>
    by_cases h1 : e.1 = i
    · simp [foundIn, h1] at hf
    · by_cases h2 : i < e.1
      · simp [upsert, insPos, h1, h2]
      · simp only [foundIn, if_neg h1, if_neg h2] at hf
        simp [upsert, insPos, h1, h2, ih hf]

theorem map_fst_upsert_found (i : Nat) (v : Int) (s : List (Nat × Int))
    (hf : foundIn i s = true) : (upsert i v s).map Prod.fst = s.map Prod.fst := by
  induction s with
  | nil => simp [foundIn] at hf
  | cons e es ih =>
    by_cases h1 : e.1 = i
    · simp [upsert, h1]
    · by_cases h2 : i < e.1
      · simp [foundIn, h1, h2] at hf
      · simp only [foundIn, if_neg h1, if_neg h2] at hf
        simp [upsert, h1, h2, ih hf]

theorem length_upsert_found (i : Nat) (v : Int) (s : List (Nat × Int))
    (hf : foundIn i s = true) : (upsert i v s).length = s.length := by
  have := congrArg List.length (map_fst_upsert_found i v s hf)
  simpa using this

theorem length_upsert_insert (i : Nat) (v : Int) (s : List (Nat × Int))
    (hf : foundIn i s = false) : (upsert i v s).length = s.length + 1 := by
  rw [upsert_eq_insertIdx i v s hf]
  exact List.length_insertIdx _ _ (insPos_le_length i s)

theorem getL_upsert_self (i : Nat) (v : Int) (s : List (Nat × Int)) :
    getL i (upsert i v s) = v := by
  induction s with
  | nil => simp [upsert, getL]
  | cons e es ih =>
    by_cases h1 : e.1 = i
    · simp [upsert, h1, getL]
    · by_cases h2 : i < e.1
      · simp [upsert, h1, h2, getL]
      · have h3 : ¬ e.1 = i := h1
        simp only [upsert, if_neg h1, if_neg h2]
        simp only [getL, if_neg h3]
        have h4 : ¬ i < e.1 := h2
        simp [h4, ih]

theorem getL_upsert_other (i i' : Nat) (v : Int) (s : List (Nat × Int))
    (hne : i' ≠ i) : getL i' (upsert i v s) = getL i' s := by
  induction s with
  | nil => simp [upsert, getL, hne, Ne.symm hne]
  | cons e es ih =>
    by_cases h1 : e.1 = i
    · subst h1
      simp only [upsert, if_pos rfl]
      simp [getL, Ne.symm hne, hne]
    · by_cases h2 : i < e.1
      · simp only [upsert, if_neg h1, if_pos h2]
        by_cases h3 : i' < i
        · have h5 : ¬ e.1 = i' := by omega
          simp [getL, Ne.symm hne, h3, Nat.lt_trans h3 h2, h5]
        · have h4 : i < i' := by omega
          simp [getL, Ne.symm hne, h3]
      · simp only [upsert, if_neg h1, if_neg h2]
        simp only [getL]
        split
        · rfl
        · split
          · rfl
          · exact ih

theorem mem_map_fst_upsert (i : Nat) (v : Int) (s : List (Nat × Int)) (x : Nat)
    (hx : x ∈ (upsert i v s).map Prod.fst) : x = i ∨ x ∈ s.map Prod.fst := by
  induction s with
  | nil =>
    simp [upsert] at hx
    exact Or.inl hx
  | cons e es ih =>
    by_cases h1 : e.1 = i
    · simp only [upsert, if_pos h1] at hx
      simp only [List.map_cons, List.mem_cons] at hx
      rcases hx with hx | hx
      · exact Or.inl hx
      · exact Or.inr (by simp [hx])
    · by_cases h2 : i < e.1
      · simp only [upsert, if_neg h1, if_pos h2] at hx
        simp only [List.map_cons, List.mem_cons] at hx
        rcases hx with hx | hx | hx
        · exact Or.inl hx
        · exact Or.inr (by simp [hx])
        · exact Or.inr (by simp [hx])
      · simp only [upsert, if_neg h1, if_neg h2] at hx
        simp only [List.map_cons, List.mem_cons] at hx
        rcases hx with hx | hx
        · exact Or.inr (by simp [hx])
        · rcases ih hx with hx' | hx'
          · exact Or.inl hx'
          · exact Or.inr (by simp [hx'])

theorem sorted_upsert (i : Nat) (v : Int) (s : List (Nat × Int))
    (hs : (s.map Prod.fst).Pairwise (fun a b => a < b)) :
    ((upsert i v s).map Prod.fst).Pairwise (fun a b => a < b) := by
  induction s with
  | nil => simp [upsert]
  | cons e es ih =>
    simp only [List.map_cons, List.pairwise_cons] at hs
    by_cases h1 : e.1 = i
    · simp only [upsert, if_pos h1, List.map_cons, List.pairwise_cons]
      exact ⟨fun b hb => h1 ▸ hs.1 b hb, hs.2⟩
    · by_cases h2 : i < e.1
      · simp only [upsert, if_neg h1, if_pos h2, List.map_cons, List.pairwise_cons]
        refine ⟨?_, hs.1, hs.2⟩
        intro b hb
        simp only [List.mem_cons] at hb
        rcases hb with hb | hb
        · omega
        · have := hs.1 b hb
          omega
      · have h3 : e.1 < i := by omega
        simp only [upsert, if_neg h1, if_neg h2, List.map_cons, List.pairwise_cons]
        refine ⟨?_, ih hs.2⟩
        intro b hb
        rcases mem_map_fst_upsert i v es b hb with hb' | hb'
        · omega
        · exact hs.1 b hb'

theorem mem_upsert (i : Nat) (v : Int) (s : List (Nat × Int)) (e' : Nat × Int)
    (he : e' ∈ upsert i v s) : e' = (i, v) ∨ e' ∈ s := by
  induction s with
  | nil => simpa [upsert] using he
  | cons e es ih =>
    by_cases h1 : e.1 = i
    · simp only [upsert, if_pos h1, List.mem_cons] at he
      rcases he with he | he
      · exact Or.inl he
      · exact Or.inr (by simp [he])
    · by_cases h2 : i < e.1
      · simp only [upsert, if_neg h1, if_pos h2, List.mem_cons] at he
        rcases he with he | he | he
        · exact Or.inl he
        · exact Or.inr (by simp [he])
        · exact Or.inr (by simp [he])
      · simp only [upsert, if_neg h1, if_neg h2, List.mem_cons] at he
        rcases he with he | he
        · exact Or.inr (by simp [he])
        · rcases ih he with he' | he'
          · exact Or.inl he'
          · exact Or.inr (by simp [he'])

/-! ### List surgery helpers -/

theorem map_insertIdx {α β : Type} (f : α → β) (l : List α) (n : Nat) (a : α) :
    (l.insertIdx n a).map f = (l.map f).insertIdx n (f a) := by
  induction l generalizing n with
  | nil =>
    cases n with
    | zero => simp
    | succ n => simp [List.insertIdx_succ_nil]
  | cons e es ih =>
    cases n with
    | zero => simp
    | succ n => simp [List.insertIdx_succ_cons, ih]

theorem set_append_mid {α : Type} (P Q R : List α) (t : Nat) (x : α) (ht : t < Q.length) :
    (P ++ (Q ++ R)).set (P.length + t) x = P ++ (Q.set t x ++ R) := by
  rw [List.set_append_right _ _ (by omega)]
  congr 1
  rw [List.set_append_left _ _ (by omega)]
  congr 2
  omega

theorem insertIdx_append_left {α : Type} (Q R : List α) (t : Nat) (x : α)
    (ht : t ≤ Q.length) :
    (Q ++ R).insertIdx t x = Q.insertIdx t x ++ R := by
  induction Q generalizing t with
  | nil =>
    have ht0 : t = 0 := Nat.le_zero.mp ht
    subst ht0
    simp
  | cons q qs ih =>
    cases t with
    | zero => simp
    | succ t =>
      simp only [List.cons_append, List.insertIdx_succ_cons]
      rw [ih t (by simpa using ht)]

theorem insertIdx_append_mid {α : Type} (P Q R : List α) (t : Nat) (x : α)
    (ht : t ≤ Q.length) :
    (P ++ (Q ++ R)).insertIdx (P.length + t) x = P ++ (Q.insertIdx t x ++ R) := by
  induction P with
  | nil =>
    simp only [List.nil_append, List.length_nil, Nat.zero_add]
    exact insertIdx_append_left Q R t x ht
  | cons p ps ih =>
    simp only [List.cons_append, List.length_cons]
    rw [Nat.succ_add, List.insertIdx_succ_cons, ih]

theorem offsetsOf_set_same (ss : List (List (Nat × Int))) (j : Nat)
    (s' : List (Nat × Int)) (hlen : (ss.getD j []).length = s'.length) :
    offsetsOf (ss.set j s') = offsetsOf ss := by
  induction ss generalizing j with
  | nil => simp
  | cons s ts ih =>
    cases j with
    | zero =>
      simp only [List.getD_cons_zero] at hlen
      simp [offsetsOf, hlen]
    | succ j =>
      simp only [List.getD_cons_succ] at hlen
      simp [offsetsOf, ih j hlen]

theorem offsetsOf_set_insert (ss : List (List (Nat × Int))) (j : Nat)
    (s' : List (Nat × Int)) (hj : j < ss.length)
    (hlen : s'.length = (ss.getD j []).length + 1) :
    offsetsOf (ss.set j s')
      = (offsetsOf ss).take (j + 1) ++ ((offsetsOf ss).drop (j + 1)).map (fun x => x + 1) := by
  induction ss generalizing j with
  | nil => simp at hj
  | cons s ts ih
  =>
    cases j with
    | zero =>
      simp only [List.getD_cons_zero] at hlen
      simp only [List.set_cons_zero, offsetsOf, List.take_succ_cons, List.take_zero,
        List.drop_succ_cons, List.drop_zero, List.map_map]
      rw [hlen]
      simp only [List.cons_append, List.nil_append]
      congr 1
      apply List.map_congr_left
      intro x hx
      simp
      omega
    | succ j =>
      simp only [List.length_cons, Nat.succ_lt_succ_iff] at hj
      simp only [List.getD_cons_succ] at hlen
      simp only [List.set_cons_succ, offsetsOf, ih j hj hlen, List.take_succ_cons,
        List.drop_succ_cons, List.map_append, List.cons_append]
      congr 1
      congr 1
      · rw [List.map_take]
      · rw [← List.map_drop, List.map_map, List.map_map]
        apply List.map_congr_left
        intro x hx
        simp
        omega

theorem offsetsOf_drop_ge (ss : List (List (Nat × Int))) (j : Nat) (hj : j < ss.length) :
    ∀ x ∈ (offsetsOf ss).drop (j + 1), (ss.getD j []).length ≤ x := by
  intro x hx
  rw [List.mem_iff_getElem] at hx
  obtain ⟨p, hp, hpx⟩ := hx
  rw [List.getElem_drop] at hpx
  have hplen : j + 1 + p < (offsetsOf ss).length := by
    rw [List.length_drop] at hp
    omega
  have hx' : x = (offsetsOf ss).getD (j + 1 + p) 0 := by
    rw [List.getD_eq_getElem _ _ hplen, hpx]
  have hle : (offsetsOf ss).getD (j + 1) 0 ≤ (offsetsOf ss).getD (j + 1 + p) 0 := by
    apply offsetsOf_getD_le ss (j + 1) (j + 1 + p) (by omega)
    rw [offsetsOf_length] at hplen
    omega
  have hsucc := offsetsOf_getD_succ ss j hj
  omega

theorem offsetsOf_set_erase (ss : List (List (Nat × Int))) (j : Nat)
    (s' : List (Nat × Int)) (hj : j < ss.length)
    (hlen : (ss.getD j []).length = s'.length + 1) :
    offsetsOf (ss.set j s')
      = (offsetsOf ss).take (j + 1) ++ ((offsetsOf ss).drop (j + 1)).map (fun x => x - 1) := by
  induction ss generalizing j with
  | nil => simp at hj
  | cons s ts ih =>
    cases j with
    | zero =>
      simp only [List.getD_cons_zero] at hlen
      simp only [List.set_cons_zero, offsetsOf, List.take_succ_cons, List.take_zero,
        List.drop_succ_cons, List.drop_zero, List.map_map]
      simp only [List.cons_append, List.nil_append]
      congr 1
      apply List.map_congr_left
      intro x hx
      simp
      omega
    | succ j =>
      simp only [List.length_cons, Nat.succ_lt_succ_iff] at hj
      simp only [List.getD_cons_succ] at hlen
      have hpos := offsetsOf_drop_ge ts j hj
      simp only [List.set_cons_succ, offsetsOf, ih j hj hlen, List.take_succ_cons,
        List.drop_succ_cons, List.map_append, List.cons_append]
      congr 1
      congr 1
      · rw [List.map_take]
      · rw [← List.map_drop, List.map_map, List.map_map]
        apply List.map_congr_left
        intro x hx
        have h1x : 1 ≤ x := by
          have := hpos x hx
          omega
        simp
        omega

/-! ### Simulation of `set` -/

theorem insPos_lt_of_found (i : Nat) (s : List (Nat × Int)) (hf : foundIn i s = true) :
    insPos i s < s.length := by
  induction s with
  | nil => simp [foundIn] at hf
  | cons e es ih =>
    by_cases h1 : e.1 = i
    · simp [insPos, h1]
    · by_cases h2 : i < e.1
      · simp [foundIn, h1, h2] at hf
      · simp only [foundIn, if_neg h1, if_neg h2] at hf
        simp only [insPos, if_neg h1, if_neg h2, List.length_cons]
        exact Nat.succ_lt_succ (ih hf)

theorem Compressed.set_rows (m : Compressed) (i j : Nat) (v : Int) :
    (m.set i j v).rows = m.rows := by
  unfold Compressed.set
  dsimp only
  split <;> rfl

theorem Compressed.set_columns (m : Compressed) (i j : Nat) (v : Int) :
    (m.set i j v).columns = m.columns := by
  unfold Compressed.set
  dsimp only
  split <;> rfl

theorem Compressed.set_format (m : Compressed) (i j : Nat) (v : Int) :
    (m.set i j v).format = m.format := by
  unfold Compressed.set
  dsimp only
  split <;> rfl

theorem Compressed.set_majorDim (m : Compressed) (i j : Nat) (v : Int) :
    (m.set i j v).majorDim = m.majorDim := by
  unfold Compressed.majorDim
  rw [Compressed.set_format]
  cases m.format with
  | Column => rw [Compressed.set_columns]
  | Row => rw [Compressed.set_rows]

theorem Compressed.set_minorDim (m : Compressed) (i j : Nat) (v : Int) :
    (m.set i j v).minorDim = m.minorDim := by
  unfold Compressed.minorDim
  rw [Compressed.set_format]
  cases m.format with
  | Column => rw [Compressed.set_rows]
  | Row => rw [Compressed.set_columns]

theorem set_rep {ss : List (List (Nat × Int))} {m : Compressed} (hrep : Rep ss m)
    (i j : Nat) (v : Int) (hmj : (m.format.coords i j).2 < ss.length) :
    Rep (ss.set (m.format.coords i j).2
      (upsert (m.format.coords i j).1 v (ss.getD (m.format.coords i j).2 [])))
      (m.set i j v) := by
  rcases hco : m.format.coords i j with ⟨mi, mj⟩
  rw [hco] at hmj
  dsimp only at hmj ⊢
  have hfind := findSlot_rep hrep mj hmj mi
  have hvdec := hrep.values_decomp mj hmj
  have hidec := hrep.indices_decomp mj hmj
  have hflat := flatten_decomp ss mj hmj
  obtain ⟨hn, hv, hi, ho, hl⟩ := hrep
  unfold Compressed.set
  rw [hco]
  dsimp only
  rw [hfind]
  by_cases hf : foundIn mi (ss.getD mj []) = true
  · rw [if_pos hf]
    have htlt := insPos_lt_of_found mi (ss.getD mj []) hf
    have hup := upsert_eq_set mi v (ss.getD mj []) hf
    refine ⟨?_, ?_, ?_, ?_, ?_⟩
    · show m.nonzeros = _
      rw [hn, flatten_set ss mj _ hmj, hflat, List.length_append, List.length_append,
        List.length_append, List.length_append, length_upsert_found mi v _ hf]
    · show m.values.set _ v = _
      rw [flatten_set ss mj _ hmj, hup, hvdec]
      rw [List.map_append, List.map_append, List.map_append, List.map_append]
      have hlenA : ((ss.take mj).flatten).length
          = (((ss.take mj).flatten).map Prod.snd).length := (List.length_map _ _).symm
      rw [hlenA, set_append_mid _ _ _ (insPos mi (ss.getD mj []))
        v (by simpa using htlt), List.map_set]
    · show m.indices = _
      rw [flatten_set ss mj _ hmj, hup, hidec]
      rw [List.map_append, List.map_append, List.map_append, List.map_append]
      rw [← upsert_eq_set mi v _ hf, map_fst_upsert_found mi v _ hf]
    · show m.offsets = _
      rw [ho]
      exact (offsetsOf_set_same ss mj _ (length_upsert_found mi v _ hf).symm).symm
    · show _ = Compressed.majorDim _
      have : Compressed.majorDim { m with values := m.values.set (((ss.take mj).flatten).length + insPos mi (ss.getD mj [])) v } = m.majorDim := by
        unfold Compressed.majorDim
        rfl
      rw [this, List.length_set]
      exact hl
  · rw [if_neg hf]
    rw [Bool.not_eq_true] at hf
    have htle := insPos_le_length mi (ss.getD mj [])
    have hup := upsert_eq_insertIdx mi v (ss.getD mj []) hf
    refine ⟨?_, ?_, ?_, ?_, ?_⟩
    · show m.nonzeros + 1 = _
      rw [hn, flatten_set ss mj _ hmj, hflat, List.length_append, List.length_append,
        List.length_append, List.length_append, length_upsert_insert mi v _ hf]
      omega
    · show m.values.insertIdx _ v = _
      rw [flatten_set ss mj _ hmj, hup, hvdec]
      rw [List.map_append, List.map_append, List.map_append, List.map_append]
      have hlenA : ((ss.take mj).flatten).length
          = (((ss.take mj).flatten).map Prod.snd).length := (List.length_map _ _).symm
      rw [hlenA, insertIdx_append_mid _ _ _ (insPos mi (ss.getD mj []))
        v (by simpa using htle), map_insertIdx]
    · show m.indices.insertIdx _ mi = _
      rw [flatten_set ss mj _ hmj, hup, hidec]
      rw [List.map_append, List.map_append, List.map_append, List.map_append]
      have hlenA : ((ss.take mj).flatten).length
          = (((ss.take mj).flatten).map Prod.fst).length := (List.length_map _ _).symm
      rw [hlenA, insertIdx_append_mid _ _ _ (insPos mi (ss.getD mj []))
        mi (by simpa using htle), map_insertIdx]
    · show m.offsets.take (mj + 1) ++ (m.offsets.drop (mj + 1)).map (fun x => x + 1) = _
      rw [ho, offsetsOf_set_insert ss mj _ hmj (length_upsert_insert mi v _ hf)]
    · show _ = Compressed.majorDim _
      have : Compressed.majorDim { m with
          nonzeros := m.nonzeros + 1
          values := m.values.insertIdx (((ss.take mj).flatten).length + insPos mi (ss.getD mj [])) v
          indices := m.indices.insertIdx (((ss.take mj).flatten).length + insPos mi (ss.getD mj [])) mi
          offsets := m.offsets.take (mj + 1) ++ (m.offsets.drop (mj + 1)).map (fun x => x + 1) }
          = m.majorDim := by
        unfold Compressed.majorDim
        rfl
      rw [this, List.length_set]
      exact hl

/-! ### The structural invariant is exactly sorted-slice representability -/

theorem list_ext_getD (l₁ l₂ : List Nat) (hlen : l₁.length = l₂.length)
    (h : ∀ x, x < l₁.length → l₁.getD x 0 = l₂.getD x 0) : l₁ = l₂ := by
  apply List.ext_getElem hlen
  intro x h1 h2
  have := h x h1
  rwa [List.getD_eq_getElem _ _ h1, List.getD_eq_getElem _ _ h2] at this

theorem getD_lt_getD_of_adjacent (l : List Nat)
    (h : ∀ t, t + 1 < l.length → l.getD t 0 < l.getD (t + 1) 0) :
    ∀ a b, a < b → b < l.length → l.getD a 0 < l.getD b 0 := by
  intro a b hab hb
  induction b with
  | zero => omega
  | succ b ih =>
    by_cases hab' : a = b
    · subst hab'
      exact h a hb
    · have h1 : l.getD a 0 < l.getD b 0 := ih (by omega) (by omega)
      have h2 : l.getD b 0 < l.getD (b + 1) 0 := h b hb
      omega

theorem pairwise_lt_of_adjacent (l : List Nat)
    (h : ∀ t, t + 1 < l.length → l.getD t 0 < l.getD (t + 1) 0) :
    l.Pairwise (fun a b => a < b) := by
  rw [List.pairwise_iff_getElem]
  intro a b ha hb hab
  have := getD_lt_getD_of_adjacent l h a b hab hb
  rwa [List.getD_eq_getElem _ _ ha, List.getD_eq_getElem _ _ hb] at this

theorem pairwise_adjacent_of_lt (l : List Nat)
    (h : l.Pairwise (fun a b => a < b)) :
    ∀ t, t + 1 < l.length → l.getD t 0 < l.getD (t + 1) 0 := by
  intro t ht
  rw [List.pairwise_iff_getElem] at h
  have := h t (t + 1) (by omega) ht (by omega)
  rwa [List.getD_eq_getElem _ _ (by omega), List.getD_eq_getElem _ _ ht]

theorem valid_of_rep {ss : List (List (Nat × Int))} {m : Compressed}
    (hrep : Rep ss m) (hs : SortedSlices ss) : Valid m := by
  obtain ⟨hn, hv, hi, ho, hl⟩ := hrep
  refine ⟨?_, ?_, ?_, ?_, ?_, ?_, ?_⟩
  · rw [hv, List.length_map, hn]
  · rw [hi, List.length_map, hn]
  · rw [ho, offsetsOf_length, hl]
  · rw [ho, offsetsOf_getD ss 0 (Nat.zero_le _)]
    simp
  · rw [ho, ← hl, offsetsOf_getD_last, hn]
  · intro j hj
    rw [ho, offsetsOf_length] at hj
    rw [ho]
    exact offsetsOf_getD_le ss j (j + 1) (by omega) (by omega)
  · intro j hj k hk hk1 hk2
    rw [← hl] at hj
    have hvd := flatten_decomp ss j hj
    have hoj : m.offsets.getD j 0 = ((ss.take j).flatten).length := by
      rw [ho, offsetsOf_getD_eq_take ss j (le_of_lt hj)]
    have hosucc : m.offsets.getD (j + 1) 0
        = ((ss.take j).flatten).length + (ss.getD j []).length := by
      rw [ho, offsetsOf_getD_succ ss j hj, ← offsetsOf_getD_eq_take ss j (le_of_lt hj)]
    set A := (ss.take j).flatten with hA
    set s0 := ss.getD j [] with hs0
    have hkA : A.length ≤ k := by omega
    have hk1A : k + 1 < A.length + s0.length := by omega
    have hgk : m.indices.getD k 0 = (s0.map Prod.fst).getD (k - A.length) 0 := by
      rw [hi, hvd, List.map_append, getD_append_ge _ _ _ _ (by simpa using hkA),
        List.map_append, getD_append_lt _ _ _ _ (by simp; omega)]
      simp
    have hgk1 : m.indices.getD (k + 1) 0 = (s0.map Prod.fst).getD (k + 1 - A.length) 0 := by
      rw [hi, hvd, List.map_append, getD_append_ge _ _ _ _ (by simp; omega),
        List.map_append, getD_append_lt _ _ _ _ (by simp; omega)]
      simp
    rw [hgk, hgk1]
    have hsort : (s0.map Prod.fst).Pairwise (fun a b => a < b) := by
      apply hs
      rw [hs0, List.getD_eq_getElem ss [] hj]
      exact List.getElem_mem hj
    have hadj := getD_lt_getD_of_adjacent (s0.map Prod.fst)
      (pairwise_adjacent_of_lt _ hsort) (k - A.length) (k + 1 - A.length)
      (by omega) (by simp; omega)
    exact hadj

theorem rep_of_valid {m : Compressed} (hV : Valid m) :
    Rep (slicesOf m) m ∧ SortedSlices (slicesOf m) := by
  obtain ⟨h1, h2, h3, h4, h5, h6, h7⟩ := hV
  have hmono : ∀ b, b ≤ m.majorDim → ∀ a, a ≤ b →
      m.offsets.getD a 0 ≤ m.offsets.getD b 0 := by
    intro b
    induction b with
    | zero =>
      intro _ a ha
      have ha0 : a = 0 := Nat.le_zero.mp ha
      subst ha0
      exact le_rfl
    | succ b ih =>
      intro hb a ha
      by_cases hab : a = b + 1
      · subst hab
        exact le_rfl
      · have h1a : m.offsets.getD a 0 ≤ m.offsets.getD b 0 :=
          ih (by omega) a (by omega)
        have h2a : m.offsets.getD b 0 ≤ m.offsets.getD (b + 1) 0 := by
          apply h6
          rw [h3]
          omega
        omega
  have hub : ∀ jj, jj ≤ m.majorDim → m.offsets.getD jj 0 ≤ m.nonzeros := by
    intro jj hjj
    have := hmono m.majorDim le_rfl jj hjj
    omega
  have hLlen : (m.indices.zip m.values).length = m.nonzeros := by
    rw [List.length_zip, h1, h2]
    omega
  have hchunklen : ∀ jj, jj < m.majorDim →
      (((m.indices.zip m.values).drop (m.offsets.getD jj 0)).take
        (m.offsets.getD (jj + 1) 0 - m.offsets.getD jj 0)).length
      = m.offsets.getD (jj + 1) 0 - m.offsets.getD jj 0 := by
    intro jj hjj
    rw [List.length_take, List.length_drop, hLlen]
    have ha := hub jj (le_of_lt hjj)
    have hb := hub (jj + 1) hjj
    omega
  have hflatgen : ∀ K, K ≤ m.majorDim →
      (((List.range K).map (fun j =>
        ((m.indices.zip m.values).drop (m.offsets.getD j 0)).take
          (m.offsets.getD (j + 1) 0 - m.offsets.getD j 0))).flatten)
      = (m.indices.zip m.values).take (m.offsets.getD K 0) := by
    intro K
    induction K with
    | zero =>
      intro _
      simp only [List.range_zero, List.map_nil, List.flatten_nil]
      rw [h4]
      simp
    | succ K ih =>
      intro hK
      rw [List.range_succ, List.map_append, List.flatten_append, ih (by omega)]
      simp only [List.map_cons, List.map_nil, List.flatten_cons, List.flatten_nil,
        List.append_nil]
      rw [← List.take_add]
      congr 1
      have := hmono (K + 1) hK K (by omega)
      omega
  have hflat : (slicesOf m).flatten = m.indices.zip m.values := by
    unfold slicesOf
    rw [hflatgen m.majorDim le_rfl, h5, ← hLlen, List.take_length]
  have hslices_len : (slicesOf m).length = m.majorDim := by
    unfold slicesOf
    simp
  constructor
  · refine ⟨?_, ?_, ?_, ?_, ?_⟩
    · rw [hflat, hLlen]
    · rw [hflat, List.map_snd_zip _ _ (by omega)]
    · rw [hflat, List.map_fst_zip _ _ (by omega)]
    · refine (list_ext_getD _ _ ?_ ?_).symm
      · rw [offsetsOf_length, hslices_len, h3]
      · intro x hx
        rw [offsetsOf_length, hslices_len] at hx
        have hxle : x ≤ m.majorDim := by omega
        rw [offsetsOf_getD _ x (by rw [hslices_len]; omega)]
        unfold slicesOf
        rw [← List.map_take, List.take_range, min_eq_left hxle, List.map_map]
        induction x with
        | zero =>
          simp only [List.range_zero, List.map_nil, List.sum_nil]
          exact h4.symm
        | succ x ihx =>
          rw [List.range_succ, List.map_append, List.sum_append,
            ihx (by omega) (by omega)]
          simp only [List.map_cons, List.map_nil, List.sum_cons, List.sum_nil,
            Function.comp]
          rw [hchunklen x (by omega)]
          have := hmono (x + 1) (by omega) x (by omega)
          omega
    · rw [hslices_len]
  · intro s hsmem
    unfold slicesOf at hsmem
    rw [List.mem_map] at hsmem
    obtain ⟨jj, hjjmem, hjj⟩ := hsmem
    rw [List.mem_range] at hjjmem
    have ha := hub jj (le_of_lt hjjmem)
    have hb := hub (jj + 1) hjjmem
    have hadjo := hmono (jj + 1) hjjmem jj (by omega)
    have hslen : s.length = m.offsets.getD (jj + 1) 0 - m.offsets.getD jj 0 := by
      rw [← hjj]
      exact hchunklen jj hjjmem
    have hgd : ∀ u, u < s.length →
        (s.map Prod.fst).getD u 0 = m.indices.getD (m.offsets.getD jj 0 + u) 0 := by
      intro u hu
      have hposL : m.offsets.getD jj 0 + u < (m.indices.zip m.values).length := by
        rw [hLlen]
        omega
      have hposI : m.offsets.getD jj 0 + u < m.indices.length := by
        rw [h2, ← hLlen]
        exact hposL
      rw [getD_map Prod.fst s u hu 0 (0, 0)]
      have hudrop : u < ((m.indices.zip m.values).drop (m.offsets.getD jj 0)).length := by
        rw [List.length_drop, hLlen]
        omega
      have hs_el : s.getD u (0, 0)
          = (m.indices.zip m.values).getD (m.offsets.getD jj 0 + u) (0, 0) := by
        rw [← hjj, List.getD_eq_getElem _ _ (by rw [hjj]; exact hu)]
        rw [List.getElem_take, List.getElem_drop,
          ← List.getD_eq_getElem (m.indices.zip m.values) (0, 0) hposL]
      rw [hs_el, List.getD_eq_getElem _ _ hposL, List.getElem_zip,
        ← List.getD_eq_getElem m.indices 0 hposI]
    apply pairwise_lt_of_adjacent
    intro t ht
    rw [List.length_map] at ht
    have hkbound : m.offsets.getD jj 0 + t + 1 < m.offsets.getD (jj + 1) 0 := by
      omega
    have hstep := h7 jj hjjmem (m.offsets.getD jj 0 + t) (by omega) (by omega) hkbound
    rw [hgd t (by omega), hgd (t + 1) (by omega)]
    have harith : m.offsets.getD jj 0 + (t + 1) = m.offsets.getD jj 0 + t + 1 := by
      omega
    rw [harith]
    exact hstep

/-! ### `get` under the representation, coordinate helpers -/

theorem get_rep {ss : List (List (Nat × Int))} {m : Compressed} (hrep : Rep ss m)
    (i j : Nat) (hmj : (m.format.coords i j).2 < ss.length) :
    m.get i j = getL (m.format.coords i j).1 (ss.getD (m.format.coords i j).2 []) := by
  rcases hco : m.format.coords i j with ⟨mi, mj⟩
  rw [hco] at hmj
  dsimp only at hmj ⊢
  unfold Compressed.get
  rw [hco]
  dsimp only
  exact getLoop_rep hrep mj hmj mi

theorem coords_bounds {m : Compressed} (i j : Nat) (hi : i < m.rows) (hj : j < m.columns) :
    (m.format.coords i j).1 < m.minorDim ∧ (m.format.coords i j).2 < m.majorDim := by
  unfold Format.coords Compressed.majorDim Compressed.minorDim
  cases m.format <;> simp [hi, hj]

theorem getD_set_self_list {α : Type} (l : List α) (n : Nat) (a d : α) (h : n < l.length) :
    (l.set n a).getD n d = a := by
  rw [List.getD_eq_getElem _ _ (by simpa using h)]
  exact List.getElem_set_self _

theorem bounded_slices_of {ss : List (List (Nat × Int))} {m : Compressed}
    (hrep : Rep ss m) (hb : Bounded m) : BoundedSlices m.minorDim ss := by
  intro s hsmem e hemem
  have hflatmem : e ∈ ss.flatten := List.mem_flatten.mpr ⟨s, hsmem, hemem⟩
  rw [List.mem_iff_getElem] at hflatmem
  obtain ⟨k, hk, hke⟩ := hflatmem
  have hki : k < m.indices.length := by
    rw [hrep.2.2.1, List.length_map]
    exact hk
  have := hb k hki
  rw [hrep.2.2.1, getD_map Prod.fst _ _ hk 0 (0, 0),
    List.getD_eq_getElem _ _ hk, hke] at this
  exact this

theorem bounded_of_slices {ss : List (List (Nat × Int))} {m : Compressed}
    (hrep : Rep ss m) (hb : BoundedSlices m.minorDim ss) : Bounded m := by
  intro k hk
  rw [hrep.2.2.1, List.length_map] at hk
  rw [hrep.2.2.1, getD_map Prod.fst _ _ hk 0 (0, 0)]
  have hmem : ss.flatten.getD k (0, 0) ∈ ss.flatten := by
    rw [List.getD_eq_getElem _ _ hk]
    exact List.getElem_mem hk
  rw [List.mem_flatten] at hmem
  obtain ⟨s, hsmem, hemem⟩ := hmem
  exact hb s hsmem _ hemem

/-- C1, core form: on a structurally valid matrix, reading an in-bounds
coordinate right after writing it returns the written value. -/
theorem get_after_set (m : Compressed) (hV : Valid m) (i j : Nat) (v : Int)
    (hi : i < m.rows) (hj : j < m.columns) : (m.set i j v).get i j = v := by
  obtain ⟨hrep, hsort⟩ := rep_of_valid hV
  have hb := coords_bounds (m := m) i j hi hj
  have hmj : (m.format.coords i j).2 < (slicesOf m).length := by
    rw [hrep.2.2.2.2]
    exact hb.2
  have hrep' := set_rep hrep i j v hmj
  have hco' : (m.set i j v).format.coords i j = m.format.coords i j := by
    rw [Compressed.set_format]
  have hmj' : ((m.set i j v).format.coords i j).2
      < ((slicesOf m).set (m.format.coords i j).2
          (upsert (m.format.coords i j).1 v
            ((slicesOf m).getD (m.format.coords i j).2 []))).length := by
    rw [hco', List.length_set]
    exact hmj
  have hget := get_rep hrep' i j hmj'
  rw [hget, hco', getD_set_self_list _ _ _ _ hmj]
  exact getL_upsert_self _ v _

/-! ### The major-cursor walk and the iterator -/

theorem advanceMajor_spec (offsets : List Nat) (k major mj : Nat)
    (hmono : ∀ a b, a ≤ b → b < offsets.length →
      offsets.getD a 0 ≤ offsets.getD b 0)
    (hstart : major ≤ mj) (hmj1 : mj + 1 < offsets.length)
    (hlow : offsets.getD mj 0 ≤ k) (hhigh : k < offsets.getD (mj + 1) 0) :
    advanceMajor offsets k major = mj := by
  suffices h : ∀ d major, major ≤ mj → mj - major = d → advanceMajor offsets k major = mj by
    exact h (mj - major) major hstart rfl
  intro d
  induction d with
  | zero =>
    intro major hstart' hd
    have heq : major = mj := by omega
    subst heq
    unfold advanceMajor
    obtain ⟨f, hf⟩ : ∃ f, offsets.length - (major + 1) = f + 1 :=
      ⟨offsets.length - (major + 1) - 1, by omega⟩
    rw [hf]
    simp only [advanceGo]
    rw [if_neg (by omega)]
  | succ d ih =>
    intro major hstart' hd
    have hlt : major < mj := by omega
    unfold advanceMajor
    obtain ⟨f, hf⟩ : ∃ f, offsets.length - (major + 1) = f + 1 :=
      ⟨offsets.length - (major + 1) - 1, by omega⟩
    rw [hf]
    simp only [advanceGo]
    rw [if_pos]
    · have hg : advanceGo offsets k (major + 1) f = advanceMajor offsets k (major + 1) := by
        unfold advanceMajor
        congr 1
        omega
      rw [hg]
      exact ih (major + 1) (by omega) (by omega)
    · have h1 : offsets.getD (major + 1) 0 ≤ offsets.getD mj 0 :=
        hmono (major + 1) mj (by omega) (by omega)
      omega

theorem rep_offsets_mono {ss : List (List (Nat × Int))} {m : Compressed}
    (hrep : Rep ss m) :
    ∀ a b, a ≤ b → b < m.offsets.length → m.offsets.getD a 0 ≤ m.offsets.getD b 0 := by
  intro a b hab hb
  rw [hrep.2.2.2.1] at hb ⊢
  rw [offsetsOf_length] at hb
  exact offsetsOf_getD_le ss a b hab (by omega)

theorem frame_getD (done : List (List (Nat × Int))) (processed : List (Nat × Int))
    (e : Nat × Int) (cs : List (Nat × Int)) (todo : List (List (Nat × Int))) :
    ((done ++ (processed ++ e :: cs) :: todo).flatten).getD
      ((done.flatten).length + processed.length) (0, 0) = e := by
  rw [List.flatten_append, List.flatten_cons]
  rw [getD_append_ge _ _ _ _ (by omega)]
  have harith : (done.flatten).length + processed.length - (done.flatten).length
      = processed.length := by omega
  rw [harith, List.append_assoc, getD_append_ge _ _ _ _ (le_refl _)]
  simp

theorem frame_offsets (done : List (List (Nat × Int))) (mid : List (Nat × Int))
    (todo : List (List (Nat × Int))) {m : Compressed}
    (hrep : Rep (done ++ mid :: todo) m) :
    m.offsets.getD done.length 0 = (done.flatten).length ∧
    m.offsets.getD (done.length + 1) 0 = (done.flatten).length + mid.length := by
  have h1 : done.length < (done ++ mid :: todo).length := by simp
  have h2 := hrep.offsets_getD done.length (le_of_lt h1)
  have h3 := hrep.offsets_getD (done.length + 1) (by simp)
  rw [List.take_left] at h2
  have htake : (done ++ mid :: todo).take (done.length + 1) = done ++ [mid] := by
    rw [List.take_append]   
    simp
  rw [htake] at h3
  rw [List.flatten_append] at h3
  simp only [List.flatten_cons, List.flatten_nil, List.append_nil, List.length_append] at h3
  exact ⟨h2, h3⟩

theorem iterGo_sim {m : Compressed} :
    ∀ (N : Nat) (done : List (List (Nat × Int))) (processed cur : List (Nat × Int))
      (todo : List (List (Nat × Int))) (major : Nat),
      cur.length + todo.length + (todo.flatten).length ≤ N →
      Rep (done ++ (processed ++ cur) :: todo) m →
      major ≤ done.length →
      iterGo m ((done.flatten).length + processed.length) major
        (cur.length + (todo.flatten).length)
      = cur.map (tripleAt m.format done.length)
        ++ triplesOf m.format (done.length + 1) todo := by
  intro N
  induction N with
  | zero =>
    intro done processed cur todo major hN hrep hmaj
    have hcur : cur = [] := by
      cases cur with
      | nil => rfl
      | cons e cs => simp at hN
    have htodo : todo = [] := by
      cases todo with
      | nil => rfl
      | cons t ts => simp at hN
    subst hcur
    subst htodo
    simp [iterGo, triplesOf]
  | succ N ih =>
    intro done processed cur todo major hN hrep hmaj
    cases cur with
    | cons e cs =>
      have hfuel : (e :: cs).length + (todo.flatten).length
          = (cs.length + (todo.flatten).length) + 1 := by
        simp
        omega
      rw [hfuel]
      simp only [iterGo]
      have hoff := frame_offsets done (processed ++ e :: cs) todo hrep
      have hadv : advanceMajor m.offsets ((done.flatten).length + processed.length) major
          = done.length := by
        apply advanceMajor_spec m.offsets _ major done.length (rep_offsets_mono hrep)
          hmaj
        · rw [hrep.2.2.2.1, offsetsOf_length]
          simp
        · rw [hoff.1]
          omega
        · rw [hoff.2]
          simp
      rw [hadv]
      have hklen : (done.flatten).length + processed.length
          < ((done ++ (processed ++ e :: cs) :: todo).flatten).length := by
        rw [List.flatten_append, List.flatten_cons]
        simp
      have hkv : m.values.getD ((done.flatten).length + processed.length) 0 = e.2 := by
        rw [hrep.2.1, getD_map Prod.snd _ _ hklen 0 (0, 0), frame_getD]
      have hki : m.indices.getD ((done.flatten).length + processed.length) 0 = e.1 := by
        rw [hrep.2.2.1, getD_map Prod.fst _ _ hklen 0 (0, 0), frame_getD]
      have hrep' : Rep (done ++ ((processed ++ [e]) ++ cs) :: todo) m := by
        have : (processed ++ [e]) ++ cs = processed ++ e :: cs := by simp
        rw [this]
        exact hrep
      have hrec := ih done (processed ++ [e]) cs todo done.length
        (by simp at hN ⊢; omega) hrep' (le_refl _)
      have hlen' : ((processed ++ [e]).length) = processed.length + 1 := by simp
      rw [hlen'] at hrec
      have harith : (done.flatten).length + (processed.length + 1)
          = (done.flatten).length + processed.length + 1 := by omega
      rw [harith] at hrec
      rw [hrec, hkv, hki]
      cases hfmt : m.format <;> simp [tripleAt]
    | nil =>
      cases todo with
      | nil =>
        simp [iterGo, triplesOf]
      | cons t ts =>
        have hrep' : Rep ((done ++ [processed]) ++ ([] ++ t) :: ts) m := by
          have : (done ++ [processed]) ++ ([] ++ t) :: ts
              = done ++ (processed ++ []) :: (t :: ts) := by simp
          rw [this]
          exact hrep
        have hrec := ih (done ++ [processed]) [] t ts major
          (by simp at hN ⊢; omega) hrep' (by simp; omega)
        have hlen' : ((done ++ [processed]).flatten).length
            = (done.flatten).length + processed.length := by
          rw [List.flatten_append]
          simp
        rw [hlen', List.length_nil, Nat.add_zero] at hrec
        have harith : ([] : List (Nat × Int)).length + ((t :: ts).flatten).length
            = t.length + (ts.flatten).length := by simp
        rw [harith]
        rw [hrec]
        have hlen2 : (done ++ [processed]).length = done.length + 1 := by simp
        rw [hlen2]
        rfl
  
theorem toList_rep {ss : List (List (Nat × Int))} {m : Compressed} (hrep : Rep ss m) :
    m.toList = triplesOf m.format 0 ss := by
  cases ss with
  | nil =>
    unfold Compressed.toList
    have h0 : m.nonzeros = 0 := by
      rw [hrep.1]
      simp
    rw [h0]
    simp [iterGo, triplesOf]
  | cons s ts =>
    unfold Compressed.toList
    have hnz : m.nonzeros = s.length + (ts.flatten).length := by
      rw [hrep.1]
      simp
    rw [hnz]
    have hrep' : Rep ([] ++ ([] ++ s) :: ts) m := by simpa using hrep
    have := iterGo_sim (m := m) (s.length + ts.length + (ts.flatten).length)
      [] [] s ts 0 (le_refl _) hrep' (le_refl _)
    simp only [List.flatten_nil, List.length_nil, Nat.zero_add, List.length_cons] at this
    rw [this]
    simp [triplesOf]

/-! ### Helpers for the `retain` simulation -/

theorem offsetsOf_mono_getD (ss : List (List (Nat × Int))) :
    ∀ a b, a ≤ b → b < (offsetsOf ss).length →
      (offsetsOf ss).getD a 0 ≤ (offsetsOf ss).getD b 0 := by
  intro a b hab hb
  rw [offsetsOf_length] at hb
  exact offsetsOf_getD_le ss a b hab (by omega)

theorem offsetsOf_frame (done : List (List (Nat × Int))) (mid : List (Nat × Int))
    (todo : List (List (Nat × Int))) :
    (offsetsOf (done ++ mid :: todo)).getD done.length 0 = (done.flatten).length ∧
    (offsetsOf (done ++ mid :: todo)).getD (done.length + 1) 0
      = (done.flatten).length + mid.length := by
  constructor
  · rw [offsetsOf_getD_eq_take _ done.length (by simp), List.take_left]
  · rw [offsetsOf_getD_eq_take _ (done.length + 1) (by simp)]
    have htake : (done ++ mid :: todo).take (done.length + 1) = done ++ [mid] := by
      rw [List.take_append]
      simp
    rw [htake, List.flatten_append]
    simp

theorem eraseIdx_append_len {α : Type} :
    ∀ (P : List α) (e : α) (Q : List α), (P ++ e :: Q).eraseIdx P.length = P ++ Q := by
  intro P
  induction P with
  | nil => intro e Q; simp [List.eraseIdx]
  | cons p ps ih =>
    intro e Q
    simp only [List.cons_append, List.length_cons, List.eraseIdx]
    rw [show ps.append (e :: Q) = ps ++ e :: Q from rfl, ih]

theorem getD_append_len (done : List (List (Nat × Int))) (mid : List (Nat × Int))
    (todo : List (List (Nat × Int))) :
    (done ++ mid :: todo).getD done.length [] = mid := by
  rw [getD_append_ge _ _ _ _ (le_refl _)]
  simp

theorem set_frame (done : List (List (Nat × Int))) (mid s' : List (Nat × Int))
    (todo : List (List (Nat × Int))) :
    (done ++ mid :: todo).set done.length s' = done ++ s' :: todo := by
  induction done with
  | nil => simp
  | cons d ds ih => simp [ih]

theorem filterSlices_length (fmt : Format) (cond : Nat → Nat → Int → Bool) :
    ∀ (j : Nat) (ss : List (List (Nat × Int))),
      (filterSlices fmt cond j ss).length = ss.length := by
  intro j ss
  induction ss generalizing j with
  | nil => rfl
  | cons s ts ih => simp [filterSlices, ih]

theorem retain_offsets_step (done : List (List (Nat × Int))) (kept : List (Nat × Int))
    (e : Nat × Int) (es : List (Nat × Int)) (todo : List (List (Nat × Int))) :
    (offsetsOf (done ++ (kept ++ e :: es) :: todo)).take (done.length + 1)
      ++ ((offsetsOf (done ++ (kept ++ e :: es) :: todo)).drop (done.length + 1)).map
        (fun x => x - 1)
    = offsetsOf (done ++ (kept ++ es) :: todo) := by
  have hset : (done ++ (kept ++ e :: es) :: todo).set done.length (kept ++ es)
      = done ++ (kept ++ es) :: todo := set_frame done _ _ todo
  have hlen : ((done ++ (kept ++ e :: es) :: todo).getD done.length []).length
      = (kept ++ es).length + 1 := by
    rw [getD_append_len]
    simp
    omega
  rw [← hset, offsetsOf_set_erase _ done.length (kept ++ es) (by simp) hlen]

/-! ### Simulation of `retain` -/

theorem condAt_eq (fmt : Format) (cond : Nat → Nat → Int → Bool) (j : Nat)
    (e : Nat × Int) :
    (match fmt with
      | Format.Column => cond e.1 j e.2
      | Format.Row => cond j e.1 e.2) = condAt fmt cond j e := by
  cases fmt <;> rfl

theorem retainGo_sim (fmt : Format) (cond : Nat → Nat → Int → Bool) :
    ∀ (N : Nat) (done : List (List (Nat × Int))) (kept rest : List (Nat × Int))
      (todo : List (List (Nat × Int))) (major : Nat),
      rest.length + todo.length + (todo.flatten).length ≤ N →
      major ≤ done.length →
      retainGo fmt cond (stateOf (done ++ (kept ++ rest) :: todo))
        ((done.flatten).length + kept.length) major
        (rest.length + (todo.flatten).length)
      = stateOf (done ++ (kept ++ rest.filter (condAt fmt cond done.length))
          :: filterSlices fmt cond (done.length + 1) todo) := by
  intro N
  induction N with
  | zero =>
    intro done kept rest todo major hN hmaj
    have hrest : rest = [] := by
      cases rest with
      | nil => rfl
      | cons e cs => simp at hN
    have htodo : todo = [] := by
      cases todo with
      | nil => rfl
      | cons t ts => simp at hN
    subst hrest
    subst htodo
    simp [retainGo, filterSlices]
  | succ N ih =>
    intro done kept rest todo major hN hmaj
    cases rest with
    | cons e es =>
      have hfuel : (e :: es).length + (todo.flatten).length
          = (es.length + (todo.flatten).length) + 1 := by
        simp
        omega
      rw [hfuel]
      simp only [retainGo, stateOf]
      have hoff := offsetsOf_frame done (kept ++ e :: es) todo
      have hadv : advanceMajor (offsetsOf (done ++ (kept ++ e :: es) :: todo))
          ((done.flatten).length + kept.length) major = done.length := by
        apply advanceMajor_spec _ _ major done.length
          (offsetsOf_mono_getD _) hmaj
        · rw [offsetsOf_length]
          simp
        · rw [hoff.1]
          omega
        · rw [hoff.2]
          simp
      rw [hadv]
      have hklen : (done.flatten).length + kept.length
          < ((done ++ (kept ++ e :: es) :: todo).flatten).length := by
        rw [List.flatten_append, List.flatten_cons]
        simp
      have hkv : (((done ++ (kept ++ e :: es) :: todo).flatten).map Prod.snd).getD
          ((done.flatten).length + kept.length) 0 = e.2 := by
        rw [getD_map Prod.snd _ _ hklen 0 (0, 0), frame_getD]
      have hki : (((done ++ (kept ++ e :: es) :: todo).flatten).map Prod.fst).getD
          ((done.flatten).length + kept.length) 0 = e.1 := by
        rw [getD_map Prod.fst _ _ hklen 0 (0, 0), frame_getD]
      rw [hkv, hki]
      rw [condAt_eq fmt cond done.length e]
      by_cases hc : condAt fmt cond done.length e = true
      · rw [if_pos hc]
        have hrec := ih done (kept ++ [e]) es todo done.length
          (by simp at hN ⊢; omega) (le_refl _)
        simp only [List.length_append, List.length_cons, List.length_nil] at hrec
        have harith : (done.flatten).length + (kept.length + 1)
            = (done.flatten).length + kept.length + 1 := by omega
        rw [harith] at hrec
        have hlists : (kept ++ [e]) ++ es = kept ++ e :: es := by simp
        rw [hlists] at hrec
        have hlists2 : (kept ++ [e]) ++ es.filter (condAt fmt cond done.length)
            = kept ++ e :: es.filter (condAt fmt cond done.length) := by simp
        rw [hlists2] at hrec
        rw [show stateOf (done ++ (kept ++ e :: es) :: todo)
            = ({ values := ((done ++ (kept ++ e :: es) :: todo).flatten).map Prod.snd
                 indices := ((done ++ (kept ++ e :: es) :: todo).flatten).map Prod.fst
                 nonzeros := ((done ++ (kept ++ e :: es) :: todo).flatten).length
                 offsets := offsetsOf (done ++ (kept ++ e :: es) :: todo) } : RState)
            from rfl] at hrec
        rw [List.filter_cons_of_pos hc]
        exact hrec
      · rw [if_neg hc]
        rw [Bool.not_eq_true] at hc
        have hdecomp : (done ++ (kept ++ e :: es) :: todo).flatten
            = ((done.flatten) ++ kept) ++ e :: (es ++ todo.flatten) := by
          rw [List.flatten_append, List.flatten_cons]
          simp
        have hvalues : (((done ++ (kept ++ e :: es) :: todo).flatten).map Prod.snd).eraseIdx
            ((done.flatten).length + kept.length)
            = ((done ++ (kept ++ es) :: todo).flatten).map Prod.snd := by
          rw [hdecomp]
          have hpos : (done.flatten).length + kept.length
              = (((done.flatten) ++ kept).map Prod.snd).length := by
            rw [List.length_map, List.length_append]
          rw [List.map_append, List.map_cons, hpos, eraseIdx_append_len]
          rw [List.flatten_append, List.flatten_cons]
          simp
        have hindices : (((done ++ (kept ++ e :: es) :: todo).flatten).map Prod.fst).eraseIdx
            ((done.flatten).length + kept.length)
            = ((done ++ (kept ++ es) :: todo).flatten).map Prod.fst := by
          rw [hdecomp]
          have hpos : (done.flatten).length + kept.length
              = (((done.flatten) ++ kept).map Prod.fst).length := by
            rw [List.length_map, List.length_append]
          rw [List.map_append, List.map_cons, hpos, eraseIdx_append_len]
          rw [List.flatten_append, List.flatten_cons]
          simp
        have hnz : ((done ++ (kept ++ e :: es) :: todo).flatten).length - 1
            = ((done ++ (kept ++ es) :: todo).flatten).length := by
          rw [List.flatten_append, List.flatten_append, List.flatten_cons,
            List.flatten_cons]
          simp
          omega
        rw [hvalues, hindices, hnz, retain_offsets_step]
        have hrec := ih done kept es todo done.length
          (by simp at hN ⊢; omega) (le_refl _)
        rw [show stateOf (done ++ (kept ++ es) :: todo)
            = { values := ((done ++ (kept ++ es) :: todo).flatten).map Prod.snd
                indices := ((done ++ (kept ++ es) :: todo).flatten).map Prod.fst
                nonzeros := ((done ++ (kept ++ es) :: todo).flatten).length
                offsets := offsetsOf (done ++ (kept ++ es) :: todo) } from rfl] at hrec
        rw [List.filter_cons_of_neg (by simp [hc]), hrec]
        rfl
    | nil =>
      cases todo with
      | nil =>
        simp [retainGo, filterSlices]
      | cons t ts =>
        have hframe : done ++ (kept ++ []) :: t :: ts
            = (done ++ [kept]) ++ ([] ++ t) :: ts := by simp
        have hrec := ih (done ++ [kept]) [] t ts major
          (by simp at hN ⊢; omega) (by simp; omega)
        have hlen' : (((done ++ [kept]).flatten).length)
            = (done.flatten).length + kept.length := by
          rw [List.flatten_append]
          simp
        rw [hlen', List.length_nil, Nat.add_zero] at hrec
        have harith : ([] : List (Nat × Int)).length + ((t :: ts).flatten).length
            = t.length + (ts.flatten).length := by simp
        rw [harith]
        have hfr2 : done ++ (kept ++ []) :: t :: ts = done ++ kept :: t :: ts := by simp
        rw [hfr2]
        have hfr3 : (done ++ [kept]) ++ ([] ++ t) :: ts = done ++ kept :: t :: ts := by simp
        rw [hfr3] at hrec
        rw [hrec]
        have hlen2 : (done ++ [kept]).length = done.length + 1 := by simp
        rw [hlen2]
        have hout : (done ++ [kept]) ++ ([] ++ t.filter (condAt fmt cond (done.length + 1)))
            :: filterSlices fmt cond (done.length + 1 + 1) ts
            = done ++ (kept ++ [].filter (condAt fmt cond done.length))
              :: filterSlices fmt cond (done.length + 1) (t :: ts) := by
          simp [filterSlices]
        rw [hout]

/-! ### `retain` at the matrix level -/

theorem Compressed.retain_rows (m : Compressed) (cond : Nat → Nat → Int → Bool) :
    (m.retain cond).rows = m.rows := rfl

theorem Compressed.retain_columns (m : Compressed) (cond : Nat → Nat → Int → Bool) :
    (m.retain cond).columns = m.columns := rfl

theorem Compressed.retain_format (m : Compressed) (cond : Nat → Nat → Int → Bool) :
    (m.retain cond).format = m.format := rfl

theorem Compressed.retain_majorDim (m : Compressed) (cond : Nat → Nat → Int → Bool) :
    (m.retain cond).majorDim = m.majorDim := rfl

theorem Compressed.retain_minorDim (m : Compressed) (cond : Nat → Nat → Int → Bool) :
    (m.retain cond).minorDim = m.minorDim := rfl

theorem retain_rep {ss : List (List (Nat × Int))} {m : Compressed} (hrep : Rep ss m)
    (cond : Nat → Nat → Int → Bool) :
    Rep (filterSlices m.format cond 0 ss) (m.retain cond) := by
  cases ss with
  | nil =>
    have hlen0 : m.indices.length = 0 := by
      rw [hrep.2.2.1]
      simp
    unfold Compressed.retain
    rw [hlen0]
    simp only [retainGo, filterSlices]
    exact ⟨hrep.1, hrep.2.1, hrep.2.2.1, hrep.2.2.2.1, hrep.2.2.2.2⟩
  | cons s ts =>
    have hstate : (⟨m.values, m.indices, m.nonzeros, m.offsets⟩ : RState)
        = stateOf (s :: ts) := by
      rw [hrep.2.1, hrep.2.2.1, hrep.1, hrep.2.2.2.1]
      rfl
    have hlen : m.indices.length = s.length + (ts.flatten).length := by
      rw [hrep.2.2.1, List.length_map, List.flatten_cons, List.length_append]
    have hsim := retainGo_sim m.format cond (s.length + ts.length + (ts.flatten).length)
      [] [] s ts 0 (le_refl _) (le_refl _)
    simp only [List.nil_append, List.flatten_nil, List.length_nil, Nat.zero_add] at hsim
    unfold Compressed.retain
    rw [hlen, hstate, hsim]
    refine ⟨?_, ?_, ?_, ?_, ?_⟩
    · show (stateOf _).nonzeros = _
      rw [show filterSlices m.format cond 0 (s :: ts)
        = s.filter (condAt m.format cond 0) :: filterSlices m.format cond 1 ts from rfl]
      rfl
    · show (stateOf _).values = _
      rw [show filterSlices m.format cond 0 (s :: ts)
        = s.filter (condAt m.format cond 0) :: filterSlices m.format cond 1 ts from rfl]
      rfl
    · show (stateOf _).indices = _
      rw [show filterSlices m.format cond 0 (s :: ts)
        = s.filter (condAt m.format cond 0) :: filterSlices m.format cond 1 ts from rfl]
      rfl
    · show (stateOf _).offsets = _
      rw [show filterSlices m.format cond 0 (s :: ts)
        = s.filter (condAt m.format cond 0) :: filterSlices m.format cond 1 ts from rfl]
      rfl
    · rw [filterSlices_length]
      show (s :: ts).length = m.majorDim
      exact hrep.2.2.2.2

theorem sorted_filterSlices {ss : List (List (Nat × Int))} (hs : SortedSlices ss)
    (fmt : Format) (cond : Nat → Nat → Int → Bool) :
    ∀ j, SortedSlices (filterSlices fmt cond j ss) := by
  induction ss with
  | nil =>
    intro j s hsmem
    simp [filterSlices] at hsmem
  | cons s ts ih =>
    intro j s' hsmem
    simp only [filterSlices, List.mem_cons] at hsmem
    rcases hsmem with hsmem | hsmem
    · subst hsmem
      have hsub : List.Sublist ((s.filter (condAt fmt cond j)).map Prod.fst)
          (s.map Prod.fst) :=
        (List.filter_sublist s).map Prod.fst
      exact (hs s (by simp)).sublist hsub
    · exact ih (fun u hu => hs u (by simp [hu])) (j + 1) s' hsmem

theorem bounded_filterSlices {ss : List (List (Nat × Int))} {bound : Nat}
    (hb : BoundedSlices bound ss) (fmt : Format) (cond : Nat → Nat → Int → Bool) :
    ∀ j, BoundedSlices bound (filterSlices fmt cond j ss) := by
  induction ss with
  | nil =>
    intro j s hsmem
    simp [filterSlices] at hsmem
  | cons s ts ih =>
    intro j s' hsmem e hemem
    simp only [filterSlices, List.mem_cons] at hsmem
    rcases hsmem with hsmem | hsmem
    · subst hsmem
      exact hb s (by simp) e (List.mem_of_mem_filter hemem)
    · exact ih (fun u hu => hb u (by simp [hu])) (j + 1) s' hsmem e hemem

theorem valid_retain (m : Compressed) (hV : Valid m) (cond : Nat → Nat → Int → Bool) :
    Valid (m.retain cond) := by
  obtain ⟨hrep, hsort⟩ := rep_of_valid hV
  exact valid_of_rep (retain_rep hrep cond) (sorted_filterSlices hsort m.format cond 0)

theorem bounded_retain (m : Compressed) (hV : Valid m) (hB : Bounded m)
    (cond : Nat → Nat → Int → Bool) : Bounded (m.retain cond) := by
  obtain ⟨hrep, hsort⟩ := rep_of_valid hV
  have := bounded_filterSlices (bounded_slices_of hrep hB) m.format cond 0
  apply bounded_of_slices (retain_rep hrep cond)
  rw [Compressed.retain_minorDim]
  exact this

theorem retainGo_true (fmt : Format) :
    ∀ (fuel : Nat) (s : RState) (k major : Nat),
      retainGo fmt (fun _ _ _ => true) s k major fuel = s := by
  intro fuel
  induction fuel with
  | zero =>
    intro s k major
    rfl
  | succ fuel ih =>
    intro s k major
    cases fmt <;> simp [retainGo, ih]

theorem retain_true_eq (m : Compressed) :
    m.retain (fun _ _ _ => true) = m := by
  unfold Compressed.retain
  rw [retainGo_true]

theorem triplesOf_filterSlices (fmt : Format) (cond : Nat → Nat → Int → Bool) :
    ∀ (j : Nat) (ss : List (List (Nat × Int))),
      triplesOf fmt j (filterSlices fmt cond j ss)
        = (triplesOf fmt j ss).filter (fun t => cond t.1 t.2.1 t.2.2) := by
  intro j ss
  induction ss generalizing j with
  | nil => rfl
  | cons s ts ih =>
    simp only [filterSlices, triplesOf, List.filter_append]
    rw [ih (j + 1)]
    congr 1
    rw [List.filter_map]
    congr 1
    apply List.filter_congr
    intro e he
    cases fmt <;> rfl

/-! ### Helpers for `resize` -/

theorem flatten_replicate_nil {α : Type} (q : Nat) :
    (List.replicate q ([] : List α)).flatten = [] := by
  induction q with
  | zero => rfl
  | succ q ih => simp [List.replicate_succ, ih]

theorem offsetsOf_append_replicate (ss : List (List (Nat × Int))) (q : Nat) :
    offsetsOf (ss ++ List.replicate q []) = offsetsOf ss ++ List.replicate q
      (ss.flatten.length) := by
  induction ss with
  | nil =>
    simp only [List.nil_append, List.flatten_nil, List.length_nil]
    induction q with
    | zero => rfl
    | succ q ihq =>
      rw [List.replicate_succ]
      show (0 : Nat) :: (offsetsOf (List.replicate q [])).map
          (fun x => ([] : List (Nat × Int)).length + x)
        = offsetsOf [] ++ List.replicate (q + 1) 0
      simp only [List.length_nil, Nat.zero_add]
      rw [List.map_id', ihq]
      simp [offsetsOf, List.replicate_succ]
  | cons s ts ih =>
    simp only [List.cons_append, offsetsOf, List.flatten_cons, List.length_append]
    rw [show ts.append (List.replicate q []) = ts ++ List.replicate q [] from rfl,
      ih, List.map_append, List.map_replicate]

theorem offsetsOf_take (ss : List (List (Nat × Int))) (c : Nat) (hc : c ≤ ss.length) :
    offsetsOf (ss.take c) = (offsetsOf ss).take (c + 1) := by
  induction ss generalizing c with
  | nil =>
    have hc0 : c = 0 := Nat.le_zero.mp hc
    subst hc0
    rfl
  | cons s ts ih =>
    cases c with
    | zero => rfl
    | succ c =>
      simp only [List.length_cons, Nat.succ_le_succ_iff] at hc
      simp only [List.take_succ_cons, offsetsOf, ih c hc, List.map_take]

theorem flatten_drop_empty (ss : List (List (Nat × Int))) (c : Nat)
    (hempty : ∀ x, c ≤ x → x < ss.length → ss.getD x [] = []) :
    (ss.drop c).flatten = [] := by
  rw [List.flatten_eq_nil_iff]
  intro l hl
  rw [List.mem_iff_getElem] at hl
  obtain ⟨p, hp, hpe⟩ := hl
  rw [List.getElem_drop] at hpe
  rw [List.length_drop] at hp
  have := hempty (c + p) (by omega) (by omega)
  rw [List.getD_eq_getElem _ _ (by omega)] at this
  rw [← hpe, this]

theorem flatten_take_of_empty (ss : List (List (Nat × Int))) (c : Nat) (hc : c ≤ ss.length)
    (hempty : ∀ x, c ≤ x → x < ss.length → ss.getD x [] = []) :
    (ss.take c).flatten = ss.flatten := by
  conv_rhs => rw [← List.take_append_drop c ss]
  rw [List.flatten_append, flatten_drop_empty ss c hempty, List.append_nil]

theorem filterSlices_getD_empty (fmt : Format) (cond : Nat → Nat → Int → Bool) :
    ∀ (j : Nat) (ss : List (List (Nat × Int))) (x : Nat), x < ss.length →
      (∀ e, condAt fmt cond (j + x) e = false) →
      (filterSlices fmt cond j ss).getD x [] = [] := by
  intro j ss
  induction ss generalizing j with
  | nil =>
    intro x hx
    simp at hx
  | cons s ts ih =>
    intro x hx hcond
    cases x with
    | zero =>
      simp only [filterSlices, List.getD_cons_zero]
      rw [List.filter_eq_nil_iff]
      intro e he
      have := hcond e
      rw [Nat.add_zero] at this
      simp [this]
    | succ x =>
      simp only [filterSlices, List.getD_cons_succ]
      apply ih (j + 1) x (by simpa using hx)
      intro e
      have := hcond e
      rwa [show j + 1 + x = j + (x + 1) from by omega]

theorem triplesOf_append_replicate (fmt : Format) (q : Nat) :
    ∀ (j : Nat) (ss : List (List (Nat × Int))),
      triplesOf fmt j (ss ++ List.replicate q []) = triplesOf fmt j ss := by
  intro j ss
  induction ss generalizing j with
  | nil =>
    simp only [List.nil_append, triplesOf]
    induction q generalizing j with
    | zero => rfl
    | succ q ihq =>
      simp only [List.replicate_succ, triplesOf, List.map_nil, List.nil_append]
      exact ihq (j + 1)
  | cons s ts ih =>
    simp only [List.cons_append, triplesOf]
    rw [show ts.append (List.replicate q []) = ts ++ List.replicate q [] from rfl, ih (j + 1)]

theorem triplesOf_take_of_empty (fmt : Format) :
    ∀ (j c : Nat) (ss : List (List (Nat × Int))), c ≤ ss.length →
      (∀ x, c ≤ x → x < ss.length → ss.getD x [] = []) →
      triplesOf fmt j (ss.take c) = triplesOf fmt j ss := by
  intro j c ss
  induction ss generalizing j c with
  | nil =>
    intro hc _
    have hc0 : c = 0 := Nat.le_zero.mp hc
    subst hc0
    rfl
  | cons s ts ih =>
    intro hc hempty
    cases c with
    | zero =>
      simp only [List.take_zero]
      have hs0 : s = [] := by
        have := hempty 0 (le_refl _) (by simp)
        simpa using this
      subst hs0
      simp only [triplesOf, List.map_nil, List.nil_append]
      symm
      have : ∀ x, 0 ≤ x → x < ts.length → ts.getD x [] = [] := by
        intro x h0 hx
        have := hempty (x + 1) (by omega) (by simpa using Nat.succ_lt_succ hx)
        simpa using this
      calc triplesOf fmt (j + 1) ts
          = triplesOf fmt (j + 1) (ts.take 0) := (ih (j + 1) 0 (Nat.zero_le _) this).symm
        _ = [] := rfl
    | succ c =>
      simp only [List.length_cons, Nat.succ_le_succ_iff] at hc
      simp only [List.take_succ_cons, triplesOf]
      congr 1
      apply ih (j + 1) c hc
      intro x hcx hx
      have := hempty (x + 1) (by omega) (by simpa using Nat.succ_lt_succ hx)
      simpa using this

theorem mem_triplesOf (fmt : Format) :
    ∀ (j : Nat) (ss : List (List (Nat × Int))) (t : Nat × Nat × Int),
      t ∈ triplesOf fmt j ss ↔
        ∃ x, x < ss.length ∧ ∃ e, e ∈ ss.getD x [] ∧ t = tripleAt fmt (j + x) e := by
  intro j ss
  induction ss generalizing j with
  | nil =>
    intro t
    simp [triplesOf]
  | cons s ts ih =>
    intro t
    simp only [triplesOf, List.mem_append, List.mem_map, ih (j + 1)]
    constructor
    · rintro (⟨e, he, ht⟩ | ⟨x, hx, e, he, ht⟩)
      · exact ⟨0, by simp, e, by simpa using he, by simpa using ht.symm⟩
      · refine ⟨x + 1, by simpa using Nat.succ_lt_succ hx, e, by simpa using he, ?_⟩
        rw [ht]
        congr 1
        omega
    · rintro ⟨x, hx, e, he, ht⟩
      cases x with
      | zero =>
        left
        exact ⟨e, by simpa using he, by simpa using ht.symm⟩
      | succ x =>
        right
        refine ⟨x, by simpa using hx, e, by simpa using he, ?_⟩
        rw [ht]
        congr 1
        omega

theorem rep_reshape {ss1 ss2 : List (List (Nat × Int))} {m1 M2 : Compressed}
    (hrep1 : Rep ss1 m1)
    (hnz : M2.nonzeros = m1.nonzeros) (hv : M2.values = m1.values)
    (hi : M2.indices = m1.indices)
    (hflat : ss2.flatten = ss1.flatten)
    (hofs : offsetsOf ss2 = M2.offsets)
    (hlen : ss2.length = M2.majorDim) :
    Rep ss2 M2 := by
  refine ⟨?_, ?_, ?_, ?_, ?_⟩
  · rw [hnz, hrep1.1, hflat]
  · rw [hv, hrep1.2.1, hflat]
  · rw [hi, hrep1.2.2.1, hflat]
  · rw [← hofs]
  · exact hlen

theorem sorted_take {ss : List (List (Nat × Int))} (hs : SortedSlices ss) (n : Nat) :
    SortedSlices (ss.take n) :=
  fun s hsmem => hs s (List.mem_of_mem_take hsmem)

theorem sorted_append_replicate {ss : List (List (Nat × Int))} (hs : SortedSlices ss)
    (q : Nat) : SortedSlices (ss ++ List.replicate q []) := by
  intro s hsmem
  rw [List.mem_append] at hsmem
  rcases hsmem with hsmem | hsmem
  · exact hs s hsmem
  · rw [List.eq_of_mem_replicate hsmem]
    simp

theorem bounded_take {ss : List (List (Nat × Int))} {b : Nat}
    (hb : BoundedSlices b ss) (n : Nat) : BoundedSlices b (ss.take n) :=
  fun s hsmem => hb s (List.mem_of_mem_take hsmem)

theorem bounded_append_replicate {ss : List (List (Nat × Int))} {b : Nat}
    (hb : BoundedSlices b ss) (q : Nat) :
    BoundedSlices b (ss ++ List.replicate q []) := by
  intro s hsmem e hemem
  rw [List.mem_append] at hsmem
  rcases hsmem with hsmem | hsmem
  · exact hb s hsmem e hemem
  · rw [List.eq_of_mem_replicate hsmem] at hemem
    simp at hemem

theorem bounded_mono {ss : List (List (Nat × Int))} {b b' : Nat}
    (hb : BoundedSlices b ss) (hbb : b ≤ b') : BoundedSlices b' ss :=
  fun s hsmem e hemem => lt_of_lt_of_le (hb s hsmem e hemem) hbb

theorem mem_filterSlices (fmt : Format) (cond : Nat → Nat → Int → Bool) :
    ∀ (j : Nat) (ss : List (List (Nat × Int))) (s' : List (Nat × Int)),
      s' ∈ filterSlices fmt cond j ss →
      ∃ x, x < ss.length ∧ s' = (ss.getD x []).filter (condAt fmt cond (j + x)) := by
  intro j ss
  induction ss generalizing j with
  | nil =>
    intro s' hs'
    simp [filterSlices] at hs'
  | cons s ts ih =>
    intro s' hs'
    simp only [filterSlices, List.mem_cons] at hs'
    rcases hs' with hs' | hs'
    · exact ⟨0, by simp, by simpa using hs'⟩
    · obtain ⟨x, hx, hxe⟩ := ih (j + 1) s' hs'
      refine ⟨x + 1, by simpa using Nat.succ_lt_succ hx, ?_⟩
      simp only [List.getD_cons_succ]
      rw [show j + (x + 1) = j + 1 + x from by omega]
      exact hxe

/-! ### `resize` -/

theorem resize_eq_adjust (m : Compressed) (r c : Nat) :
    m.resize r c = adjustOffsets
      (if r < m.rows ∨ c < m.columns then
        m.retain (fun i j _ => decide (i < r) && decide (j < c))
      else m) r c := rfl

theorem Compressed.resize_rows (m : Compressed) (r c : Nat) : (m.resize r c).rows = r := rfl

theorem Compressed.resize_columns (m : Compressed) (r c : Nat) :
    (m.resize r c).columns = c := rfl

theorem Compressed.resize_format (m : Compressed) (r c : Nat) :
    (m.resize r c).format = m.format := by
  unfold Compressed.resize
  dsimp only
  split <;> rfl

theorem resize_core {ss1 : List (List (Nat × Int))} {m1 : Compressed}
    (hrep1 : Rep ss1 m1) (r c : Nat)
    (hempty_col : m1.format = Format.Column →
      ∀ x, c ≤ x → x < ss1.length → ss1.getD x [] = [])
    (hempty_row : m1.format = Format.Row →
      ∀ x, r ≤ x → x < ss1.length → ss1.getD x [] = []) :
    ∃ ss2, Rep ss2 (adjustOffsets m1 r c)
      ∧ (SortedSlices ss1 → SortedSlices ss2)
      ∧ (∀ b, BoundedSlices b ss1 → BoundedSlices b ss2)
      ∧ triplesOf m1.format 0 ss2 = triplesOf m1.format 0 ss1 := by
  unfold adjustOffsets
  dsimp only
  cases hfmt : m1.format with
  | Column =>
    have hlen1 : ss1.length = m1.columns := by
      have := hrep1.2.2.2.2
      rw [Compressed.majorDim, hfmt] at this
      exact this
    dsimp only
    rcases Nat.lt_trichotomy c m1.columns with hc | hc | hc
    · rw [if_pos hc]
      refine ⟨ss1.take c, ?_, fun hs => sorted_take hs c, fun b hb => bounded_take hb c, ?_⟩
      · apply rep_reshape hrep1
        · rfl
        · rfl
        · rfl
        · exact flatten_take_of_empty ss1 c (by omega) (hempty_col hfmt)
        · show offsetsOf (ss1.take c) = m1.offsets.take (c + 1)
          rw [offsetsOf_take ss1 c (by omega), hrep1.2.2.2.1]
        · show (ss1.take c).length = _
          rw [List.length_take]
          simp [Compressed.majorDim]
          omega
      · exact triplesOf_take_of_empty Format.Column 0 c ss1 (by omega) (hempty_col hfmt)
    · rw [if_neg (by omega), if_neg (by omega)]
      refine ⟨ss1, ?_, fun hs => hs, fun b hb => hb, rfl⟩
      apply rep_reshape hrep1
      · rfl
      · rfl
      · rfl
      · rfl
      · exact hrep1.2.2.2.1.symm
      · show ss1.length = _
        simp [Compressed.majorDim]
        omega
    · rw [if_neg (by omega), if_pos hc]
      refine ⟨ss1 ++ List.replicate (c - m1.columns) [], ?_,
        fun hs => sorted_append_replicate hs _, fun b hb => bounded_append_replicate hb _,
        triplesOf_append_replicate Format.Column _ 0 ss1⟩
      apply rep_reshape hrep1
      · rfl
      · rfl
      · rfl
      · rw [List.flatten_append, flatten_replicate_nil, List.append_nil]
      · show offsetsOf _ = m1.offsets ++ _
        rw [offsetsOf_append_replicate, hrep1.2.2.2.1, hrep1.1]
      · show (ss1 ++ _).length = _
        rw [List.length_append, List.length_replicate]
        simp [Compressed.majorDim]
        omega
  | Row =>
    have hlen1 : ss1.length = m1.rows := by
      have := hrep1.2.2.2.2
      rw [Compressed.majorDim, hfmt] at this
      exact this
    dsimp only
    rcases Nat.lt_trichotomy r m1.rows with hc | hc | hc
    · rw [if_pos hc]
      refine ⟨ss1.take r, ?_, fun hs => sorted_take hs r, fun b hb => bounded_take hb r, ?_⟩
      · apply rep_reshape hrep1
        · rfl
        · rfl
        · rfl
        · exact flatten_take_of_empty ss1 r (by omega) (hempty_row hfmt)
        · show offsetsOf (ss1.take r) = m1.offsets.take (r + 1)
          rw [offsetsOf_take ss1 r (by omega), hrep1.2.2.2.1]
        · show (ss1.take r).length = _
          rw [List.length_take]
          simp [Compressed.majorDim]
          omega
      · exact triplesOf_take_of_empty Format.Row 0 r ss1 (by omega) (hempty_row hfmt)
    · rw [if_neg (by omega), if_neg (by omega)]
      refine ⟨ss1, ?_, fun hs => hs, fun b hb => hb, rfl⟩
      apply rep_reshape hrep1
      · rfl
      · rfl
      · rfl
      · rfl
      · exact hrep1.2.2.2.1.symm
      · show ss1.length = _
        simp [Compressed.majorDim]
        omega
    · rw [if_neg (by omega), if_pos hc]
      refine ⟨ss1 ++ List.replicate (r - m1.rows) [], ?_,
        fun hs => sorted_append_replicate hs _, fun b hb => bounded_append_replicate hb _,
        triplesOf_append_replicate Format.Row _ 0 ss1⟩
      apply rep_reshape hrep1
      · rfl
      · rfl
      · rfl
      · rw [List.flatten_append, flatten_replicate_nil, List.append_nil]
      · show offsetsOf _ = m1.offsets ++ _
        rw [offsetsOf_append_replicate, hrep1.2.2.2.1, hrep1.1]
      · show (ss1 ++ _).length = _
        rw [List.length_append, List.length_replicate]
        simp [Compressed.majorDim]
        omega

theorem resize_master {ss : List (List (Nat × Int))} {m : Compressed}
    (hrep : Rep ss m) (r c : Nat) :
    ∃ ss2, Rep ss2 (m.resize r c)
      ∧ (SortedSlices ss → SortedSlices ss2)
      ∧ (BoundedSlices m.minorDim ss → BoundedSlices (m.resize r c).minorDim ss2)
      ∧ ((r < m.rows ∨ c < m.columns) →
          triplesOf m.format 0 ss2 = (triplesOf m.format 0 ss).filter
            (fun t => decide (t.1 < r) && decide (t.2.1 < c)))
      ∧ (¬ (r < m.rows ∨ c < m.columns) →
          triplesOf m.format 0 ss2 = triplesOf m.format 0 ss) := by
  by_cases hP : r < m.rows ∨ c < m.columns
  · have hrep1 := retain_rep hrep (fun i j _ => decide (i < r) && decide (j < c))
    have hfmt1 : (m.retain (fun i j _ => decide (i < r) && decide (j < c))).format
        = m.format := rfl
    have hempty_col : (m.retain (fun i j _ => decide (i < r) && decide (j < c))).format
        = Format.Column → ∀ x, c ≤ x →
        x < (filterSlices m.format (fun i j _ => decide (i < r) && decide (j < c)) 0
          ss).length →
        (filterSlices m.format (fun i j _ => decide (i < r) && decide (j < c)) 0
          ss).getD x [] = [] := by
      intro hfc x hcx hx
      rw [filterSlices_length] at hx
      apply filterSlices_getD_empty m.format _ 0 ss x hx
      intro e
      rw [hfmt1] at hfc
      rw [hfc]
      unfold condAt
      simp
      omega
    have hempty_row : (m.retain (fun i j _ => decide (i < r) && decide (j < c))).format
        = Format.Row → ∀ x, r ≤ x →
        x < (filterSlices m.format (fun i j _ => decide (i < r) && decide (j < c)) 0
          ss).length →
        (filterSlices m.format (fun i j _ => decide (i < r) && decide (j < c)) 0
          ss).getD x [] = [] := by
      intro hfc x hcx hx
      rw [filterSlices_length] at hx
      apply filterSlices_getD_empty m.format _ 0 ss x hx
      intro e
      rw [hfmt1] at hfc
      rw [hfc]
      unfold condAt
      simp
      omega
    obtain ⟨ss2, hrep2, hsort2, hbnd2, htri2⟩ := resize_core hrep1 r c hempty_col hempty_row
    rw [hfmt1] at htri2
    have hresize : m.resize r c = adjustOffsets
        (m.retain (fun i j _ => decide (i < r) && decide (j < c))) r c := by
      rw [resize_eq_adjust, if_pos hP]
    refine ⟨ss2, by rw [hresize]; exact hrep2, ?_, ?_, ?_, fun hnP => absurd hP hnP⟩
    · intro hs
      exact hsort2 (sorted_filterSlices hs m.format _ 0)
    · intro hb
      apply hbnd2
      intro s' hs' e he
      obtain ⟨x, hx, hxe⟩ := mem_filterSlices m.format _ 0 ss s' hs'
      rw [hxe] at he
      rw [List.mem_filter] at he
      have hcond := he.2
      have hfmt2 : (m.resize r c).format = m.format := Compressed.resize_format m r c
      unfold Compressed.minorDim
      rw [hfmt2]
      rw [Compressed.resize_rows, Compressed.resize_columns]
      cases hfmt : m.format with
      | Column =>
        rw [hfmt] at hcond
        unfold condAt at hcond
        simp at hcond
        dsimp only
        exact hcond.1
      | Row =>
        rw [hfmt] at hcond
        unfold condAt at hcond
        simp at hcond
        dsimp only
        exact hcond.2
    · intro _
      rw [htri2, triplesOf_filterSlices]
  · have hresize : m.resize r c = adjustOffsets m r c := by
      rw [resize_eq_adjust, if_neg hP]
    push_neg at hP
    obtain ⟨ss2, hrep2, hsort2, hbnd2, htri2⟩ := resize_core hrep r c
      (fun hfc x hcx hx => by
        have hlen : ss.length = m.majorDim := hrep.2.2.2.2
        have hmaj : m.majorDim = m.columns := by simp [Compressed.majorDim, hfc]
        omega)
      (fun hfc x hcx hx => by
        have hlen : ss.length = m.majorDim := hrep.2.2.2.2
        have hmaj : m.majorDim = m.rows := by simp [Compressed.majorDim, hfc]
        omega)
    refine ⟨ss2, by rw [hresize]; exact hrep2, hsort2, ?_, fun hPP => absurd hPP (by omega),
      fun _ => htri2⟩
    intro hb
    apply hbnd2
    apply bounded_mono hb
    have hfmt2 : (m.resize r c).format = m.format := Compressed.resize_format m r c
    unfold Compressed.minorDim
    rw [hfmt2, Compressed.resize_rows, Compressed.resize_columns]
    cases hfmt : m.format <;> dsimp only <;> omega

theorem valid_resize (m : Compressed) (hV : Valid m) (r c : Nat) :
    Valid (m.resize r c) := by
  obtain ⟨hrep, hsort⟩ := rep_of_valid hV
  obtain ⟨ss2, hrep2, hsort2, _, _, _⟩ := resize_master hrep r c
  exact valid_of_rep hrep2 (hsort2 hsort)

theorem bounded_resize (m : Compressed) (hV : Valid m) (hB : Bounded m) (r c : Nat) :
    Bounded (m.resize r c) := by
  obtain ⟨hrep, hsort⟩ := rep_of_valid hV
  obtain ⟨ss2, hrep2, _, hbnd2, _, _⟩ := resize_master hrep r c
  exact bounded_of_slices hrep2 (hbnd2 (bounded_slices_of hrep hB))

theorem toList_resize (m : Compressed) (hV : Valid m) (hB : Bounded m) (r c : Nat) :
    (m.resize r c).toList
      = m.toList.filter (fun t => decide (t.1 < r) && decide (t.2.1 < c)) := by
  obtain ⟨hrep, hsort⟩ := rep_of_valid hV
  obtain ⟨ss2, hrep2, _, _, htriP, htriN⟩ := resize_master hrep r c
  have htl2 := toList_rep hrep2
  rw [Compressed.resize_format] at htl2
  have htl := toList_rep hrep
  by_cases hP : r < m.rows ∨ c < m.columns
  · rw [htl2, htriP hP, htl]
  · rw [htl2, htriN hP, htl]
    symm
    rw [List.filter_eq_self]
    intro t ht
    rw [mem_triplesOf] at ht
    obtain ⟨x, hx, e, he, hte⟩ := ht
    have hmem : (slicesOf m).getD x [] ∈ slicesOf m := by
      rw [List.getD_eq_getElem _ _ hx]
      exact List.getElem_mem hx
    have hbound := bounded_slices_of hrep hB _ hmem e he
    have hxmaj : x < m.majorDim := by
      have := hrep.2.2.2.2
      omega
    push_neg at hP
    rw [hte]
    cases hfmt : m.format with
    | Column =>
      unfold tripleAt
      rw [Compressed.minorDim, hfmt] at hbound
      rw [Compressed.majorDim, hfmt] at hxmaj
      dsimp only at hbound hxmaj
      simp
      constructor
      · omega
      · omega
    | Row =>
      unfold tripleAt
      rw [Compressed.minorDim, hfmt] at hbound
      rw [Compressed.majorDim, hfmt] at hxmaj
      dsimp only at hbound hxmaj
      simp
      constructor
      · omega
      · omega

/-! ### `set`: invariant preservation and reads at other coordinates -/

theorem sorted_slices_set {ss : List (List (Nat × Int))} (hs : SortedSlices ss)
    (j : Nat) (s' : List (Nat × Int))
    (hs' : (s'.map Prod.fst).Pairwise (fun a b => a < b)) :
    SortedSlices (ss.set j s') := by
  intro u hu
  rcases List.mem_or_eq_of_mem_set hu with hu' | hu'
  · exact hs u hu'
  · rw [hu']
    exact hs'

theorem bounded_slices_set {ss : List (List (Nat × Int))} {b : Nat}
    (hb : BoundedSlices b ss) (j : Nat) (s' : List (Nat × Int))
    (hs' : ∀ e ∈ s', e.1 < b) : BoundedSlices b (ss.set j s') := by
  intro u hu e he
  rcases List.mem_or_eq_of_mem_set hu with hu' | hu'
  · exact hb u hu' e he
  · rw [hu'] at he
    exact hs' e he

theorem valid_set (m : Compressed) (hV : Valid m) (i j : Nat) (v : Int)
    (hi : i < m.rows) (hj : j < m.columns) : Valid (m.set i j v) := by
  obtain ⟨hrep, hsort⟩ := rep_of_valid hV
  have hb := coords_bounds (m := m) i j hi hj
  have hmj : (m.format.coords i j).2 < (slicesOf m).length := by
    rw [hrep.2.2.2.2]
    exact hb.2
  have hmem : (slicesOf m).getD (m.format.coords i j).2 [] ∈ slicesOf m := by
    rw [List.getD_eq_getElem _ _ hmj]
    exact List.getElem_mem hmj
  apply valid_of_rep (set_rep hrep i j v hmj)
  exact sorted_slices_set hsort _ _ (sorted_upsert _ v _ (hsort _ hmem))

theorem bounded_set (m : Compressed) (hV : Valid m) (hB : Bounded m) (i j : Nat) (v : Int)
    (hi : i < m.rows) (hj : j < m.columns) : Bounded (m.set i j v) := by
  obtain ⟨hrep, hsort⟩ := rep_of_valid hV
  have hb := coords_bounds (m := m) i j hi hj
  have hmj : (m.format.coords i j).2 < (slicesOf m).length := by
    rw [hrep.2.2.2.2]
    exact hb.2
  have hmem : (slicesOf m).getD (m.format.coords i j).2 [] ∈ slicesOf m := by
    rw [List.getD_eq_getElem _ _ hmj]
    exact List.getElem_mem hmj
  apply bounded_of_slices (set_rep hrep i j v hmj)
  rw [Compressed.set_minorDim]
  apply bounded_slices_set (bounded_slices_of hrep hB)
  intro e he
  rcases mem_upsert _ v _ e he with he' | he'
  · rw [he']
    exact hb.1
  · exact bounded_slices_of hrep hB _ hmem e he'

theorem coords_inj {m : Compressed} (i j i' j' : Nat)
    (h : m.format.coords i j = m.format.coords i' j') : i = i' ∧ j = j' := by
  cases hf : m.format with
  | Column =>
    rw [hf] at h
    unfold Format.coords at h
    simp at h
    exact h
  | Row =>
    rw [hf] at h
    unfold Format.coords at h
    simp at h
    exact ⟨h.2, h.1⟩

theorem getD_set_ne_list {α : Type} (l : List α) (n n' : Nat) (a d : α) (h : n' ≠ n) :
    (l.set n a).getD n' d = l.getD n' d := by
  simp [List.getElem?_set_ne (fun hh => h hh.symm)]

theorem get_set_other (m : Compressed) (hV : Valid m) (i j : Nat) (v : Int)
    (hi : i < m.rows) (hj : j < m.columns) (a b : Nat)
    (ha : a < m.rows) (hb2 : b < m.columns) (hne : ¬ (a = i ∧ b = j)) :
    (m.set i j v).get a b = m.get a b := by
  obtain ⟨hrep, hsort⟩ := rep_of_valid hV
  have hbij := coords_bounds (m := m) i j hi hj
  have hbab := coords_bounds (m := m) a b ha hb2
  have hmj : (m.format.coords i j).2 < (slicesOf m).length := by
    rw [hrep.2.2.2.2]
    exact hbij.2
  have hmab : (m.format.coords a b).2 < (slicesOf m).length := by
    rw [hrep.2.2.2.2]
    exact hbab.2
  have hrep' := set_rep hrep i j v hmj
  have hco' : (m.set i j v).format.coords a b = m.format.coords a b := by
    rw [Compressed.set_format]
  have hmab' : ((m.set i j v).format.coords a b).2
      < ((slicesOf m).set (m.format.coords i j).2
          (upsert (m.format.coords i j).1 v
            ((slicesOf m).getD (m.format.coords i j).2 []))).length := by
    rw [hco', List.length_set]
    exact hmab
  have hget := get_rep hrep' a b hmab'
  rw [hget, hco', get_rep hrep a b hmab]
  by_cases hsame : (m.format.coords a b).2 = (m.format.coords i j).2
  · rw [hsame, getD_set_self_list _ _ _ _ hmj]
    have hne1 : (m.format.coords a b).1 ≠ (m.format.coords i j).1 := by
      intro heq
      apply hne
      have : m.format.coords a b = m.format.coords i j := by
        have h1 := heq
        have h2 := hsame
        cases hc1 : m.format.coords a b with
        | mk x y =>
          cases hc2 : m.format.coords i j with
          | mk x' y' =>
            rw [hc1, hc2] at h1 h2
            simp at h1 h2
            simp [h1, h2]
      exact coords_inj a b i j this
    exact getL_upsert_other _ _ v _ hne1
  · rw [getD_set_ne_list _ _ _ _ _ hsame]

/-! ### Cores for the nonzeros and retain-constant claims -/

theorem nonzerosDerived_le (m : Compressed) :
    m.nonzerosDerived ≤ m.values.length := by
  unfold Compressed.nonzerosDerived
  have hgen : ∀ (l : List Int) (acc : Nat),
      l.foldl (fun sum v => if v = 0 then sum else sum + 1) acc ≤ acc + l.length := by
    intro l
    induction l with
    | nil => intro acc; simp
    | cons x xs ih =>
      intro acc
      simp only [List.foldl_cons, List.length_cons]
      by_cases hx : x = 0
      · rw [if_pos hx]
        have := ih acc
        omega
      · rw [if_neg hx]
        have := ih (acc + 1)
        omega
  have := hgen m.values 0
  omega

theorem foundIn_mem (i : Nat) (s : List (Nat × Int)) (hf : foundIn i s = true) :
    ∃ v, (i, v) ∈ s := by
  induction s with
  | nil => simp [foundIn] at hf
  | cons e es ih =>
    by_cases h1 : e.1 = i
    · refine ⟨e.2, ?_⟩
      rw [show (i, e.2) = e from by rw [← h1]]
      simp
    · by_cases h2 : i < e.1
      · simp [foundIn, h1, h2] at hf
      · simp only [foundIn, if_neg h1, if_neg h2] at hf
        obtain ⟨v, hv⟩ := ih hf
        exact ⟨v, by simp [hv]⟩

theorem set_nonzeros_not_found {ss : List (List (Nat × Int))} {m : Compressed}
    (hrep : Rep ss m) (i j : Nat) (v : Int)
    (hmj : (m.format.coords i j).2 < ss.length)
    (hnf : foundIn (m.format.coords i j).1 (ss.getD (m.format.coords i j).2 []) = false) :
    (m.set i j v).nonzeros = m.nonzeros + 1 := by
  rcases hco : m.format.coords i j with ⟨mi, mj⟩
  rw [hco] at hmj hnf
  dsimp only at hmj hnf
  have hfind := findSlot_rep hrep mj hmj mi
  unfold Compressed.set
  rw [hco]
  dsimp only
  rw [hfind]
  dsimp only
  rw [hnf, if_neg (by simp)]

theorem tripleAt_coords {m : Compressed} (i j : Nat) (v : Int) :
    tripleAt m.format (m.format.coords i j).2 ((m.format.coords i j).1, v) = (i, j, v) := by
  cases hf : m.format <;> rfl

theorem filterSlices_false (fmt : Format) :
    ∀ (j : Nat) (ss : List (List (Nat × Int))),
      filterSlices fmt (fun _ _ _ => false) j ss = List.replicate ss.length [] := by
  intro j ss
  induction ss generalizing j with
  | nil => rfl
  | cons s ts ih =>
    simp only [filterSlices, List.length_cons, List.replicate_succ, ih (j + 1)]
    congr 1
    rw [List.filter_eq_nil_iff]
    intro e he
    cases fmt <;> simp [condAt]

theorem offsetsOf_replicate_nil (q : Nat) :
    offsetsOf (List.replicate q ([] : List (Nat × Int))) = List.replicate (q + 1) 0 := by
  have := offsetsOf_append_replicate [] q
  simp only [List.nil_append, List.flatten_nil, List.length_nil] at this
  rw [this]
  show offsetsOf [] ++ _ = _
  simp [offsetsOf, List.replicate_succ]

/-! ### The empty matrix and `Dense → Compressed` -/

theorem getD_replicate {α : Type} (n k : Nat) (a d : α) :
    (List.replicate n a).getD k d = if k < n then a else d := by
  induction n generalizing k with
  | zero => simp
  | succ n ih =>
    cases k with
    | zero => simp [List.replicate_succ]
    | succ k =>
      simp only [List.replicate_succ, List.getD_cons_succ, ih]
      by_cases hk : k < n
      · rw [if_pos hk, if_pos (by omega)]
      · rw [if_neg hk, if_neg (by omega)]

theorem valid_new (R C : Nat) (fmt : Format) : Valid (Compressed.new R C fmt) := by
  unfold Compressed.new Valid
  cases fmt with
  | Column =>
    dsimp only
    refine ⟨rfl, rfl, ?_, ?_, ?_, ?_, ?_⟩
    · show (List.replicate (C + 1) 0).length = Compressed.majorDim _ + 1
      rw [List.length_replicate]
      rfl
    · rw [getD_replicate]
      simp
    · show (List.replicate (C + 1) 0).getD (Compressed.majorDim _) 0 = 0
      rw [getD_replicate]
      split <;> rfl
    · intro j hj
      rw [getD_replicate, getD_replicate]
      rw [List.length_replicate] at hj
      rw [if_pos (by omega)]
      split <;> omega
    · intro j hj k hk
      omega
  | Row =>
    dsimp only
    refine ⟨rfl, rfl, ?_, ?_, ?_, ?_, ?_⟩
    · show (List.replicate (R + 1) 0).length = Compressed.majorDim _ + 1
      rw [List.length_replicate]
      rfl
    · rw [getD_replicate]
      simp
    · show (List.replicate (R + 1) 0).getD (Compressed.majorDim _) 0 = 0
      rw [getD_replicate]
      split <;> rfl
    · intro j hj
      rw [getD_replicate, getD_replicate]
      rw [List.length_replicate] at hj
      rw [if_pos (by omega)]
      split <;> omega
    · intro j hj k hk
      omega

theorem bounded_new (R C : Nat) (fmt : Format) : Bounded (Compressed.new R C fmt) := by
  intro k hk
  simp [Compressed.new] at hk

theorem get_new (R C : Nat) (fmt : Format) (a b : Nat) :
    (Compressed.new R C fmt).get a b = 0 := by
  unfold Compressed.get Compressed.new
  cases fmt with
  | Column =>
    dsimp only
    rw [getD_replicate, getD_replicate]
    split <;> split <;> simp [getLoop]
  | Row =>
    dsimp only
    rw [getD_replicate, getD_replicate]
    split <;> split <;> simp [getLoop]

theorem drop_head_getD (l : List Int) (n : Nat) (x : Int) (xs : List Int)
    (h : l.drop n = x :: xs) : l.getD n 0 = x := by
  have h0 : (l.drop n)[0]? = some x := by rw [h]; simp
  rw [List.getElem?_drop, Nat.add_zero] at h0
  simp [h0]

theorem fromDense_fold (R C : Nat) (vals : List Int) :
    ∀ (l : List Int) (n : Nat) (mk : Compressed),
      l = vals.drop n →
      n + l.length = R * C →
      Valid mk → Bounded mk → mk.rows = R → mk.columns = C → mk.format = Format.Column →
      (∀ a b, a < R → b < C → mk.get a b
        = if b * R + a < n then vals.getD (b * R + a) 0 else 0) →
      Valid ((l.enumFrom n).foldl
          (fun m kv => if kv.2 = 0 then m else m.set (kv.1 % R) (kv.1 / R) kv.2) mk)
      ∧ Bounded ((l.enumFrom n).foldl
          (fun m kv => if kv.2 = 0 then m else m.set (kv.1 % R) (kv.1 / R) kv.2) mk)
      ∧ ((l.enumFrom n).foldl
          (fun m kv => if kv.2 = 0 then m else m.set (kv.1 % R) (kv.1 / R) kv.2) mk).rows = R
      ∧ ((l.enumFrom n).foldl
          (fun m kv => if kv.2 = 0 then m else m.set (kv.1 % R) (kv.1 / R) kv.2) mk).columns = C
      ∧ ((l.enumFrom n).foldl
          (fun m kv => if kv.2 = 0 then m else m.set (kv.1 % R) (kv.1 / R) kv.2) mk).format
            = Format.Column
      ∧ (∀ a b, a < R → b < C → ((l.enumFrom n).foldl
          (fun m kv => if kv.2 = 0 then m else m.set (kv.1 % R) (kv.1 / R) kv.2) mk).get a b
            = vals.getD (b * R + a) 0) := by
  intro l
  induction l with
  | nil =>
    intro n mk hl hn hV hB hr hc hf hget
    simp only [List.enumFrom_nil, List.foldl_nil]
    refine ⟨hV, hB, hr, hc, hf, ?_⟩
    intro a b ha hb
    rw [hget a b ha hb, if_pos]
    have : b * R + a < C * R := by
      have h1 : b * R + a < (b + 1) * R := by
        rw [Nat.succ_mul]
        omega
      have h2 : (b + 1) * R ≤ C * R := Nat.mul_le_mul_right R (by omega)
      omega
    have hcomm : C * R = R * C := Nat.mul_comm C R
    simp at hn
    omega
  | cons x xs ih =>
    intro n mk hl hn hV hB hr hc hf hget
    have hlt : n < R * C := by
      simp at hn
      omega
    have hR : 0 < R := by
      rcases Nat.eq_zero_or_pos R with h0 | h0
      · subst h0
        simp at hlt
      · exact h0
    have ha' : n % R < R := Nat.mod_lt _ hR
    have hb' : n / R < C := by
      rw [Nat.div_lt_iff_lt_mul hR]
      have : R * C = C * R := Nat.mul_comm R C
      omega
    have hdecomp : n / R * R + n % R = n := by
      have := Nat.div_add_mod n R
      have hcomm : n / R * R = R * (n / R) := Nat.mul_comm _ _
      omega
    have hxs : xs = vals.drop (n + 1) := by
      have : (vals.drop n).tail = vals.drop (n + 1) := by
        rw [← List.drop_drop]
        rw [← hl]
        rfl
      rw [← this, ← hl]
      rfl
    have hxval : vals.getD n 0 = x := drop_head_getD vals n x xs hl.symm
    simp only [List.enumFrom_cons, List.foldl_cons]
    by_cases hx : x = 0
    · rw [if_pos (by simpa using hx)]
      apply ih (n + 1) mk hxs (by simp at hn ⊢; omega) hV hB hr hc hf
      intro a b ha hb
      rw [hget a b ha hb]
      by_cases hpos : b * R + a < n
      · rw [if_pos hpos, if_pos (by omega)]
      · rw [if_neg hpos]
        by_cases hpos2 : b * R + a < n + 1
        · rw [if_pos hpos2]
          have hba : b * R + a = n := by omega
          rw [hba, hxval, hx]
        · rw [if_neg hpos2]
    · rw [if_neg (by simpa using hx)]
      have hV' : Valid (mk.set (n % R) (n / R) x) :=
        valid_set mk hV _ _ x (by omega) (by omega)
      have hB' : Bounded (mk.set (n % R) (n / R) x) :=
        bounded_set mk hV hB _ _ x (by omega) (by omega)
      apply ih (n + 1) (mk.set (n % R) (n / R) x) hxs (by simp at hn ⊢; omega) hV' hB'
        (by rw [Compressed.set_rows, hr]) (by rw [Compressed.set_columns, hc])
        (by rw [Compressed.set_format, hf])
      intro a b ha hb
      by_cases hab : a = n % R ∧ b = n / R
      · obtain ⟨ha1, hb1⟩ := hab
        subst ha1
        subst hb1
        have := get_after_set mk hV (n % R) (n / R) x (by omega) (by omega)
        rw [this, if_pos (by omega), hdecomp, hxval]
      · have := get_set_other mk hV (n % R) (n / R) x (by omega) (by omega) a b
          (by omega) (by omega) hab
        rw [this, hget a b (by omega) (by omega)]
        have hne : b * R + a ≠ n := by
          intro heq
          apply hab
          constructor
          · rw [← heq, Nat.add_comm (b * R) a, Nat.add_mul_mod_self_right,
              Nat.mod_eq_of_lt (show a < R from by omega)]
          · rw [← heq, Nat.add_comm (b * R) a, Nat.add_mul_div_right _ _ hR,
              Nat.div_eq_of_lt (show a < R from by omega)]
            omega
        by_cases hpos : b * R + a < n
        · rw [if_pos hpos, if_pos (by omega)]
        · rw [if_neg hpos, if_neg (by omega)]

/-! ### Scatter writes (`Compressed → Dense`) -/

theorem fromDense_inv (d : Dense) (hd : d.values.length = d.rows * d.columns) :
    Valid (Compressed.fromDense d) ∧ Bounded (Compressed.fromDense d)
    ∧ (Compressed.fromDense d).rows = d.rows
    ∧ (Compressed.fromDense d).columns = d.columns
    ∧ (Compressed.fromDense d).format = Format.Column
    ∧ ∀ a b, a < d.rows → b < d.columns →
        (Compressed.fromDense d).get a b = d.values.getD (b * d.rows + a) 0 := by
  have h := fromDense_fold d.rows d.columns d.values d.values 0
    (Compressed.new d.rows d.columns Format.Column) (by simp) (by simpa using hd)
    (valid_new _ _ _) (bounded_new _ _ _) rfl rfl rfl
    (by
      intro a b ha hb
      rw [get_new]
      simp)
  exact h

theorem getL_mem_sorted (i : Nat) (v : Int) (s : List (Nat × Int))
    (hs : (s.map Prod.fst).Pairwise (fun a b => a < b)) (hmem : (i, v) ∈ s) :
    getL i s = v := by
  induction s with
  | nil => simp at hmem
  | cons e es ih =>
    simp only [List.map_cons, List.pairwise_cons] at hs
    rcases List.mem_cons.mp hmem with he | he
    · rw [← he]
      simp [getL]
    · have hgt : e.1 < i := by
        have : i ∈ es.map Prod.fst := by
          rw [List.mem_map]
          exact ⟨(i, v), he, rfl⟩
        exact hs.1 i this
      simp only [getL, if_neg (by omega : ¬ e.1 = i), if_neg (by omega : ¬ i < e.1)]
      exact ih hs.2 he

theorem getL_not_mem (i : Nat) (s : List (Nat × Int))
    (hnone : ∀ v, (i, v) ∉ s) : getL i s = 0 := by
  induction s with
  | nil => rfl
  | cons e es ih =>
    have hne : ¬ e.1 = i := by
      intro he
      exact hnone e.2 (by rw [← he]; simp)
    simp only [getL, if_neg hne]
    split
    · rfl
    · exact ih (fun v hv => hnone v (by simp [hv]))

theorem scatter_length (pos : Nat → Nat) :
    ∀ (s : List (Nat × Int)) (acc : List Int),
      (s.foldl (fun a2 e => a2.set (pos e.1) e.2) acc).length = acc.length := by
  intro s
  induction s with
  | nil => intro acc; rfl
  | cons e es ih =>
    intro acc
    simp only [List.foldl_cons, ih, List.length_set]

theorem scatter_getD_ne (pos : Nat → Nat) :
    ∀ (s : List (Nat × Int)) (acc : List Int) (x : Nat),
      (∀ e ∈ s, pos e.1 ≠ x) →
      (s.foldl (fun a2 e => a2.set (pos e.1) e.2) acc).getD x 0 = acc.getD x 0 := by
  intro s
  induction s with
  | nil => intro acc x _; rfl
  | cons e es ih =>
    intro acc x hx
    simp only [List.foldl_cons]
    rw [ih _ x (fun u hu => hx u (by simp [hu]))]
    exact getD_set_ne_list _ _ _ _ _ (fun h => hx e (by simp) h.symm)

theorem scatter_getD_mem (pos : Nat → Nat) :
    ∀ (s : List (Nat × Int)) (acc : List Int) (i : Nat) (v : Int),
      (s.map Prod.fst).Pairwise (fun a b => a < b) →
      (i, v) ∈ s →
      (∀ e ∈ s, pos e.1 = pos i → e.1 = i) →
      pos i < acc.length →
      (s.foldl (fun a2 e => a2.set (pos e.1) e.2) acc).getD (pos i) 0 = v := by
  intro s
  induction s with
  | nil =>
    intro acc i v _ hmem
    simp at hmem
  | cons e es ih =>
    intro acc i v hs hmem hinj hlen
    simp only [List.map_cons, List.pairwise_cons] at hs
    by_cases he1 : e.1 = i
    · have he : e = (i, v) := by
        rcases List.mem_cons.mp hmem with hh | hh
        · exact hh.symm
        · exfalso
          have : i ∈ es.map Prod.fst := by
            rw [List.mem_map]
            exact ⟨(i, v), hh, rfl⟩
          have := hs.1 i this
          omega
      simp only [List.foldl_cons]
      rw [he]
      rw [scatter_getD_ne pos es _ (pos i)]
      · exact getD_set_self_list _ _ _ _ (by rw [← he]; simpa [he] using hlen)
      · intro u hu hup
        have hu1 : u.1 = i := hinj u (by simp [hu]) hup
        have : i ∈ es.map Prod.fst := by
          rw [List.mem_map]
          exact ⟨u, hu, hu1⟩
        have := hs.1 i this
        rw [he] at this
        simp at this
    · have hmem' : (i, v) ∈ es := by
        rcases List.mem_cons.mp hmem with hh | hh
        · exfalso
          apply he1
          rw [← hh]
        · exact hh
      simp only [List.foldl_cons]
      apply ih _ i v hs.2 hmem' (fun u hu hup => hinj u (by simp [hu]) hup)
      rw [List.length_set]
      exact hlen

theorem foldl_range'_rep {β : Type} (f : β → Nat → Int → β) {ss : List (List (Nat × Int))}
    {m : Compressed} (hrep : Rep ss m) (j : Nat) (hj : j < ss.length) (init : β) :
    (List.range' (m.offsets.getD j 0) (m.offsets.getD (j + 1) 0 - m.offsets.getD j 0)).foldl
      (fun b k => f b (m.indices.getD k 0) (m.values.getD k 0)) init
    = (ss.getD j []).foldl (fun b e => f b e.1 e.2) init := by
  rw [hrep.offsets_span j hj, hrep.offsets_getD j (le_of_lt hj),
    hrep.values_decomp j hj, hrep.indices_decomp j hj]
  exact foldl_slice f (ss.getD j []) _ _ init

theorem div_mod_decomp (a b R : Nat) (ha : a < R) :
    (b * R + a) / R = b ∧ (b * R + a) % R = a := by
  have hR : 0 < R := by omega
  constructor
  · rw [Nat.add_comm, Nat.add_mul_div_right _ _ hR, Nat.div_eq_of_lt ha]
    omega
  · rw [Nat.add_comm, Nat.add_mul_mod_self_right]
    exact Nat.mod_eq_of_lt ha

theorem foldl_set_length (p : Nat → Nat) (q : Nat → Int) :
    ∀ (ks : List Nat) (acc : List Int),
      (ks.foldl (fun a2 k => a2.set (p k) (q k)) acc).length = acc.length := by
  intro ks
  induction ks with
  | nil => intro acc; rfl
  | cons k kt ih =>
    intro acc
    simp only [List.foldl_cons, ih, List.length_set]

theorem outer_fold_length (g : List Int → Nat → List Int)
    (hg : ∀ acc j, (g acc j).length = acc.length) :
    ∀ (L : List Nat) (acc : List Int), (L.foldl g acc).length = acc.length := by
  intro L
  induction L with
  | nil => intro acc; rfl
  | cons j L ih =>
    intro acc
    simp only [List.foldl_cons, ih, hg]

theorem toDense_spec (m : Compressed) (hV : Valid m) (hB : Bounded m) :
    m.toDense.rows = m.rows ∧ m.toDense.columns = m.columns
    ∧ m.toDense.values.length = m.rows * m.columns
    ∧ ∀ a b, a < m.rows → b < m.columns →
        m.toDense.values.getD (b * m.rows + a) 0 = m.get a b := by
  obtain ⟨hrep, hsort⟩ := rep_of_valid hV
  have hbs := bounded_slices_of hrep hB
  refine ⟨rfl, rfl, ?_, ?_⟩
  · show (match m.format with
      | Format.Row => _
      | Format.Column => _ : List Int).length = m.rows * m.columns
    cases hfmt : m.format
    · dsimp only
      rw [outer_fold_length _ (fun acc j => foldl_set_length _ _ _ acc), List.length_replicate]
    · dsimp only
      rw [outer_fold_length _ (fun acc i => foldl_set_length _ _ _ acc), List.length_replicate]
  · intro a b ha hb
    have hmaj : (slicesOf m).length = m.majorDim := hrep.2.2.2.2
    show (match m.format with
      | Format.Row => _
      | Format.Column => _ : List Int).getD (b * m.rows + a) 0 = m.get a b
    cases hfmt : m.format with
    | Column =>
      dsimp only
      have hCmaj : (slicesOf m).length = m.columns := by
        rw [hmaj, Compressed.majorDim, hfmt]
      have houter : ∀ J, J ≤ m.columns → ∀ x, x < m.rows * m.columns →
          (((List.range J).foldl (fun acc j =>
            (List.range' (m.offsets.getD j 0)
              (m.offsets.getD (j + 1) 0 - m.offsets.getD j 0)).foldl
              (fun a2 k => a2.set (j * m.rows + m.indices.getD k 0) (m.values.getD k 0)) acc)
            (List.replicate (m.rows * m.columns) 0)).getD x 0)
          = if x / m.rows < J then getL (x % m.rows) ((slicesOf m).getD (x / m.rows) [])
            else 0 := by
        intro J
        induction J with
        | zero =>
          intro _ x hx
          rw [List.range_zero, List.foldl_nil, getD_replicate, if_pos hx,
            if_neg (Nat.not_lt_zero _)]
        | succ J ihJ =>
          intro hJ x hx
          have hR : 0 < m.rows := by
            rcases Nat.eq_zero_or_pos m.rows with h0 | h0
            · rw [h0] at hx
              simp at hx
            · exact h0
          rw [List.range_succ, List.foldl_append]
          simp only [List.foldl_cons, List.foldl_nil]
          have hJlt : J < (slicesOf m).length := by omega
          have hconv : ∀ B : List Int,
              (List.range' (m.offsets.getD J 0)
                (m.offsets.getD (J + 1) 0 - m.offsets.getD J 0)).foldl
                (fun a2 k => a2.set (J * m.rows + m.indices.getD k 0) (m.values.getD k 0)) B
              = ((slicesOf m).getD J []).foldl
                (fun a2 e => a2.set (J * m.rows + e.1) e.2) B :=
            fun B => foldl_range'_rep
              (fun a2 idx val => a2.set (J * m.rows + idx) val) hrep J hJlt B
          rw [hconv]
          have hmem0 : (slicesOf m).getD J [] ∈ slicesOf m := by
            rw [List.getD_eq_getElem _ _ hJlt]
            exact List.getElem_mem hJlt
          have hs0sorted := hsort _ hmem0
          have hs0bounded : ∀ e ∈ (slicesOf m).getD J [], e.1 < m.rows := by
            intro e he
            have := hbs _ hmem0 e he
            rw [Compressed.minorDim, hfmt] at this
            exact this
          have hBlen : (((List.range J).foldl (fun acc j =>
              (List.range' (m.offsets.getD j 0)
                (m.offsets.getD (j + 1) 0 - m.offsets.getD j 0)).foldl
                (fun a2 k => a2.set (j * m.rows + m.indices.getD k 0) (m.values.getD k 0)) acc)
              (List.replicate (m.rows * m.columns) 0)).length) = m.rows * m.columns := by
            rw [outer_fold_length _ (fun acc j => foldl_set_length _ _ _ acc),
              List.length_replicate]
          by_cases hxJ : x / m.rows = J
          · have hxmod : x % m.rows < m.rows := Nat.mod_lt _ hR
            have hxdecomp : J * m.rows + x % m.rows = x := by
              rw [← hxJ]
              exact Nat.div_add_mod' x m.rows
            rw [if_pos (by omega), hxJ]
            rcases Classical.em (∃ v, (x % m.rows, v) ∈ (slicesOf m).getD J []) with hex | hex
            · obtain ⟨v, hv⟩ := hex
              rw [getL_mem_sorted _ v _ hs0sorted hv, ← hxdecomp]
              exact scatter_getD_mem (fun t => J * m.rows + t) _ _ (x % m.rows) v
                hs0sorted hv (fun u hu hup => by
                  have h3 : J * m.rows + u.1 = J * m.rows + x % m.rows := hup
                  omega)
                (by
                  rw [hBlen]
                  show J * m.rows + x % m.rows < m.rows * m.columns
                  omega)
            · push_neg at hex
              rw [getL_not_mem _ _ hex]
              have hne := scatter_getD_ne (fun t => J * m.rows + t) _
                (((List.range J).foldl (fun acc j =>
                  (List.range' (m.offsets.getD j 0)
                    (m.offsets.getD (j + 1) 0 - m.offsets.getD j 0)).foldl
                    (fun a2 k => a2.set (j * m.rows + m.indices.getD k 0)
                      (m.values.getD k 0)) acc)
                  (List.replicate (m.rows * m.columns) 0))) x
                (fun u hu hup => by
                  apply hex u.2
                  have h3 : J * m.rows + u.1 = x := hup
                  have hu1 : u.1 = x % m.rows := by omega
                  rw [← hu1]
                  exact hu)
              refine hne.trans ?_
              rw [ihJ (by omega) x hx, if_neg (by omega)]
          · have hne := scatter_getD_ne (fun t => J * m.rows + t) _
              (((List.range J).foldl (fun acc j =>
                (List.range' (m.offsets.getD j 0)
                  (m.offsets.getD (j + 1) 0 - m.offsets.getD j 0)).foldl
                  (fun a2 k => a2.set (j * m.rows + m.indices.getD k 0)
                    (m.values.getD k 0)) acc)
                (List.replicate (m.rows * m.columns) 0))) x
              (fun u hu hup => by
                apply hxJ
                have hu1 := hs0bounded u hu
                have h3 : x = J * m.rows + u.1 := hup.symm
                rw [h3]
                exact (div_mod_decomp u.1 J m.rows hu1).1)
            refine hne.trans ?_
            rw [ihJ (by omega) x hx]
            by_cases hlt : x / m.rows < J
            · rw [if_pos hlt, if_pos (by omega)]
            · rw [if_neg hlt, if_neg (by omega)]
      have hxin : b * m.rows + a < m.rows * m.columns := by
        have h1 : b * m.rows + a < (b + 1) * m.rows := by
          rw [Nat.succ_mul]
          omega
        have h2 : (b + 1) * m.rows ≤ m.columns * m.rows := Nat.mul_le_mul_right _ (by omega)
        have h3 : m.columns * m.rows = m.rows * m.columns := Nat.mul_comm _ _
        omega
      rw [houter m.columns le_rfl _ hxin, (div_mod_decomp a b m.rows ha).1,
        (div_mod_decomp a b m.rows ha).2, if_pos hb]
      have hget := get_rep hrep a b (by
        rw [hCmaj]
        show (m.format.coords a b).2 < m.columns
        rw [hfmt]
        exact hb)
      rw [hget]
      show getL a _ = getL (m.format.coords a b).1 ((slicesOf m).getD (m.format.coords a b).2 [])
      rw [hfmt]
      rfl
    | Row =>
      dsimp only
      have hRmaj : (slicesOf m).length = m.rows := by
        rw [hmaj, Compressed.majorDim, hfmt]
      have houter : ∀ I, I ≤ m.rows → ∀ x, x < m.rows * m.columns →
          (((List.range I).foldl (fun acc i =>
            (List.range' (m.offsets.getD i 0)
              (m.offsets.getD (i + 1) 0 - m.offsets.getD i 0)).foldl
              (fun a2 k => a2.set (m.indices.getD k 0 * m.rows + i) (m.values.getD k 0)) acc)
            (List.replicate (m.rows * m.columns) 0)).getD x 0)
          = if x % m.rows < I then getL (x / m.rows) ((slicesOf m).getD (x % m.rows) [])
            else 0 := by
        intro I
        induction I with
        | zero =>
          intro _ x hx
          rw [List.range_zero, List.foldl_nil, getD_replicate, if_pos hx,
            if_neg (Nat.not_lt_zero _)]
        | succ I ihI =>
          intro hI x hx
          have hR : 0 < m.rows := by omega
          rw [List.range_succ, List.foldl_append]
          simp only [List.foldl_cons, List.foldl_nil]
          have hIlt : I < (slicesOf m).length := by omega
          have hconv : ∀ B : List Int,
              (List.range' (m.offsets.getD I 0)
                (m.offsets.getD (I + 1) 0 - m.offsets.getD I 0)).foldl
                (fun a2 k => a2.set (m.indices.getD k 0 * m.rows + I) (m.values.getD k 0)) B
              = ((slicesOf m).getD I []).foldl
                (fun a2 e => a2.set (e.1 * m.rows + I) e.2) B :=
            fun B => foldl_range'_rep
              (fun a2 idx val => a2.set (idx * m.rows + I) val) hrep I hIlt B
          rw [hconv]
          have hmem0 : (slicesOf m).getD I [] ∈ slicesOf m := by
            rw [List.getD_eq_getElem _ _ hIlt]
            exact List.getElem_mem hIlt
          have hs0sorted := hsort _ hmem0
          have hs0bounded : ∀ e ∈ (slicesOf m).getD I [], e.1 < m.columns := by
            intro e he
            have := hbs _ hmem0 e he
            rw [Compressed.minorDim, hfmt] at this
            exact this
          have hBlen : (((List.range I).foldl (fun acc i =>
              (List.range' (m.offsets.getD i 0)
                (m.offsets.getD (i + 1) 0 - m.offsets.getD i 0)).foldl
                (fun a2 k => a2.set (m.indices.getD k 0 * m.rows + i) (m.values.getD k 0)) acc)
              (List.replicate (m.rows * m.columns) 0)).length) = m.rows * m.columns := by
            rw [outer_fold_length _ (fun acc i => foldl_set_length _ _ _ acc),
              List.length_replicate]
          by_cases hxI : x % m.rows = I
          · rw [if_pos (by omega), hxI]
            have hxdecomp : x / m.rows * m.rows + I = x := by
              rw [← hxI]
              exact Nat.div_add_mod' x m.rows
            rcases Classical.em (∃ v, (x / m.rows, v) ∈ (slicesOf m).getD I []) with hex | hex
            · obtain ⟨v, hv⟩ := hex
              have hvb := hs0bounded _ hv
              rw [getL_mem_sorted _ v _ hs0sorted hv, ← hxdecomp]
              exact scatter_getD_mem (fun t => t * m.rows + I) _ _ (x / m.rows) v
                hs0sorted hv (fun u hu hup => by
                  have h3 : u.1 * m.rows + I = x / m.rows * m.rows + I := hup
                  have h4 : u.1 * m.rows = x / m.rows * m.rows := by omega
                  exact Nat.eq_of_mul_eq_mul_right hR h4)
                (by
                  rw [hBlen]
                  show x / m.rows * m.rows + I < m.rows * m.columns
                  omega)
            · push_neg at hex
              rw [getL_not_mem _ _ hex]
              have hne := scatter_getD_ne (fun t => t * m.rows + I) _
                (((List.range I).foldl (fun acc i =>
                  (List.range' (m.offsets.getD i 0)
                    (m.offsets.getD (i + 1) 0 - m.offsets.getD i 0)).foldl
                    (fun a2 k => a2.set (m.indices.getD k 0 * m.rows + i)
                      (m.values.getD k 0)) acc)
                  (List.replicate (m.rows * m.columns) 0))) x
                (fun u hu hup => by
                  apply hex u.2
                  have h3 : u.1 * m.rows + I = x := hup
                  have hxdec := div_mod_decomp I u.1 m.rows (by omega)
                  have hu1 : u.1 = x / m.rows := by
                    rw [← h3, hxdec.1]
                  rw [← hu1]
                  exact hu)
              refine hne.trans ?_
              rw [ihI (by omega) x hx, if_neg (by omega)]
          · have hne := scatter_getD_ne (fun t => t * m.rows + I)
              ((slicesOf m).getD I [])
              (((List.range I).foldl (fun acc i =>
                (List.range' (m.offsets.getD i 0)
                  (m.offsets.getD (i + 1) 0 - m.offsets.getD i 0)).foldl
                  (fun a2 k => a2.set (m.indices.getD k 0 * m.rows + i)
                    (m.values.getD k 0)) acc)
                (List.replicate (m.rows * m.columns) 0))) x
              (fun u hu hup => by
                apply hxI
                have h3 : u.1 * m.rows + I = x := hup
                have hxdec := div_mod_decomp I u.1 m.rows (by omega)
                rw [← h3, hxdec.2])
            refine hne.trans ?_
            rw [ihI (by omega) x hx]
            by_cases hlt : x % m.rows < I
            · rw [if_pos hlt, if_pos (by omega)]
            · rw [if_neg hlt, if_neg (by omega)]
      have hxin : b * m.rows + a < m.rows * m.columns := by
        have h1 : b * m.rows + a < (b + 1) * m.rows := by
          rw [Nat.succ_mul]
          omega
        have h2 : (b + 1) * m.rows ≤ m.columns * m.rows := Nat.mul_le_mul_right _ (by omega)
        have h3 : m.columns * m.rows = m.rows * m.columns := Nat.mul_comm _ _
        omega
      rw [houter m.rows le_rfl _ hxin, (div_mod_decomp a b m.rows ha).1,
        (div_mod_decomp a b m.rows ha).2, if_pos ha]
      have hget := get_rep hrep a b (by
        rw [hRmaj]
        show (m.format.coords a b).2 < m.rows
        rw [hfmt]
        exact ha)
      rw [hget]
      show getL b _ = getL (m.format.coords a b).1 ((slicesOf m).getD (m.format.coords a b).2 [])
      rw [hfmt]
      rfl

theorem listInt_ext_getD (l₁ l₂ : List Int) (hlen : l₁.length = l₂.length)
    (h : ∀ x, x < l₁.length → l₁.getD x 0 = l₂.getD x 0) : l₁ = l₂ := by
  apply List.ext_getElem hlen
  intro x h1 h2
  have hx := h x h1
  rw [List.getD_eq_getElem _ _ h1, List.getD_eq_getElem _ _ h2] at hx
  exact hx

theorem dense_roundtrip (d : Dense) (hlen : d.values.length = d.rows * d.columns) :
    (Compressed.fromDense d).toDense = d := by
  obtain ⟨hV, hB, hr, hc, hf, hget⟩ := fromDense_inv d hlen
  obtain ⟨h1, h2, h3, h4⟩ := toDense_spec _ hV hB
  have hrows : (Compressed.fromDense d).toDense.rows = d.rows := by rw [h1, hr]
  have hcols : (Compressed.fromDense d).toDense.columns = d.columns := by rw [h2, hc]
  have hlen2 : (Compressed.fromDense d).toDense.values.length = d.values.length := by
    rw [h3, hr, hc, hlen]
  have hvals : (Compressed.fromDense d).toDense.values = d.values := by
    apply listInt_ext_getD _ _ hlen2
    intro x hx
    rw [hlen2, hlen] at hx
    have hR : 0 < d.rows := by
      rcases Nat.eq_zero_or_pos d.rows with h0 | h0
      · rw [h0] at hx
        simp at hx
      · exact h0
    have hamod : x % d.rows < d.rows := Nat.mod_lt _ hR
    have hbdiv : x / d.rows < d.columns := Nat.div_lt_of_lt_mul hx
    have hdecomp : x / d.rows * d.rows + x % d.rows = x := Nat.div_add_mod' x d.rows
    have h5 := h4 (x % d.rows) (x / d.rows) (by rw [hr]; exact hamod) (by rw [hc]; exact hbdiv)
    rw [hr, hdecomp] at h5
    rw [h5, hget _ _ hamod hbdiv, hdecomp]
  have hfin : (⟨(Compressed.fromDense d).toDense.rows,
      (Compressed.fromDense d).toDense.columns,
      (Compressed.fromDense d).toDense.values⟩ : Dense)
      = ⟨d.rows, d.columns, d.values⟩ := by
    rw [hrows, hcols, hvals]
  exact hfin

theorem addScatter_spec (off mdim : Nat) (w : Int) :
    ∀ (s : List (Nat × Int)) (c : List Int),
      (s.map Prod.fst).Pairwise (fun a b => a < b) →
      (∀ e ∈ s, e.1 < mdim) →
      off + mdim ≤ c.length →
      (s.foldl (fun c2 e =>
          c2.set (off + e.1) (c2.getD (off + e.1) 0 + e.2 * w)) c).length = c.length
      ∧ ∀ x, (s.foldl (fun c2 e =>
          c2.set (off + e.1) (c2.getD (off + e.1) 0 + e.2 * w)) c).getD x 0
          = c.getD x 0
            + (if off ≤ x ∧ x < off + mdim then getL (x - off) s * w else 0) := by
  intro s
  induction s with
  | nil =>
    intro c _ _ _
    refine ⟨rfl, ?_⟩
    intro x
    show c.getD x 0 = c.getD x 0 + (if off ≤ x ∧ x < off + mdim then (0 : Int) * w else 0)
    by_cases hr : off ≤ x ∧ x < off + mdim
    · rw [if_pos hr, zero_mul, add_zero]
    · rw [if_neg hr, add_zero]
  | cons e es ih =>
    intro c hsort hbnd hlen
    simp only [List.map_cons, List.pairwise_cons] at hsort
    have hbe : e.1 < mdim := hbnd e (by simp)
    have hlt : off + e.1 < c.length := by omega
    simp only [List.foldl_cons]
    obtain ⟨ihlen, ihget⟩ := ih (c.set (off + e.1) (c.getD (off + e.1) 0 + e.2 * w))
      hsort.2 (fun u hu => hbnd u (by simp [hu]))
      (by rw [List.length_set]; exact hlen)
    refine ⟨by rw [ihlen, List.length_set], ?_⟩
    intro x
    rw [ihget x]
    by_cases hx : x = off + e.1
    · have hset : (c.set (off + e.1) (c.getD (off + e.1) 0 + e.2 * w)).getD x 0
          = c.getD x 0 + e.2 * w := by
        rw [hx]
        exact getD_set_self_list _ _ _ _ hlt
      rw [hset]
      have hr : off ≤ x ∧ x < off + mdim := by omega
      rw [if_pos hr, if_pos hr]
      have hxo : x - off = e.1 := by omega
      rw [hxo]
      have hhead : getL e.1 (e :: es) = e.2 := by
        show (if e.1 = e.1 then e.2 else if e.1 < e.1 then 0 else getL e.1 es) = e.2
        rw [if_pos rfl]
      have htail : getL e.1 es = 0 := by
        apply getL_not_mem
        intro v hv
        have : e.1 ∈ es.map Prod.fst := by
          exact List.mem_map.mpr ⟨(e.1, v), hv, rfl⟩
        exact absurd (hsort.1 e.1 this) (lt_irrefl _)
      rw [hhead, htail]
      ring
    · have hset : (c.set (off + e.1) (c.getD (off + e.1) 0 + e.2 * w)).getD x 0
          = c.getD x 0 := getD_set_ne_list _ _ _ _ _ hx
      rw [hset]
      by_cases hr : off ≤ x ∧ x < off + mdim
      · rw [if_pos hr, if_pos hr]
        have hne1 : ¬ e.1 = x - off := by omega
        have htl : getL (x - off) (e :: es) = getL (x - off) es := by
          show (if e.1 = x - off then e.2 else if x - off < e.1 then 0 else getL (x - off) es)
            = getL (x - off) es
          rw [if_neg hne1]
          by_cases h2 : x - off < e.1
          · rw [if_pos h2]
            refine (getL_not_mem _ _ ?_).symm
            intro v hv
            have : e.1 < x - off := hsort.1 (x - off) (List.mem_map.mpr ⟨(x - off, v), hv, rfl⟩)
            omega
          · rw [if_neg h2]
        rw [htl]
      · rw [if_neg hr, if_neg hr]

theorem lloop_spec {ss : List (List (Nat × Int))} {a : Compressed} (hrep : Rep ss a)
    (hsort : SortedSlices ss) (mdim : Nat)
    (hbnd : ∀ s ∈ ss, ∀ e ∈ s, e.1 < mdim)
    (b : List Int) (off bbase : Nat) :
    ∀ P, P ≤ ss.length → ∀ (c : List Int), off + mdim ≤ c.length →
      ((List.range P).foldl (fun c2 l =>
        (List.range' (a.offsets.getD l 0) (a.offsets.getD (l + 1) 0 - a.offsets.getD l 0)).foldl
          (fun c3 k => c3.set (off + a.indices.getD k 0)
            (c3.getD (off + a.indices.getD k 0) 0
              + a.values.getD k 0 * b.getD (bbase + l) 0)) c2) c).length = c.length
      ∧ ∀ x, ((List.range P).foldl (fun c2 l =>
        (List.range' (a.offsets.getD l 0) (a.offsets.getD (l + 1) 0 - a.offsets.getD l 0)).foldl
          (fun c3 k => c3.set (off + a.indices.getD k 0)
            (c3.getD (off + a.indices.getD k 0) 0
              + a.values.getD k 0 * b.getD (bbase + l) 0)) c2) c).getD x 0
          = c.getD x 0 + (if off ≤ x ∧ x < off + mdim then
              ((List.range P).map (fun l =>
                getL (x - off) (ss.getD l []) * b.getD (bbase + l) 0)).sum
            else 0) := by
  intro P
  induction P with
  | zero =>
    intro _ c _
    refine ⟨rfl, ?_⟩
    intro x
    show c.getD x 0 = c.getD x 0 + (if off ≤ x ∧ x < off + mdim then (0 : Int) else 0)
    by_cases hr : off ≤ x ∧ x < off + mdim
    · rw [if_pos hr, add_zero]
    · rw [if_neg hr, add_zero]
  | succ P ihP =>
    intro hP c hlen
    rw [List.range_succ, List.foldl_append]
    simp only [List.foldl_cons, List.foldl_nil]
    have hPlt : P < ss.length := by omega
    have hconv : ∀ B : List Int,
        (List.range' (a.offsets.getD P 0)
          (a.offsets.getD (P + 1) 0 - a.offsets.getD P 0)).foldl
          (fun c3 k => c3.set (off + a.indices.getD k 0)
            (c3.getD (off + a.indices.getD k 0) 0
              + a.values.getD k 0 * b.getD (bbase + P) 0)) B
        = ((ss.getD P []).foldl (fun c3 e => c3.set (off + e.1)
            (c3.getD (off + e.1) 0 + e.2 * b.getD (bbase + P) 0)) B) :=
      fun B => foldl_range'_rep
        (fun c3 idx val => c3.set (off + idx)
          (c3.getD (off + idx) 0 + val * b.getD (bbase + P) 0)) hrep P hPlt B
    rw [hconv]
    have hmemP : ss.getD P [] ∈ ss := by
      rw [List.getD_eq_getElem _ _ hPlt]
      exact List.getElem_mem hPlt
    obtain ⟨ihlen, ihget⟩ := ihP (by omega) c hlen
    obtain ⟨sclen, scget⟩ := addScatter_spec off mdim (b.getD (bbase + P) 0)
      (ss.getD P []) _ (hsort _ hmemP) (hbnd _ hmemP) (by rw [ihlen]; exact hlen)
    refine ⟨by rw [sclen, ihlen], ?_⟩
    intro x
    rw [scget x, ihget x]
    by_cases hr : off ≤ x ∧ x < off + mdim
    · rw [if_pos hr, if_pos hr, if_pos hr, List.map_append,
        List.sum_append, List.map_cons, List.map_nil, List.sum_cons, List.sum_nil,
        add_zero, add_assoc]
    · rw [if_neg hr, if_neg hr, if_neg hr, add_zero, add_zero]

theorem mml_spec {ss : List (List (Nat × Int))} {a : Compressed} (hrep : Rep ss a)
    (hsort : SortedSlices ss) (m p n : Nat)
    (hm : ∀ s ∈ ss, ∀ e ∈ s, e.1 < m) (hss : ss.length = p)
    (b c : List Int) (hc : c.length = m * n) :
    (multiply_matrix_left a b c m p n).length = c.length ∧
    ∀ x, x < m * n → (multiply_matrix_left a b c m p n).getD x 0
      = c.getD x 0 + ((List.range p).map (fun l =>
          getL (x % m) (ss.getD l []) * b.getD (x / m * p + l) 0)).sum := by
  suffices h : ∀ J, J ≤ n →
      ((List.range J).foldl (fun c1 j =>
        (List.range p).foldl (fun c2 l =>
          (List.range' (a.offsets.getD l 0)
            (a.offsets.getD (l + 1) 0 - a.offsets.getD l 0)).foldl
            (fun c3 k => c3.set (j * m + a.indices.getD k 0)
              (c3.getD (j * m + a.indices.getD k 0) 0
                + a.values.getD k 0 * b.getD (j * p + l) 0)) c2) c1) c).length = c.length
      ∧ ∀ x, x < m * n →
        ((List.range J).foldl (fun c1 j =>
          (List.range p).foldl (fun c2 l =>
            (List.range' (a.offsets.getD l 0)
              (a.offsets.getD (l + 1) 0 - a.offsets.getD l 0)).foldl
              (fun c3 k => c3.set (j * m + a.indices.getD k 0)
                (c3.getD (j * m + a.indices.getD k 0) 0
                  + a.values.getD k 0 * b.getD (j * p + l) 0)) c2) c1) c).getD x 0
          = c.getD x 0 + (if x / m < J then
              ((List.range p).map (fun l =>
                getL (x % m) (ss.getD l []) * b.getD (x / m * p + l) 0)).sum
            else 0) by
    obtain ⟨hlen, hget⟩ := h n le_rfl
    refine ⟨hlen, ?_⟩
    intro x hx
    have hdiv : x / m < n := Nat.div_lt_of_lt_mul hx
    rw [show multiply_matrix_left a b c m p n
        = (List.range n).foldl (fun c1 j =>
          (List.range p).foldl (fun c2 l =>
            (List.range' (a.offsets.getD l 0)
              (a.offsets.getD (l + 1) 0 - a.offsets.getD l 0)).foldl
              (fun c3 k => c3.set (j * m + a.indices.getD k 0)
                (c3.getD (j * m + a.indices.getD k 0) 0
                  + a.values.getD k 0 * b.getD (j * p + l) 0)) c2) c1) c from rfl,
      hget x hx, if_pos hdiv]
  intro J
  induction J with
  | zero =>
    refine fun _ => ⟨rfl, ?_⟩
    intro x _
    rw [List.range_zero, List.foldl_nil, if_neg (Nat.not_lt_zero _), add_zero]
  | succ J ihJ =>
    intro hJ
    obtain ⟨ihlen, ihget⟩ := ihJ (by omega)
    rw [List.range_succ, List.foldl_append]
    simp only [List.foldl_cons, List.foldl_nil]
    have hblock : J * m + m ≤
        ((List.range J).foldl (fun c1 j =>
          (List.range p).foldl (fun c2 l =>
            (List.range' (a.offsets.getD l 0)
              (a.offsets.getD (l + 1) 0 - a.offsets.getD l 0)).foldl
              (fun c3 k => c3.set (j * m + a.indices.getD k 0)
                (c3.getD (j * m + a.indices.getD k 0) 0
                  + a.values.getD k 0 * b.getD (j * p + l) 0)) c2) c1) c).length := by
      rw [ihlen, hc]
      have h2 : (J + 1) * m = J * m + m := Nat.succ_mul _ _
      have h3 : (J + 1) * m ≤ n * m := Nat.mul_le_mul_right m (by omega)
      have h4 : n * m = m * n := Nat.mul_comm _ _
      omega
    obtain ⟨lllen, llget⟩ := lloop_spec hrep hsort m hm b (J * m) (J * p) p
      (by rw [hss]) _ hblock
    refine ⟨by rw [lllen, ihlen], ?_⟩
    intro x hx
    rw [llget x, ihget x hx]
    have hm0 : 0 < m := by
      rcases Nat.eq_zero_or_pos m with h0 | h0
      · rw [h0] at hx
        simp at hx
      · exact h0
    have hxdecomp : x / m * m + x % m = x := Nat.div_add_mod' x m
    have hxmod : x % m < m := Nat.mod_lt _ hm0
    by_cases hxJ : x / m = J
    · rw [← hxJ]
      have hcond : x / m * m ≤ x ∧ x < x / m * m + m := by omega
      rw [if_pos hcond, if_neg (lt_irrefl _), if_pos (Nat.lt_succ_self _)]
      have hsub : x - x / m * m = x % m := by omega
      rw [hsub]
      omega
    · have hcond : ¬ (J * m ≤ x ∧ x < J * m + m) := by
        intro hco
        apply hxJ
        have hxr : x = J * m + (x - J * m) := by omega
        have hrm : x - J * m < m := by omega
        rw [hxr]
        exact (div_mod_decomp (x - J * m) J m hrm).1
      rw [if_neg hcond, add_zero]
      by_cases hlt : x / m < J
      · rw [if_pos hlt, if_pos (by omega)]
      · rw [if_neg hlt, if_neg (by omega)]

theorem getD_range_map (f : Nat → Int) (N x : Nat) (hx : x < N) :
    ((List.range N).map f).getD x 0 = f x := by
  rw [getD_map f _ x (by simpa using hx) 0 0]
  congr 1
  rw [List.getD_eq_getElem _ _ (by simpa using hx)]
  simp

theorem multiply_left_dense (a : Compressed) (hfmt : a.format = Format.Column)
    (hV : Valid a) (hB : Bounded a) (b c : List Int) (n : Nat)
    (hc : c.length = a.rows * n) :
    (multiply_matrix_left a b c a.rows a.columns n).length = c.length ∧
    ∀ x, x < a.rows * n → (multiply_matrix_left a b c a.rows a.columns n).getD x 0
      = c.getD x 0 + (matmulDense a.toDense.values b a.rows a.columns n).getD x 0 := by
  obtain ⟨hrep, hsort⟩ := rep_of_valid hV
  have hbs := bounded_slices_of hrep hB
  have hm : ∀ s ∈ slicesOf a, ∀ e ∈ s, e.1 < a.rows := by
    intro s hs e he
    have := hbs s hs e he
    rw [Compressed.minorDim, hfmt] at this
    exact this
  have hss : (slicesOf a).length = a.columns := by
    rw [hrep.2.2.2.2, Compressed.majorDim, hfmt]
  obtain ⟨hlen, hget⟩ := mml_spec hrep hsort a.rows a.columns n hm hss b c hc
  obtain ⟨td1, td2, td3, td4⟩ := toDense_spec a hV hB
  refine ⟨hlen, ?_⟩
  intro x hx
  rw [hget x hx]
  congr 1
  have h1 : (matmulDense a.toDense.values b a.rows a.columns n).getD x 0
      = ((List.range a.columns).map (fun l =>
          a.toDense.values.getD (l * a.rows + x % a.rows) 0
            * b.getD (x / a.rows * a.columns + l) 0)).sum :=
    getD_range_map _ _ _ hx
  rw [h1]
  refine congrArg List.sum (List.map_congr_left ?_)
  intro l hl
  rw [List.mem_range] at hl
  have hr0 : 0 < a.rows := by
    rcases Nat.eq_zero_or_pos a.rows with h0 | h0
    · rw [h0] at hx
      simp at hx
    · exact h0
  have hx0 : x % a.rows < a.rows := Nat.mod_lt _ hr0
  have h2 := td4 (x % a.rows) l hx0 hl
  have h3 := get_rep hrep (x % a.rows) l (by
    rw [hss]
    show (a.format.coords (x % a.rows) l).2 < a.columns
    rw [hfmt]
    exact hl)
  rw [h2, h3]
  show getL (x % a.rows) ((slicesOf a).getD l []) * b.getD (x / a.rows * a.columns + l) 0
    = getL (a.format.coords (x % a.rows) l).1
        ((slicesOf a).getD (a.format.coords (x % a.rows) l).2 [])
      * b.getD (x / a.rows * a.columns + l) 0
  rw [hfmt]
  rfl

theorem triplesOf_pairwise (fmt : Format) :
    ∀ (j : Nat) (ss : List (List (Nat × Int))), SortedSlices ss →
      (triplesOf fmt j ss).Pairwise (fun s t => (s.1, s.2.1) ≠ (t.1, t.2.1)) := by
  intro j ss
  induction ss generalizing j with
  | nil =>
    intro _
    exact List.Pairwise.nil
  | cons s ss ih =>
    intro hsort
    show (s.map (tripleAt fmt j) ++ triplesOf fmt (j + 1) ss).Pairwise _
    rw [List.pairwise_append]
    refine ⟨?_, ih (j + 1) (fun u hu => hsort u (List.mem_cons_of_mem _ hu)), ?_⟩
    · have hs := hsort s (List.mem_cons_self _ _)
      rw [List.pairwise_map] at hs ⊢
      refine hs.imp ?_
      intro e1 e2 h12
      cases fmt
      · show ((e1.1, j, e1.2).1, (e1.1, j, e1.2).2.1) ≠ ((e2.1, j, e2.2).1, (e2.1, j, e2.2).2.1)
        intro hc
        simp at hc
        omega
      · show ((j, e1.1, e1.2).1, (j, e1.1, e1.2).2.1) ≠ ((j, e2.1, e2.2).1, (j, e2.1, e2.2).2.1)
        intro hc
        simp at hc
        omega
    · intro t1 h1 t2 h2
      obtain ⟨e1, he1, hte1⟩ := List.mem_map.mp h1
      obtain ⟨x, hx, e2, he2, hte2⟩ := (mem_triplesOf fmt (j + 1) ss t2).mp h2
      rw [hte2, ← hte1]
      cases fmt
      · show ((e1.1, j, e1.2).1, (e1.1, j, e1.2).2.1)
          ≠ ((e2.1, j + 1 + x, e2.2).1, (e2.1, j + 1 + x, e2.2).2.1)
        intro hc
        simp at hc
        omega
      · show ((j, e1.1, e1.2).1, (j, e1.1, e1.2).2.1)
          ≠ ((j + 1 + x, e2.1, e2.2).1, (j + 1 + x, e2.1, e2.2).2.1)
        intro hc
        simp at hc
        omega

theorem get_col {ss : List (List (Nat × Int))} {m : Compressed} (hrep : Rep ss m)
    (hfmt : m.format = Format.Column) (i j : Nat) (hj : j < ss.length) :
    m.get i j = getL i (ss.getD j []) := by
  have h := get_rep hrep i j (by rw [hfmt]; exact hj)
  rw [hfmt] at h
  exact h

theorem get_row {ss : List (List (Nat × Int))} {m : Compressed} (hrep : Rep ss m)
    (hfmt : m.format = Format.Row) (i j : Nat) (hi : i < ss.length) :
    m.get i j = getL j (ss.getD i []) := by
  have h := get_rep hrep i j (by rw [hfmt]; exact hi)
  rw [hfmt] at h
  exact h

theorem toList_props (m : Compressed) (hV : Valid m) (hB : Bounded m) :
    (∀ t ∈ m.toList, t.1 < m.rows ∧ t.2.1 < m.columns ∧ m.get t.1 t.2.1 = t.2.2)
    ∧ m.toList.Pairwise (fun s t => (s.1, s.2.1) ≠ (t.1, t.2.1))
    ∧ ∀ a b, a < m.rows → b < m.columns →
        (∀ v, (a, b, v) ∉ m.toList) → m.get a b = 0 := by
  obtain ⟨hrep, hsort⟩ := rep_of_valid hV
  have hbs := bounded_slices_of hrep hB
  have hmaj : (slicesOf m).length = m.majorDim := hrep.2.2.2.2
  have htl := toList_rep hrep
  refine ⟨?_, ?_, ?_⟩
  · intro t ht
    rw [htl] at ht
    obtain ⟨x, hx, e, he, hte⟩ := (mem_triplesOf m.format 0 (slicesOf m) t).mp ht
    rw [Nat.zero_add] at hte
    have hmemx : (slicesOf m).getD x [] ∈ slicesOf m := by
      rw [List.getD_eq_getElem _ _ hx]
      exact List.getElem_mem hx
    have hminor : e.1 < m.minorDim := hbs _ hmemx e he
    have hxmaj : x < m.majorDim := by omega
    have hgetL : getL e.1 ((slicesOf m).getD x []) = e.2 :=
      getL_mem_sorted _ e.2 _ (hsort _ hmemx) he
    cases hfmt : m.format with
    | Column =>
      rw [hfmt] at hte
      rw [Compressed.minorDim, hfmt] at hminor
      rw [Compressed.majorDim, hfmt] at hxmaj
      rw [hte]
      refine ⟨hminor, hxmaj, ?_⟩
      show m.get e.1 x = e.2
      rw [get_col hrep hfmt e.1 x (by omega)]
      exact hgetL
    | Row =>
      rw [hfmt] at hte
      rw [Compressed.minorDim, hfmt] at hminor
      rw [Compressed.majorDim, hfmt] at hxmaj
      rw [hte]
      refine ⟨hxmaj, hminor, ?_⟩
      show m.get x e.1 = e.2
      rw [get_row hrep hfmt x e.1 (by omega)]
      exact hgetL
  · rw [htl]
    exact triplesOf_pairwise _ _ _ hsort
  · intro a b ha hb habs
    cases hfmt : m.format with
    | Column =>
      have hbmaj : b < (slicesOf m).length := by
        rw [hmaj, Compressed.majorDim, hfmt]
        exact hb
      rw [get_col hrep hfmt a b hbmaj]
      rcases Classical.em (∃ v, (a, v) ∈ (slicesOf m).getD b []) with hex | hex
      · obtain ⟨v, hv⟩ := hex
        exfalso
        apply habs v
        rw [htl]
        refine (mem_triplesOf m.format 0 (slicesOf m) (a, b, v)).mpr
          ⟨b, hbmaj, (a, v), hv, ?_⟩
        rw [hfmt, Nat.zero_add]
        rfl
      · push_neg at hex
        exact getL_not_mem _ _ hex
    | Row =>
      have hamaj : a < (slicesOf m).length := by
        rw [hmaj, Compressed.majorDim, hfmt]
        exact ha
      rw [get_row hrep hfmt a b hamaj]
      rcases Classical.em (∃ v, (b, v) ∈ (slicesOf m).getD a []) with hex | hex
      · obtain ⟨v, hv⟩ := hex
        exfalso
        apply habs v
        rw [htl]
        refine (mem_triplesOf m.format 0 (slicesOf m) (a, b, v)).mpr
          ⟨a, hamaj, (b, v), hv, ?_⟩
        rw [hfmt, Nat.zero_add]
        rfl
      · push_neg at hex
        exact getL_not_mem _ _ hex

theorem foldl_set_get :
    ∀ (L : List (Nat × Nat × Int)) (M0 : Compressed), Valid M0 → Bounded M0 →
      (∀ t ∈ L, t.1 < M0.rows ∧ t.2.1 < M0.columns) →
      L.Pairwise (fun s t => (s.1, s.2.1) ≠ (t.1, t.2.1)) →
      Valid (L.foldl (fun acc t => acc.set t.1 t.2.1 t.2.2) M0)
      ∧ Bounded (L.foldl (fun acc t => acc.set t.1 t.2.1 t.2.2) M0)
      ∧ (L.foldl (fun acc t => acc.set t.1 t.2.1 t.2.2) M0).rows = M0.rows
      ∧ (L.foldl (fun acc t => acc.set t.1 t.2.1 t.2.2) M0).columns = M0.columns
      ∧ (L.foldl (fun acc t => acc.set t.1 t.2.1 t.2.2) M0).format = M0.format
      ∧ ∀ a b, a < M0.rows → b < M0.columns →
          (∀ v, (a, b, v) ∈ L →
            (L.foldl (fun acc t => acc.set t.1 t.2.1 t.2.2) M0).get a b = v)
          ∧ ((∀ v, (a, b, v) ∉ L) →
            (L.foldl (fun acc t => acc.set t.1 t.2.1 t.2.2) M0).get a b = M0.get a b) := by
  intro L
  induction L with
  | nil =>
    intro M0 hV hB _ _
    refine ⟨hV, hB, rfl, rfl, rfl, ?_⟩
    intro a b _ _
    exact ⟨fun v hv => absurd hv (List.not_mem_nil _), fun _ => rfl⟩
  | cons t L ih =>
    intro M0 hV hB hbnd hpw
    rw [List.pairwise_cons] at hpw
    have hbt := hbnd t (List.mem_cons_self _ _)
    have hV1 := valid_set M0 hV t.1 t.2.1 t.2.2 hbt.1 hbt.2
    have hB1 := bounded_set M0 hV hB t.1 t.2.1 t.2.2 hbt.1 hbt.2
    have hrows1 := Compressed.set_rows M0 t.1 t.2.1 t.2.2
    have hcols1 := Compressed.set_columns M0 t.1 t.2.1 t.2.2
    have hfmt1 := Compressed.set_format M0 t.1 t.2.1 t.2.2
    have hbnd1 : ∀ u ∈ L, u.1 < (M0.set t.1 t.2.1 t.2.2).rows
        ∧ u.2.1 < (M0.set t.1 t.2.1 t.2.2).columns := by
      intro u hu
      rw [hrows1, hcols1]
      exact hbnd u (List.mem_cons_of_mem _ hu)
    obtain ⟨jV, jB, jr, jc, jf, jget⟩ :=
      ih (M0.set t.1 t.2.1 t.2.2) hV1 hB1 hbnd1 hpw.2
    simp only [List.foldl_cons]
    refine ⟨jV, jB, by rw [jr, hrows1], by rw [jc, hcols1], by rw [jf, hfmt1], ?_⟩
    intro a b ha hb
    have haM1 : a < (M0.set t.1 t.2.1 t.2.2).rows := by rw [hrows1]; exact ha
    have hbM1 : b < (M0.set t.1 t.2.1 t.2.2).columns := by rw [hcols1]; exact hb
    obtain ⟨jmem, jnone⟩ := jget a b haM1 hbM1
    constructor
    · intro v hv
      rcases List.mem_cons.mp hv with hv' | hv'
      · have h1 : a = t.1 := by rw [← hv']
        have h2 : b = t.2.1 := by rw [← hv']
        have h3 : v = t.2.2 := by rw [← hv']
        have hnoneL : ∀ v', (a, b, v') ∉ L := by
          intro v' hv''
          have := hpw.1 _ hv''
          apply this
          rw [← h1, ← h2]
        rw [jnone hnoneL, h1, h2, h3]
        exact get_after_set M0 hV t.1 t.2.1 t.2.2 hbt.1 hbt.2
      · exact jmem v hv'
    · intro hnone
      have hnoneL : ∀ v', (a, b, v') ∉ L := fun v' hv' =>
        hnone v' (List.mem_cons_of_mem _ hv')
      rw [jnone hnoneL]
      apply get_set_other M0 hV t.1 t.2.1 t.2.2 hbt.1 hbt.2 a b ha hb
      intro hc
      apply hnone t.2.2
      have ht : (a, b, t.2.2) = t := by
        rw [hc.1, hc.2]
      rw [ht]
      exact List.mem_cons_self _ _

theorem transpose_spec (m : Compressed) (hV : Valid m) (hB : Bounded m) :
    Valid m.transpose ∧ Bounded m.transpose
    ∧ m.transpose.rows = m.columns ∧ m.transpose.columns = m.rows
    ∧ m.transpose.format = m.format
    ∧ ∀ a b, a < m.columns → b < m.rows → m.transpose.get a b = m.get b a := by
  obtain ⟨hmem, hpw, habs⟩ := toList_props m hV hB
  have hTr : m.transpose = (m.toList.map (fun t => (t.2.1, t.1, t.2.2))).foldl
      (fun acc t => acc.set t.1 t.2.1 t.2.2)
      (Compressed.new m.columns m.rows m.format) := by
    show m.toList.foldl _ _ = _
    rw [List.foldl_map]
  have hbnd : ∀ t ∈ m.toList.map (fun t => (t.2.1, t.1, t.2.2)),
      t.1 < (Compressed.new m.columns m.rows m.format).rows
      ∧ t.2.1 < (Compressed.new m.columns m.rows m.format).columns := by
    intro t ht
    obtain ⟨t0, ht0, hf⟩ := List.mem_map.mp ht
    have h0 := hmem t0 ht0
    rw [← hf]
    exact ⟨h0.2.1, h0.1⟩
  have hpw' : (m.toList.map (fun t => (t.2.1, t.1, t.2.2))).Pairwise
      (fun s t => (s.1, s.2.1) ≠ (t.1, t.2.1)) := by
    rw [List.pairwise_map]
    refine hpw.imp ?_
    intro s t hst hc
    apply hst
    simp at hc
    rw [hc.1, hc.2]
  obtain ⟨jV, jB, jr, jc, jf, jget⟩ := foldl_set_get
    (m.toList.map (fun t => (t.2.1, t.1, t.2.2)))
    (Compressed.new m.columns m.rows m.format)
    (valid_new _ _ _) (bounded_new _ _ _) hbnd hpw'
  rw [hTr]
  refine ⟨jV, jB, jr, jc, jf, ?_⟩
  intro a b ha hb
  obtain ⟨jmem, jnone⟩ := jget a b ha hb
  rcases Classical.em (∃ v, (b, a, v) ∈ m.toList) with hex | hex
  · obtain ⟨v, hv⟩ := hex
    have hvL : (a, b, v) ∈ m.toList.map (fun t => (t.2.1, t.1, t.2.2)) :=
      List.mem_map.mpr ⟨(b, a, v), hv, rfl⟩
    rw [jmem v hvL]
    exact ((hmem _ hv).2.2).symm
  · push_neg at hex
    have hnone : ∀ v, (a, b, v) ∉ m.toList.map (fun t => (t.2.1, t.1, t.2.2)) := by
      intro v hvL
      obtain ⟨t0, ht0, hf⟩ := List.mem_map.mp hvL
      have h1 : t0.2.1 = a := congrArg (fun p => p.1) hf
      have h2 : t0.1 = b := congrArg (fun p => p.2.1) hf
      have h3 : t0.2.2 = v := congrArg (fun p => p.2.2) hf
      have ht : t0 = (b, a, v) := by
        rw [← h1, ← h2, ← h3]
      exact hex v (ht ▸ ht0)
    rw [jnone hnone, get_new]
    exact (habs b a hb ha hex).symm

theorem retain_false_spec (m : Compressed) (hV : Valid m) :
    (m.retain (fun _ _ _ => false)).nonzeros = 0
    ∧ (m.retain (fun _ _ _ => false)).values = []
    ∧ (m.retain (fun _ _ _ => false)).indices = []
    ∧ (m.retain (fun _ _ _ => false)).offsets = List.replicate (m.majorDim + 1) 0 := by
  obtain ⟨hrep, hsort⟩ := rep_of_valid hV
  have hr2 := retain_rep hrep (fun _ _ _ => false)
  rw [filterSlices_false] at hr2
  obtain ⟨h1, h2, h3, h4, h5⟩ := hr2
  rw [flatten_replicate_nil] at h1 h2 h3
  refine ⟨by rw [h1]; rfl, by rw [h2]; rfl, by rw [h3]; rfl, ?_⟩
  rw [h4, offsetsOf_replicate_nil, hrep.2.2.2.2]

theorem set_zero_absent (m : Compressed) (hV : Valid m) (i j : Nat) (v : Int)
    (hi : i < m.rows) (hj : j < m.columns)
    (habs : ∀ w, (i, j, w) ∉ m.toList) :
    (m.set i j v).nonzeros = m.nonzeros + 1 := by
  obtain ⟨hrep, hsort⟩ := rep_of_valid hV
  have hb := coords_bounds (m := m) i j hi hj
  have hmj : (m.format.coords i j).2 < (slicesOf m).length := by
    rw [hrep.2.2.2.2]
    exact hb.2
  apply set_nonzeros_not_found hrep i j v hmj
  by_contra hf
  rw [Bool.not_eq_false] at hf
  obtain ⟨w, hw⟩ := foundIn_mem _ _ hf
  apply habs w
  rw [toList_rep hrep]
  refine (mem_triplesOf m.format 0 (slicesOf m) (i, j, w)).mpr
    ⟨(m.format.coords i j).2, hmj, ((m.format.coords i j).1, w), hw, ?_⟩
  rw [Nat.zero_add, tripleAt_coords]

theorem fromDense_format_aux (R : Nat) : ∀ (L : List (Nat × Int)) (m0 : Compressed),
    (L.foldl (fun m kv =>
      if kv.2 = 0 then m else m.set (kv.1 % R) (kv.1 / R) kv.2) m0).format
    = m0.format := by
  intro L
  induction L with
  | nil => intro m0; rfl
  | cons kv L ih =>
    intro m0
    rw [List.foldl_cons, ih]
    by_cases h : kv.2 = 0
    · rw [if_pos h]
    · rw [if_neg h, Compressed.set_format]

/-- C1: for every Compressed matrix M (either format) satisfying the structural
invariant, every in-bounds coordinate (row, col) and every value v, reading the
coordinate after writing it returns the written value:
`get (set M row col v) row col = v`. -/
theorem claim_C1 (m : Compressed) (hV : Valid m) (row col : Nat) (v : Int)
    (hr : row < m.rows) (hc : col < m.columns) :
    (m.set row col v).get row col = v :=
  get_after_set m hV row col v hr hc

theorem claim_C1_witness :
    Valid testMatrix ∧ 2 < testMatrix.rows ∧ 3 < testMatrix.columns
    ∧ (testMatrix.set 2 3 42).get 2 3 = 42 :=
  ⟨by decide, by decide, by decide,
    claim_C1 testMatrix (by decide) 2 3 42 (by decide) (by decide)⟩

/-- C2: every mutator of a Compressed matrix (in-bounds `set`, `retain` with any
predicate, `resize` with any dimensions) preserves the structural invariant
`Valid`: values/indices lengths equal nonzeros, offsets has (major size)+1
entries, starts at 0, ends at nonzeros, is monotone, and each major slice has
strictly increasing indices. -/
theorem claim_C2 (m : Compressed) (hV : Valid m) :
    (∀ i j v, i < m.rows → j < m.columns → Valid (m.set i j v))
    ∧ (∀ cond, Valid (m.retain cond))
    ∧ (∀ r c, Valid (m.resize r c)) :=
  ⟨fun i j v hi hj => valid_set m hV i j v hi hj,
   fun cond => valid_retain m hV cond,
   fun r c => valid_resize m hV r c⟩

theorem claim_C2_witness :
    Valid testMatrix ∧ Valid (testMatrix.set 1 2 7)
    ∧ Valid (testMatrix.retain (fun i _ _ => decide (i ≠ 1)))
    ∧ Valid (testMatrix.resize 3 4) :=
  ⟨by decide,
   (claim_C2 testMatrix (by decide)).1 1 2 7 (by decide) (by decide),
   (claim_C2 testMatrix (by decide)).2.1 _,
   (claim_C2 testMatrix (by decide)).2.2 3 4⟩

/-- C3: a well-formed Dense matrix with no explicit stored zeros converts to
Compressed and back to Dense unchanged. -/
theorem claim_C3 (d : Dense) (hlen : d.values.length = d.rows * d.columns)
    (hnz : ∀ v ∈ d.values, v ≠ 0) :
    (Compressed.fromDense d).toDense = d :=
  dense_roundtrip d hlen

theorem claim_C3_witness :
    (⟨2, 2, [1, 2, 3, 4]⟩ : Dense).values.length = 2 * 2
    ∧ (∀ v ∈ (⟨2, 2, [1, 2, 3, 4]⟩ : Dense).values, v ≠ 0)
    ∧ (Compressed.fromDense ⟨2, 2, [1, 2, 3, 4]⟩).toDense = ⟨2, 2, [1, 2, 3, 4]⟩ :=
  ⟨by decide, by decide, claim_C3 ⟨2, 2, [1, 2, 3, 4]⟩ (by decide) (by decide)⟩

/-- C4 (amended): for a Column-format Compressed matrix A of dimensions m×p
satisfying the invariants, a dense right operand of length p·n and an
accumulator of length m·n, the sparse-left multiply kernel leaves the
accumulator equal to its prior contents plus densify(A)·B, elementwise.  (The
original claim, which asserted this for either format, is refuted by
`claim_C4_counterexample`: for Row-format matrices the kernel misreads the
storage.) -/
theorem claim_C4 (a : Compressed) (b c : List Int) (n : Nat)
    (hfmt : a.format = Format.Column) (hV : Valid a) (hB : Bounded a)
    (hp : 0 < a.columns) (hb : b.length = a.columns * n)
    (hc : c.length = a.rows * n) :
    (a.multiply_into b c).length = c.length
    ∧ ∀ x, x < a.rows * n → (a.multiply_into b c).getD x 0
        = c.getD x 0 + (matmulDense a.toDense.values b a.rows a.columns n).getD x 0 := by
  have hn : b.length / a.columns = n := by
    rw [hb]
    exact Nat.mul_div_cancel_left n hp
  have he : a.multiply_into b c = multiply_matrix_left a b c a.rows a.columns n := by
    show multiply_matrix_left a b c a.rows a.columns (b.length / a.columns) = _
    rw [hn]
  rw [he]
  exact multiply_left_dense a hfmt hV hB b c n hc

theorem claim_C4_witness :
    Valid { rows := 1, columns := 1, nonzeros := 1, format := Format.Column, values := [5], indices := [0], offsets := [0, 1] }
    ∧ (Compressed.multiply_into { rows := 1, columns := 1, nonzeros := 1, format := Format.Column, values := [5], indices := [0], offsets := [0, 1] } [3] [2]).getD 0 0
      = ([2] : List Int).getD 0 0
        + (matmulDense (Compressed.toDense { rows := 1, columns := 1, nonzeros := 1, format := Format.Column, values := [5], indices := [0], offsets := [0, 1] }).values [3] 1 1 1).getD 0 0 :=
  ⟨by decide,
   (claim_C4 { rows := 1, columns := 1, nonzeros := 1, format := Format.Column, values := [5], indices := [0], offsets := [0, 1] } [3] [2] 1
      (by decide) (by decide) (by decide) (by decide) (by decide) (by decide)).2
    0 (by decide)⟩

theorem claim_C4_counterexample :
    Valid { rows := 2, columns := 2, nonzeros := 1, format := Format.Row, values := [7], indices := [1], offsets := [0, 1, 1] }
    ∧ Bounded { rows := 2, columns := 2, nonzeros := 1, format := Format.Row, values := [7], indices := [1], offsets := [0, 1, 1] }
    ∧ ([0, 1] : List Int).length = 2 * 1
    ∧ ([0, 0] : List Int).length = 2 * 1
    ∧ ¬ ((Compressed.multiply_into { rows := 2, columns := 2, nonzeros := 1, format := Format.Row, values := [7], indices := [1], offsets := [0, 1, 1] } [0, 1] [0, 0]).getD 0 0
        = ([0, 0] : List Int).getD 0 0
          + (matmulDense (Compressed.toDense { rows := 2, columns := 2, nonzeros := 1, format := Format.Row, values := [7], indices := [1], offsets := [0, 1, 1] }).values [0, 1] 2 2 1).getD 0 0) := by decide

/-- C5: `resize` keeps exactly the stored entries whose coordinates fall inside
the new bounds, at unchanged coordinates and values (so shrinking drops exactly
the out-of-bounds entries and growing preserves everything and adds nothing),
and sets the new dimensions. -/
theorem claim_C5 (m : Compressed) (hV : Valid m) (hB : Bounded m) (r c : Nat) :
    (m.resize r c).rows = r ∧ (m.resize r c).columns = c
    ∧ (m.resize r c).toList
      = m.toList.filter (fun t => decide (t.1 < r) && decide (t.2.1 < c)) :=
  ⟨rfl, rfl, toList_resize m hV hB r c⟩

theorem claim_C5_witness :
    Valid testMatrix ∧ Bounded testMatrix
    ∧ ((testMatrix.resize 3 6).rows = 3 ∧ (testMatrix.resize 3 6).columns = 6
      ∧ (testMatrix.resize 3 6).toList
        = testMatrix.toList.filter (fun t => decide (t.1 < 3) && decide (t.2.1 < 6))) :=
  ⟨by decide, by decide, claim_C5 testMatrix (by decide) (by decide) 3 6⟩

/-- C6: for every Compressed matrix satisfying the structural invariant (with
in-bounds indices), transposing twice reproduces the matrix: same rows,
columns, format, and the same entry at every in-bounds coordinate. -/
theorem claim_C6 (m : Compressed) (hV : Valid m) (hB : Bounded m) :
    m.transpose.transpose.rows = m.rows
    ∧ m.transpose.transpose.columns = m.columns
    ∧ m.transpose.transpose.format = m.format
    ∧ ∀ a b, a < m.rows → b < m.columns → m.transpose.transpose.get a b = m.get a b := by
  obtain ⟨tV, tB, tr, tc, tf, tg⟩ := transpose_spec m hV hB
  obtain ⟨uV, uB, ur, uc, uf, ug⟩ := transpose_spec m.transpose tV tB
  refine ⟨by rw [ur, tc], by rw [uc, tr], by rw [uf, tf], ?_⟩
  intro a b ha hb
  rw [ug a b (by rw [tc]; exact ha) (by rw [tr]; exact hb)]
  exact tg b a hb ha

theorem claim_C6_witness :
    Valid testMatrix ∧ Bounded testMatrix
    ∧ testMatrix.transpose.transpose.get 1 2 = testMatrix.get 1 2 :=
  ⟨by decide, by decide,
   (claim_C6 testMatrix (by decide) (by decide)).2.2.2 1 2 (by decide) (by decide)⟩

/-- C7 (amended): the release-build multiply kernel contains no dimension
check at all (the `debug_assert_eq!`s are compiled out), so nothing is rejected
— `claim_C7_counterexample` exhibits a mismatched call that mutates the
accumulator.  In a debug build, modelled by `multiply_intoChecked`, a
dimension mismatch fails the assertions before any loop iteration runs, and
the accumulator is returned unchanged. -/
theorem claim_C7 (a : Compressed) (right c : List Int)
    (hmis : ¬ (right.length = a.columns * (right.length / a.columns)
      ∧ c.length = a.rows * (right.length / a.columns))) :
    a.multiply_intoChecked right c = Except.error c := by
  have hnc : ¬ (a.rows * a.columns = a.rows * a.columns
      ∧ right.length = a.columns * (right.length / a.columns)
      ∧ c.length = a.rows * (right.length / a.columns)) := by
    intro hco
    exact hmis ⟨hco.2.1, hco.2.2⟩
  show (if a.rows * a.columns = a.rows * a.columns
      ∧ right.length = a.columns * (right.length / a.columns)
      ∧ c.length = a.rows * (right.length / a.columns)
    then Except.ok (multiply_matrix_left a right c a.rows a.columns
      (right.length / a.columns))
    else Except.error c) = Except.error c
  exact if_neg hnc

theorem claim_C7_witness :
    ¬ (([1, 1, 1] : List Int).length
        = ({ rows := 1, columns := 2, nonzeros := 1, format := Format.Column, values := [3], indices := [0], offsets := [0, 1, 1] } : Compressed).columns
          * (([1, 1, 1] : List Int).length / 2)
      ∧ ([5] : List Int).length = 1 * (([1, 1, 1] : List Int).length / 2))
    ∧ Compressed.multiply_intoChecked { rows := 1, columns := 2, nonzeros := 1, format := Format.Column, values := [3], indices := [0], offsets := [0, 1, 1] } [1, 1, 1] [5] = Except.error [5] :=
  ⟨by decide,
   claim_C7 { rows := 1, columns := 2, nonzeros := 1, format := Format.Column, values := [3], indices := [0], offsets := [0, 1, 1] } [1, 1, 1] [5] (by decide)⟩

theorem claim_C7_counterexample :
    Valid { rows := 1, columns := 2, nonzeros := 1, format := Format.Column, values := [3], indices := [0], offsets := [0, 1, 1] }
    ∧ Bounded { rows := 1, columns := 2, nonzeros := 1, format := Format.Column, values := [3], indices := [0], offsets := [0, 1, 1] }
    ∧ ¬ (([1, 1, 1] : List Int).length
        = 2 * (([1, 1, 1] : List Int).length / 2))
    ∧ Compressed.multiply_into { rows := 1, columns := 2, nonzeros := 1, format := Format.Column, values := [3], indices := [0], offsets := [0, 1, 1] } [1, 1, 1] [5] ≠ [5] := by decide

/-- C8: for every Compressed matrix satisfying the structural invariant, the
stored slot count `nonzeros` is at least the derived count of numerically
non-zero values; and `set` with the value 0 at an absent in-bounds coordinate
creates a real stored slot, incrementing `nonzeros`. -/
theorem claim_C8 (m : Compressed) (hV : Valid m) :
    m.nonzerosDerived ≤ m.nonzeros
    ∧ ∀ i j, i < m.rows → j < m.columns →
        (∀ t ∈ m.toList, (t.1, t.2.1) ≠ (i, j)) →
        (m.set i j 0).nonzeros = m.nonzeros + 1 := by
  constructor
  · have h := nonzerosDerived_le m
    rw [hV.1] at h
    exact h
  · intro i j hi hj habs
    apply set_zero_absent m hV i j 0 hi hj
    intro w hw
    exact habs (i, j, w) hw rfl

theorem claim_C8_witness :
    Valid testMatrix
    ∧ testMatrix.nonzerosDerived ≤ testMatrix.nonzeros
    ∧ (testMatrix.set 0 0 0).nonzeros = testMatrix.nonzeros + 1 :=
  ⟨by decide,
   (claim_C8 testMatrix (by decide)).1,
   (claim_C8 testMatrix (by decide)).2 0 0 (by decide) (by decide) (by decide)⟩

/-- C9: `retain` with the constantly-true predicate is the identity, and
`retain` with the constantly-false predicate yields `nonzeros = 0`, empty
values and indices, all-zero offsets, and unchanged rows and columns. -/
theorem claim_C9 (m : Compressed) (hV : Valid m) :
    m.retain (fun _ _ _ => true) = m
    ∧ (m.retain (fun _ _ _ => false)).nonzeros = 0
    ∧ (m.retain (fun _ _ _ => false)).values = []
    ∧ (m.retain (fun _ _ _ => false)).indices = []
    ∧ (m.retain (fun _ _ _ => false)).offsets = List.replicate (m.majorDim + 1) 0
    ∧ (m.retain (fun _ _ _ => false)).rows = m.rows
    ∧ (m.retain (fun _ _ _ => false)).columns = m.columns := by
  obtain ⟨h1, h2, h3, h4⟩ := retain_false_spec m hV
  exact ⟨retain_true_eq m, h1, h2, h3, h4, rfl, rfl⟩

theorem claim_C9_witness :
    Valid testMatrix
    ∧ testMatrix.retain (fun _ _ _ => true) = testMatrix
    ∧ (testMatrix.retain (fun _ _ _ => false)).nonzeros = 0 :=
  ⟨by decide, (claim_C9 testMatrix (by decide)).1, (claim_C9 testMatrix (by decide)).2.1⟩

/-- C10: converting any Dense matrix to Compressed always produces the Column
(compressed-column) format, never the Row format. -/
theorem claim_C10 (d : Dense) : (Compressed.fromDense d).format = Format.Column := by
  show (d.values.enum.foldl (fun m kv =>
    if kv.2 = 0 then m else m.set (kv.1 % d.rows) (kv.1 / d.rows) kv.2)
    (Compressed.new d.rows d.columns Format.Column)).format = Format.Column
  rw [fromDense_format_aux]
  rfl

end MatrixRust
